import Mathlib

/-!
Verification of the story-turn orchestration layer of "The Noir Chronicles"
(a TypeScript single-page text-adventure front-end).

The development shallowly embeds the code of `src/services/geminiService.ts`
and the relevant handlers of `src/App.tsx`:

* `safeJsonParse` — the Response Validator: trims the raw model text, strips
  markdown code fences, narrows to the first `{` … last `}` span and parses
  the result as JSON (never throwing; `null`/`none` on failure).
* `startNewStoryS` / `generateNextEntryS` — the two Turn Orchestrator entry
  points with their deterministic fallback responses.
* `mergeAchievements`, `handleSaveS`/`handleLoadS`, `fetchWorldNewsS` /
  `handleFetchNewsS` — the App-level merge, persistence and news logic.
* a small call-trace state machine for the module-level `chatSession` handle.

`JSON.parse` / `JSON.stringify` are platform built-ins; they are modelled here
by an executable fuel-based parser and renderer over a `Json` value type.
Modelling notes: JSON numbers are modelled as integers (every numeric field in
the program's schema is declared `Type.INTEGER`); strings range over Unicode
scalar values, so `\uXXXX` escapes denoting lone UTF-16 surrogates are outside
the model.  The remote model endpoint and the browser transport are oracles
passed in as explicit function parameters.
-/

/-! ## Characters and basic scanning helpers -/

/-- The backtick character (code 96), written via its code point. -/
def backquote : Char := Char.ofNat 96

/-- The JSON whitespace characters (also the ones ECMAScript `JSON.parse`
skips between tokens). -/
def isWsChar (c : Char) : Bool := c = ' ' || c = '\t' || c = '\n' || c = '\r'

/-- Drop leading JSON whitespace. -/
def skipWs (cs : List Char) : List Char := cs.dropWhile isWsChar

/-- `startsWithL pat cs`: does `cs` begin with the literal pattern `pat`? -/
def startsWithL : List Char → List Char → Bool
  | [], _ => true
  | _ :: _, [] => false
  | p :: ps, c :: cs => p == c && startsWithL ps cs

/-- `hasSub pat cs`: does the literal pattern `pat` occur anywhere in `cs`?
Models `String.prototype.includes`. -/
def hasSub (pat : List Char) : List Char → Bool
  | [] => startsWithL pat []
  | c :: cs => startsWithL pat (c :: cs) || hasSub pat cs

/-- Index of the first occurrence of `c`, models `String.prototype.indexOf`
(`none` plays the role of `-1`). -/
def firstIdx (c : Char) : List Char → Option Nat
  | [] => none
  | x :: xs => if x = c then some 0 else (firstIdx c xs).map (· + 1)

/-- Index of the last occurrence of `c`, models
`String.prototype.lastIndexOf`. -/
def lastIdx (c : Char) (cs : List Char) : Option Nat :=
  (firstIdx c cs.reverse).map (fun i => cs.length - 1 - i)

/-- `jsSubstring cs a b` models `String.prototype.substring(a, b)`:
the two indices are swapped when `a > b`, and both are clamped to the
length. -/
def jsSubstring (cs : List Char) (a b : Nat) : List Char :=
  (cs.drop (min a b)).take (max a b - min a b)

/-- Both-ends whitespace trim, modelling `String.prototype.trim` on the
ASCII whitespace the program can observe. -/
def trimChars (cs : List Char) : List Char :=
  ((cs.dropWhile isWsChar).reverse.dropWhile isWsChar).reverse

/-- Fuel-driven worker for global replace-by-empty of a literal pattern:
matches are found left to right and are non-overlapping, exactly like
`String.prototype.replace(/pat/g, "")` on a literal pattern. -/
def replListF (pat : List Char) : Nat → List Char → List Char
  | 0, cs => cs
  | _ + 1, [] => []
  | fuel + 1, c :: cs =>
    if startsWithL pat (c :: cs) then
      replListF pat fuel (cs.drop (pat.length - 1))
    else
      c :: replListF pat fuel cs

/-- Remove every (left-to-right, non-overlapping) occurrence of the literal
pattern `pat` from `cs`. -/
def replList (pat : List Char) (cs : List Char) : List Char :=
  replListF pat cs.length cs

/-! ## The JSON value universe and a model of `JSON.parse` -/

/-- JSON values as the program's JavaScript layer sees them (numbers as
integers, see the header note). -/
inductive Json where
  | null : Json
  | bool (b : Bool) : Json
  | num (n : Int) : Json
  | str (s : String) : Json
  | arr (elems : List Json) : Json
  | obj (fields : List (String × Json)) : Json

/-- Hexadecimal digit value, both cases accepted (as in `JSON.parse`). -/
def hexVal? (c : Char) : Option Nat :=
  if '0' ≤ c ∧ c ≤ '9' then some (c.toNat - 48)
  else if 'a' ≤ c ∧ c ≤ 'f' then some (c.toNat - 87)
  else if 'A' ≤ c ∧ c ≤ 'F' then some (c.toNat - 55)
  else none

/-- Is `n` a Unicode scalar value (representable as a `Char`)? -/
def isValidScalar (n : Nat) : Bool :=
  decide (n < 55296) || (decide (57344 ≤ n) && decide (n < 1114112))

/-- The single-character JSON string escapes. -/
def escapeChar? (e : Char) : Option Char :=
  if e = '"' then some '"'
  else if e = '\\' then some '\\'
  else if e = '/' then some '/'
  else if e = 'b' then some (Char.ofNat 8)
  else if e = 'f' then some (Char.ofNat 12)
  else if e = 'n' then some '\n'
  else if e = 'r' then some '\r'
  else if e = 't' then some '\t'
  else none

/-- Scan a JSON string body (the part after the opening quote), returning the
decoded content and the input after the closing quote.  Raw control
characters are rejected, escapes are decoded; one fuel unit is spent per
content unit. -/
def parseStringBody : Nat → List Char → Option (List Char × List Char)
  | 0, _ => none
  | fuel + 1, cs =>
    match cs with
    | [] => none
    | '"' :: r => some ([], r)
    | '\\' :: r =>
      match r with
      | 'u' :: h1 :: h2 :: h3 :: h4 :: r2 =>
        match hexVal? h1, hexVal? h2, hexVal? h3, hexVal? h4 with
        | some a, some b, some c, some d =>
          let n := 4096 * a + 256 * b + 16 * c + d
          if isValidScalar n then
            match parseStringBody fuel r2 with
            | some (s, rest) => some (Char.ofNat n :: s, rest)
            | none => none
          else none
        | _, _, _, _ => none
      | e :: r2 =>
        match escapeChar? e with
        | some c =>
          match parseStringBody fuel r2 with
          | some (s, rest) => some (c :: s, rest)
          | none => none
        | none => none
      | [] => none
    | c :: r =>
      if 32 ≤ c.toNat then
        match parseStringBody fuel r with
        | some (s, rest) => some (c :: s, rest)
        | none => none
      else none

/-- Most-significant-digit-first decimal read-back. -/
def digitsToNat (ds : List Char) : Nat :=
  ds.foldl (fun a c => 10 * a + (c.toNat - 48)) 0

/-- Scan an unsigned JSON integer literal: `0`, or a nonzero leading digit
followed by a maximal digit run (the JSON grammar's no-leading-zero rule:
after a leading `0` no further digits are consumed, so `01` fails in any
delimited context). -/
def parseNatNum : List Char → Option (Nat × List Char)
  | [] => none
  | c :: r =>
    if c = '0' then some (0, r)
    else if c.isDigit then
      some (digitsToNat ((c :: r).takeWhile Char.isDigit),
            (c :: r).dropWhile Char.isDigit)
    else none

mutual

/-- Parse one JSON value (after skipping leading whitespace), returning the
value and the unconsumed input.  Fuel decreases by one on every recursive
call; `input.length + 1` fuel always suffices. -/
def parseValue : Nat → List Char → Option (Json × List Char)
  | 0, _ => none
  | fuel + 1, cs =>
    match skipWs cs with
    | [] => none
    | '{' :: r =>
      match skipWs r with
      | '}' :: rest => some (Json.obj [], rest)
      | r2 =>
        match parseMemberList fuel r2 with
        | some (kvs, rest) => some (Json.obj kvs, rest)
        | none => none
    | '[' :: r =>
      match skipWs r with
      | ']' :: rest => some (Json.arr [], rest)
      | r2 =>
        match parseElemList fuel r2 with
        | some (vs, rest) => some (Json.arr vs, rest)
        | none => none
    | '"' :: r =>
      match parseStringBody fuel r with
      | some (s, rest) => some (Json.str (String.mk s), rest)
      | none => none
    | 't' :: r => if startsWithL ['r', 'u', 'e'] r then some (Json.bool true, r.drop 3) else none
    | 'f' :: r => if startsWithL ['a', 'l', 's', 'e'] r then some (Json.bool false, r.drop 4) else none
    | 'n' :: r => if startsWithL ['u', 'l', 'l'] r then some (Json.null, r.drop 3) else none
    | '-' :: r =>
      match parseNatNum r with
      | some (n, rest) => some (Json.num (-(n : Int)), rest)
      | none => none
    | c :: r =>
      if c.isDigit then
        match parseNatNum (c :: r) with
        | some (n, rest) => some (Json.num (n : Int), rest)
        | none => none
      else none

/-- Parse a nonempty comma-separated member list whose first key's opening
quote is the very next character. -/
def parseMemberList : Nat → List Char → Option (List (String × Json) × List Char)
  | 0, _ => none
  | fuel + 1, cs =>
    match cs with
    | '"' :: r =>
      match parseStringBody fuel r with
      | some (k, r1) =>
        match skipWs r1 with
        | ':' :: r2 =>
          match parseValue fuel r2 with
          | some (v, r3) =>
            match skipWs r3 with
            | ',' :: r4 =>
              match parseMemberList fuel (skipWs r4) with
              | some (kvs, r5) => some ((String.mk k, v) :: kvs, r5)
              | none => none
            | '}' :: r4 => some ([(String.mk k, v)], r4)
            | _ => none
          | none => none
        | _ => none
      | none => none
    | _ => none

/-- Parse a nonempty comma-separated element list. -/
def parseElemList : Nat → List Char → Option (List Json × List Char)
  | 0, _ => none
  | fuel + 1, cs =>
    match parseValue fuel cs with
    | some (v, r1) =>
      match skipWs r1 with
      | ',' :: r2 =>
        match parseElemList fuel r2 with
        | some (vs, r3) => some (v :: vs, r3)
        | none => none
      | ']' :: r2 => some ([v], r2)
      | _ => none
    | none => none

end

/-- The model of `JSON.parse` on character lists: parse one value and require
that only whitespace remains. -/
def jsonParseChars (cs : List Char) : Option Json :=
  match parseValue (cs.length + 1) cs with
  | some (v, rest) => if skipWs rest = [] then some v else none
  | none => none

/-- The model of `JSON.parse` on strings. -/
def jsonParse (s : String) : Option Json := jsonParseChars s.data

/-- JavaScript truthiness of a parsed JSON value (`null`, `false`, `0` and
`""` are falsy). -/
def jsTruthy : Json → Bool
  | .null => false
  | .bool b => b
  | .num n => n != 0
  | .str s => s != ""
  | .arr _ => true
  | .obj _ => true

/-! ## The Response Validator (`safeJsonParse`, geminiService.ts lines 79-95) -/

/-- The fenced-code-block marker (three backticks). -/
def fenceMark : List Char := [backquote, backquote, backquote]

/-- The json-tagged fence opener. -/
def fenceJsonMark : List Char := [backquote, backquote, backquote, 'j', 's', 'o', 'n']

/-- `cleanText.replace(/```json/g, "").replace(/```/g, "")`. -/
def stripFences (cs : List Char) : List Char :=
  replList fenceMark (replList fenceJsonMark cs)

/-- The Response Validator: trim; if any fence marker occurs, strip all
`fenceJsonMark` then all `fenceMark` occurrences; locate the first `{` and
last `}` and, when both exist, narrow to that (substring-swapped) span; then
parse.  Total by construction — parse failure is the `none` the source's
`catch` turns into `null`. -/
def safeJsonParseChars (text : List Char) : Option Json :=
  let t1 := trimChars text
  let t2 := if hasSub fenceMark t1 then stripFences t1 else t1
  match firstIdx '{' t2, lastIdx '}' t2 with
  | some i, some k => jsonParseChars (jsSubstring t2 i (k + 1))
  | _, _ => jsonParseChars t2

/-- `safeJsonParse` on strings. -/
def safeJsonParse (s : String) : Option Json := safeJsonParseChars s.data

/-! ## A model of `JSON.stringify` -/

/-- Decimal digits of a natural number, most significant first. -/
def natToChars (n : Nat) : List Char :=
  if n = 0 then ['0'] else (Nat.digits 10 n).reverse.map Nat.digitChar

/-- Decimal rendering of an integer. -/
def intToChars (n : Int) : List Char :=
  if n < 0 then '-' :: natToChars n.natAbs else natToChars n.natAbs

/-- `JSON.stringify`'s escape of one string character: `\"`, `\\`, the short
control escapes, `\u00xx` for the other control characters, and the
character itself otherwise. -/
def escChar (c : Char) : List Char :=
  if c = '"' then ['\\', '"']
  else if c = '\\' then ['\\', '\\']
  else if c = '\n' then ['\\', 'n']
  else if c = '\r' then ['\\', 'r']
  else if c = '\t' then ['\\', 't']
  else if c.toNat = 8 then ['\\', 'b']
  else if c.toNat = 12 then ['\\', 'f']
  else if c.toNat < 32 then
    ['\\', 'u', '0', '0', Nat.digitChar (c.toNat / 16), Nat.digitChar (c.toNat % 16)]
  else [c]

/-- Escape a whole string body. -/
def escStr : List Char → List Char
  | [] => []
  | c :: cs => escChar c ++ escStr cs

mutual

/-- Render a JSON value the way `JSON.stringify` does (no added
whitespace). -/
def renderJson : Json → List Char
  | .null => 'n' :: 'u' :: 'l' :: ['l']
  | .bool true => 't' :: 'r' :: 'u' :: ['e']
  | .bool false => 'f' :: 'a' :: 'l' :: 's' :: ['e']
  | .num n => intToChars n
  | .str s => '"' :: (escStr s.data ++ ['"'])
  | .arr vs => '[' :: (renderElems vs ++ [']'])
  | .obj kvs => '{' :: (renderMembers kvs ++ ['}'])

/-- Render array elements. -/
def renderElems : List Json → List Char
  | [] => []
  | v :: vs => renderJson v ++ renderElemsT vs

/-- Render the `,`-preceded tail of an element list. -/
def renderElemsT : List Json → List Char
  | [] => []
  | v :: vs => ',' :: (renderJson v ++ renderElemsT vs)

/-- Render object members. -/
def renderMembers : List (String × Json) → List Char
  | [] => []
  | (k, v) :: kvs => renderMember k v ++ renderMembersT kvs

/-- Render the `,`-preceded tail of a member list. -/
def renderMembersT : List (String × Json) → List Char
  | [] => []
  | (k, v) :: kvs => ',' :: (renderMember k v ++ renderMembersT kvs)

/-- Render one `"key":value` member. -/
def renderMember (k : String) (v : Json) : List Char :=
  '"' :: (escStr k.data ++ '"' :: ':' :: renderJson v)

end

/-! ## Game data types (src/types.ts) -/

/-- Player statistics (`CharacterStats`). -/
structure CharacterStats where
  health : Int
  resolve : Int
  suspicion : Int
deriving DecidableEq

/-- An NPC record (`GameCharacter`; `status` is one of the four literal
strings, carried as a string as in the serialized form). -/
structure GameCharacter where
  name : String
  description : String
  status : String
deriving DecidableEq

/-- An achievement (`Achievement`). -/
structure Achievement where
  id : String
  title : String
  description : String
deriving DecidableEq

/-- One transcript entry (`DiaryEntry`; `isUserAction` is optional). -/
structure DiaryEntry where
  id : String
  text : String
  timestamp : String
  isUserAction : Option Bool
deriving DecidableEq

/-- A full session snapshot (`SaveData`). -/
structure SaveData where
  entries : List DiaryEntry
  stats : CharacterStats
  inventory : List String
  characters : List GameCharacter
  achievements : List Achievement
  premise : String
  timestamp : String
deriving DecidableEq

/-! ## Encoding game data to JSON (what `JSON.stringify` sees) -/

/-- Stats as a JSON object. -/
def encodeStats (s : CharacterStats) : Json :=
  Json.obj [("health", Json.num s.health), ("resolve", Json.num s.resolve),
            ("suspicion", Json.num s.suspicion)]

/-- A string list as a JSON array. -/
def encodeStrList (l : List String) : Json := Json.arr (l.map Json.str)

/-- A character record as a JSON object. -/
def encodeCharacter (c : GameCharacter) : Json :=
  Json.obj [("name", Json.str c.name), ("description", Json.str c.description),
            ("status", Json.str c.status)]

/-- The character roster as a JSON array. -/
def encodeCharacters (cs : List GameCharacter) : Json :=
  Json.arr (cs.map encodeCharacter)

/-- An achievement as a JSON object. -/
def encodeAchievement (a : Achievement) : Json :=
  Json.obj [("id", Json.str a.id), ("title", Json.str a.title),
            ("description", Json.str a.description)]

/-- A diary entry as a JSON object (`JSON.stringify` drops an undefined
`isUserAction`). -/
def encodeEntry (e : DiaryEntry) : Json :=
  Json.obj ([("id", Json.str e.id), ("text", Json.str e.text),
             ("timestamp", Json.str e.timestamp)] ++
    (match e.isUserAction with
     | some b => [("isUserAction", Json.bool b)]
     | none => []))

/-- The save-file object built by `handleSave` (App.tsx lines 139-152),
field for field. -/
def encodeSaveData (d : SaveData) : Json :=
  Json.obj [("entries", Json.arr (d.entries.map encodeEntry)),
            ("stats", encodeStats d.stats),
            ("inventory", encodeStrList d.inventory),
            ("characters", encodeCharacters d.characters),
            ("achievements", Json.arr (d.achievements.map encodeAchievement)),
            ("premise", Json.str d.premise),
            ("timestamp", Json.str d.timestamp)]

/-! ## Reading parsed JSON back into game data (the property accesses the
loading code performs on the parsed save object) -/

/-- Field access on a parsed JSON object (first occurrence, as in JS). -/
def jGet (v : Json) (key : String) : Option Json :=
  match v with
  | Json.obj kvs => kvs.lookup key
  | _ => none

/-- Does the parsed value carry the given field? -/
def jHasField (v : Json) (key : String) : Bool := (jGet v key).isSome

/-- Expect a string. -/
def asStr : Json → Option String
  | Json.str s => some s
  | _ => none

/-- Expect an integer. -/
def asInt : Json → Option Int
  | Json.num n => some n
  | _ => none

/-- Expect an array. -/
def asArr : Json → Option (List Json)
  | Json.arr vs => some vs
  | _ => none

/-- Decode stats. -/
def decodeStats (v : Json) : Option CharacterStats := do
  let h ← (jGet v "health").bind asInt
  let r ← (jGet v "resolve").bind asInt
  let s ← (jGet v "suspicion").bind asInt
  pure ⟨h, r, s⟩

/-- Decode a character record. -/
def decodeCharacter (v : Json) : Option GameCharacter := do
  let n ← (jGet v "name").bind asStr
  let d ← (jGet v "description").bind asStr
  let s ← (jGet v "status").bind asStr
  pure ⟨n, d, s⟩

/-- Decode an achievement. -/
def decodeAchievement (v : Json) : Option Achievement := do
  let i ← (jGet v "id").bind asStr
  let t ← (jGet v "title").bind asStr
  let d ← (jGet v "description").bind asStr
  pure ⟨i, t, d⟩

/-- Decode a diary entry (an absent `isUserAction` stays absent). -/
def decodeEntry (v : Json) : Option DiaryEntry := do
  let i ← (jGet v "id").bind asStr
  let t ← (jGet v "text").bind asStr
  let ts ← (jGet v "timestamp").bind asStr
  let ua := match jGet v "isUserAction" with
    | some (Json.bool b) => some b
    | _ => none
  pure ⟨i, t, ts, ua⟩

/-- Decode each element of a list of JSON values, failing if any fails. -/
def mapDecode {α : Type} (f : Json → Option α) : List Json → Option (List α)
  | [] => some []
  | v :: vs =>
    match f v, mapDecode f vs with
    | some a, some as => some (a :: as)
    | _, _ => none

/-- Decode a JSON array elementwise. -/
def decodeList {α : Type} (f : Json → Option α) (v : Json) : Option (List α) :=
  (asArr v).bind (mapDecode f)

/-- Decode a full save record. -/
def decodeSaveData (v : Json) : Option SaveData := do
  let es ← (jGet v "entries").bind (decodeList decodeEntry)
  let st ← (jGet v "stats").bind decodeStats
  let inv ← (jGet v "inventory").bind (decodeList asStr)
  let chs ← (jGet v "characters").bind (decodeList decodeCharacter)
  let achs ← (jGet v "achievements").bind (decodeList decodeAchievement)
  let p ← (jGet v "premise").bind asStr
  let ts ← (jGet v "timestamp").bind asStr
  pure ⟨es, st, inv, chs, achs, p, ts⟩

/-! ## Persistence (App.tsx `handleSave` lines 139-152, `handleLoad`
lines 154-173) -/

/-- `handleSave`: serialize the session snapshot
(`localStorage.setItem(SAVE_KEY, JSON.stringify(data))`). -/
def handleSaveS (d : SaveData) : String :=
  String.mk (renderJson (encodeSaveData d))

/-- `handleLoad`: read the stored blob, `JSON.parse` it and take the session
fields from the parsed object; a missing or unreadable record loads
nothing. -/
def handleLoadS (raw : Option String) : Option SaveData :=
  match raw with
  | none => none
  | some s =>
    match jsonParse s with
    | some v => decodeSaveData v
    | none => none

/-! ## The Gemini service layer (src/services/geminiService.ts) -/

/-- The client object made by `new GoogleGenAI({apiKey})`. -/
structure AIInstance where
  apiKey : String
deriving DecidableEq

/-- The chat session handle made by `aiInstance.chats.create({...})`. -/
structure ChatSession where
  model : String
deriving DecidableEq

/-- `initializeGemini` (lines 97-103): a falsy key leaves the instance
untouched. -/
def initializeGeminiS (ai : Option AIInstance) (apiKey : String) : Option AIInstance :=
  if apiKey = "" then ai else some ⟨apiKey⟩

/-- The transport oracle for one `sendMessage`/`generateContent` call:
`none` models the promise rejecting (a thrown transport error), `some t`
models a resolved response whose `.text` is `t` (`none` inside for an
undefined `.text`). -/
def SendOracle : Type := String → Option (Option String)

/-- The opening prompt of `startNewStory` (line 122). -/
def buildStartPrompt (premise : String) : String :=
  "START GAME. Premise: \"" ++ premise ++
  "\". Initialize stats (100/100/0). Give 1 starting item. Initialize character list (maybe just the protagonist or a key contact)."

/-- The fallback `StoryResponse` of `startNewStory` (lines 132-137). -/
def startFallback : Json :=
  Json.obj [("narrative", Json.str "The city is quiet tonight. Too quiet. (System Error)"),
            ("stats", encodeStats ⟨100, 100, 0⟩),
            ("inventory", encodeStrList ["(Unknown)"]),
            ("characters", Json.arr [])]

/-- Shared response handling of both entry points: `if (response.text)` then
parse, return the parsed value when truthy, otherwise fall through to the
fallback (the `throw new Error("Invalid AI response")` caught in the same
function). -/
def handleModelReply (reply : Option (Option String)) (fallback : Json) : Json :=
  match reply with
  | none => fallback
  | some none => fallback
  | some (some t) =>
    if t = "" then fallback
    else
      match safeJsonParse t with
      | some v => if jsTruthy v then v else fallback
      | none => fallback

/-- The failure condition of one model call: transport rejection, missing or
empty text, unparsable text, or a falsy parse. -/
def respFailure (reply : Option (Option String)) : Prop :=
  match reply with
  | none => True
  | some none => True
  | some (some t) =>
    t = "" ∨ (match safeJsonParse t with
              | none => True
              | some v => jsTruthy v = false)

/-- `startNewStory` (lines 105-139): requires an initialized client, always
replaces the module-level chat session before the guarded call, and returns
either the parsed response or the deterministic fallback.  The returned pair
is (new chat-session handle, result). -/
def startNewStoryS (ai : Option AIInstance) (prevSession : Option ChatSession)
    (premise : String) (send : SendOracle) :
    Option ChatSession × Except String Json :=
  match ai with
  | none => (prevSession, Except.error "Gemini not initialized.")
  | some _ =>
    let session : ChatSession := ⟨"gemini-2.5-flash"⟩
    let prompt := buildStartPrompt premise
    (some session, Except.ok (handleModelReply (send prompt) startFallback))

/-- The turn prompt of `generateNextEntry` (lines 149-156), byte for byte:
a template literal whose interpolations are the three stats, the
`JSON.stringify` of the inventory and of the character names, and the
normalized action. -/
def buildNextPrompt (finalAction : String) (stats : CharacterStats)
    (inv : List String) (chars : List GameCharacter) : String :=
  "\n    Context:\n    - Stats: HP:" ++ String.mk (intToChars stats.health) ++
  ", PSY:" ++ String.mk (intToChars stats.resolve) ++
  ", SUS:" ++ String.mk (intToChars stats.suspicion) ++
  "\n    - Inventory: " ++ String.mk (renderJson (encodeStrList inv)) ++
  "\n    - Known Characters: " ++ String.mk (renderJson (encodeStrList (chars.map (·.name)))) ++
  "\n\n    Action: \"" ++ finalAction ++ "\"\n    "

/-- The fallback `StoryResponse` of `generateNextEntry` (lines 167-172):
the fixed narrative line plus the caller's stats, inventory and characters
unchanged. -/
def nextFallback (stats : CharacterStats) (inv : List String)
    (chars : List GameCharacter) : Json :=
  Json.obj [("narrative", Json.str "The shadows lengthen... (AI Connection Error)"),
            ("stats", encodeStats stats),
            ("inventory", encodeStrList inv),
            ("characters", encodeCharacters chars)]

/-- `generateNextEntry` (lines 141-174): fails fast without a session,
normalizes an all-whitespace action to `"I wait."`, sends the context
prompt, and falls back to `nextFallback` on any transport or validation
failure. -/
def generateNextEntryS (chatSession : Option ChatSession) (userAction : String)
    (currentStats : CharacterStats) (currentInventory : List String)
    (currentCharacters : List GameCharacter) (send : SendOracle) :
    Except String Json :=
  match chatSession with
  | none => Except.error "Game session not active."
  | some _ =>
    let finalAction := if trimChars userAction.data = [] then "I wait." else userAction
    let prompt := buildNextPrompt finalAction currentStats currentInventory currentCharacters
    Except.ok (handleModelReply (send prompt)
      (nextFallback currentStats currentInventory currentCharacters))

/-! ## Achievement merge (App.tsx `handleUserAction` lines 249-255) -/

/-- The caller-side achievement merge: filter the delivered batch against the
existing set by identifier and append only the genuinely new ones (the
source skips the state update entirely when nothing remains, which yields
the same list). -/
def mergeAchievements (achievements : List Achievement)
    (incoming : List Achievement) : List Achievement :=
  let uniqueNew := incoming.filter (fun na => !(achievements.any (fun a => a.id == na.id)))
  if uniqueNew.length > 0 then achievements ++ uniqueNew else achievements

/-! ## Thematic News Lookup (geminiService.ts `fetchWorldNews` lines 205-227,
App.tsx `handleFetchNews` lines 296-308) -/

/-- A `{title, uri}` source citation (`chunk.web`). -/
structure WebSource where
  title : String
  uri : String
deriving DecidableEq

/-- One grounding chunk; its `web` field may be absent. -/
structure GroundingChunk where
  web : Option WebSource
deriving DecidableEq

/-- The response of a `generateContent` call with search grounding:
`text` may be undefined, and the optional chain
`candidates?.[0]?.groundingMetadata?.groundingChunks` may be absent. -/
structure GenContentResponse where
  text : Option String
  chunks : Option (List GroundingChunk)

/-- The news prompt of `fetchWorldNews` (lines 208-211). -/
def buildNewsPrompt (premise : String) : String :=
  "Find 3-5 real-world recent news headlines or historical events that thematically align with this story premise: \"" ++
  premise ++ "\".\n  If the premise implies a specific era (e.g., 1940s), find news from that era.\n  If it's modern, find current news about crime, mysteries, or relevant topics.\n  Format as a short, punchy list."

/-- `fetchWorldNews`: throws when uninitialized, propagates a transport
rejection (it has no try/catch of its own), and on success returns the text
plus `chunks.map(c => c.web).filter(w => w) || []` — no deduplication.  The
call oracle maps the prompt to `none` (rejection) or a response. -/
def fetchWorldNewsS (ai : Option AIInstance) (premise : String)
    (call : String → Option GenContentResponse) :
    Except String (Option String × List WebSource) :=
  match ai with
  | none => Except.error "AI not initialized"
  | some _ =>
    match call (buildNewsPrompt premise) with
    | none => Except.error "transport error"
    | some resp =>
      Except.ok (resp.text,
        match resp.chunks with
        | some cs => (cs.map (·.web)).filterMap id
        | none => [])

/-- `handleFetchNews`: sources are cleared before the call; on success the
content is `result.text || "No headlines found."` and the sources are
`result.sources || []`; the catch leaves the sources empty and shows the
fixed wire-failure line.  Returns (news content, news sources). -/
def handleFetchNewsS (r : Except String (Option String × List WebSource)) :
    String × List WebSource :=
  match r with
  | Except.ok (t, srcs) =>
    ((match t with
      | some s => if s = "" then "No headlines found." else s
      | none => "No headlines found."), srcs)
  | Except.error _ => ("Unable to fetch wire services.", [])

/-! ## The module-level session state machine (geminiService.ts lines 4-5:
`let chatSession = null; let aiInstance = null;`) -/

/-- The two module-level mutable bindings. -/
structure ModuleState where
  chatSession : Option ChatSession
  aiInstance : Option AIInstance

/-- The module's state before any call. -/
def initialModuleState : ModuleState := ⟨none, none⟩

/-- One externally visible call into the service module. -/
inductive ApiCall where
  | init (apiKey : String)
  | start (premise : String) (send : SendOracle)
  | next (userAction : String) (stats : CharacterStats) (inv : List String)
      (chars : List GameCharacter) (send : SendOracle)

/-- Execute one call against the module state, returning the new state and
the call's visible outcome (`none` for the void initializer). -/
def stepCall (st : ModuleState) : ApiCall → ModuleState × Option (Except String Json)
  | ApiCall.init k => (⟨st.chatSession, initializeGeminiS st.aiInstance k⟩, none)
  | ApiCall.start p send =>
    let r := startNewStoryS st.aiInstance st.chatSession p send
    (⟨r.1, st.aiInstance⟩, some r.2)
  | ApiCall.next ua s i c send =>
    (st, some (generateNextEntryS st.chatSession ua s i c send))

/-- Run a call trace from a state. -/
def runCalls (st : ModuleState) : List ApiCall → ModuleState
  | [] => st
  | c :: cs => runCalls (stepCall st c).1 cs

/-! ## A structural size measure for JSON values (used only to discharge the
fuel bounds of the parser in proofs) -/

mutual

/-- Parser-fuel cost of a value. -/
def jsize : Json → Nat
  | .null => 1
  | .bool _ => 1
  | .num _ => 1
  | .str s => s.length + 2
  | .arr vs => jsizeL vs + 1
  | .obj kvs => jsizeM kvs + 1

/-- Parser-fuel cost of an element list. -/
def jsizeL : List Json → Nat
  | [] => 0
  | v :: vs => jsize v + jsizeL vs + 1

/-- Parser-fuel cost of a member list. -/
def jsizeM : List (String × Json) → Nat
  | [] => 0
  | (k, v) :: kvs => k.length + jsize v + jsizeM kvs + 3

end

/-! ## Helper lemmas -/

theorem handleModelReply_of_failure (reply : Option (Option String)) (fb : Json)
    (h : respFailure reply) : handleModelReply reply fb = fb := by
  unfold respFailure at h
  unfold handleModelReply
  match reply with
  | none => rfl
  | some none => rfl
  | some (some t) =>
    rcases h with h | h
    · simp [h]
    · by_cases ht : t = ""
      · simp [ht]
      · simp only [if_neg ht]
        match hp : safeJsonParse t with
        | none => rfl
        | some v =>
          rw [hp] at h
          simp [h]

theorem stepCall_preserves_session (st : ModuleState) (c : ApiCall)
    (h : st.chatSession.isSome = true) : ((stepCall st c).1).chatSession.isSome = true := by
  cases c with
  | init k => exact h
  | start p send =>
    unfold stepCall startNewStoryS
    cases hai : st.aiInstance with
    | none => exact h
    | some a => rfl
  | next ua s i ch send => exact h

theorem runCalls_preserves_session (cs : List ApiCall) (st : ModuleState)
    (h : st.chatSession.isSome = true) : (runCalls st cs).chatSession.isSome = true := by
  induction cs generalizing st with
  | nil => exact h
  | cons c cs ih => exact ih _ (stepCall_preserves_session st c h)

theorem start_sets_session (st : ModuleState) (p : String) (send : SendOracle)
    (h : st.aiInstance.isSome = true) :
    ((stepCall st (ApiCall.start p send)).1).chatSession.isSome = true := by
  unfold stepCall startNewStoryS
  cases hai : st.aiInstance with
  | none => rw [hai] at h; exact absurd h (by simp)
  | some a => rfl

theorem generateNextEntryS_ok_of_session (c : ChatSession) (ua : String)
    (s : CharacterStats) (i : List String) (ch : List GameCharacter) (send : SendOracle) :
    generateNextEntryS (some c) ua s i ch send =
      Except.ok (handleModelReply
        (send (buildNextPrompt (if trimChars ua.data = [] then "I wait." else ua) s i ch))
        (nextFallback s i ch)) := rfl

theorem runCalls_append (st : ModuleState) (l r : List ApiCall) :
    runCalls st (l ++ r) = runCalls (runCalls st l) r := by
  induction l generalizing st with
  | nil => rfl
  | cons c cs ih => exact ih _

/-! ## Claims -/

/-- C4: whenever `generateNextEntry` runs with an active session and the
model call hits a transport or validation failure, the returned fallback
response carries the caller's stats, inventory and characters unchanged,
with only the fixed substituted narrative line. -/
theorem advanceStory_failure_preserves_state
    (cs : ChatSession) (userAction : String) (stats : CharacterStats)
    (inv : List String) (chars : List GameCharacter) (send : SendOracle)
    (hfail : respFailure (send (buildNextPrompt
      (if trimChars userAction.data = [] then "I wait." else userAction) stats inv chars))) :
    generateNextEntryS (some cs) userAction stats inv chars send =
      Except.ok (Json.obj
        [("narrative", Json.str "The shadows lengthen... (AI Connection Error)"),
         ("stats", encodeStats stats),
         ("inventory", encodeStrList inv),
         ("characters", encodeCharacters chars)]) := by
  rw [generateNextEntryS_ok_of_session, handleModelReply_of_failure _ _ hfail]
  rfl

/-- C4 witness: a concrete transport failure echoes the concrete state. -/
theorem advanceStory_failure_preserves_state_spot :
    generateNextEntryS (some ⟨"gemini-2.5-flash"⟩) "look around" ⟨10, 20, 30⟩
      ["revolver"] [⟨"Joe", "partner", "Alive"⟩] (fun _ => none) =
      Except.ok (Json.obj
        [("narrative", Json.str "The shadows lengthen... (AI Connection Error)"),
         ("stats", encodeStats ⟨10, 20, 30⟩),
         ("inventory", encodeStrList ["revolver"]),
         ("characters", encodeCharacters [⟨"Joe", "partner", "Alive"⟩])]) :=
  advanceStory_failure_preserves_state ⟨"gemini-2.5-flash"⟩ "look around" ⟨10, 20, 30⟩
    ["revolver"] [⟨"Joe", "partner", "Alive"⟩] (fun _ => none) trivial

/-- C5: when `startNewStory` runs with an initialized client and the model
call fails or its response is unparsable, the result is the deterministic
fallback: fixed narrative, stats 100/100/0, inventory `["(Unknown)"]` and an
empty character list. -/
theorem beginStory_failure_fallback (ai : AIInstance) (prev : Option ChatSession)
    (premise : String) (send : SendOracle)
    (hfail : respFailure (send (buildStartPrompt premise))) :
    (startNewStoryS (some ai) prev premise send).2 =
      Except.ok (Json.obj
        [("narrative", Json.str "The city is quiet tonight. Too quiet. (System Error)"),
         ("stats", Json.obj [("health", Json.num 100), ("resolve", Json.num 100),
                             ("suspicion", Json.num 0)]),
         ("inventory", Json.arr [Json.str "(Unknown)"]),
         ("characters", Json.arr [])]) := by
  show Except.ok (handleModelReply (send (buildStartPrompt premise)) startFallback) = _
  rw [handleModelReply_of_failure _ _ hfail]
  rfl

/-- C5 witness: a concrete failing call yields the fallback. -/
theorem beginStory_failure_fallback_spot :
    (startNewStoryS (some ⟨"key"⟩) none "You are a detective..." (fun _ => none)).2 =
      Except.ok (Json.obj
        [("narrative", Json.str "The city is quiet tonight. Too quiet. (System Error)"),
         ("stats", Json.obj [("health", Json.num 100), ("resolve", Json.num 100),
                             ("suspicion", Json.num 0)]),
         ("inventory", Json.arr [Json.str "(Unknown)"]),
         ("characters", Json.arr [])]) :=
  beginStory_failure_fallback ⟨"key"⟩ none "You are a detective..." (fun _ => none) trivial

/-- C6: an empty or all-whitespace action is normalized to the canonical
wait action: the same prompt is built and, against any transport oracle, the
whole call result is the same as for `"I wait."`. -/
theorem advanceStory_blank_action_is_wait (chat : Option ChatSession)
    (userAction : String) (stats : CharacterStats) (inv : List String)
    (chars : List GameCharacter) (send : SendOracle)
    (hblank : trimChars userAction.data = []) :
    buildNextPrompt (if trimChars userAction.data = [] then "I wait." else userAction)
        stats inv chars =
      buildNextPrompt (if trimChars "I wait.".data = [] then "I wait." else "I wait.")
        stats inv chars ∧
    generateNextEntryS chat userAction stats inv chars send =
      generateNextEntryS chat "I wait." stats inv chars send := by
  constructor
  · simp [hblank]
  · cases chat with
    | none => rfl
    | some c =>
      unfold generateNextEntryS
      simp [hblank]

/-- C6 witness: a concrete whitespace action behaves like the wait action. -/
theorem advanceStory_blank_action_is_wait_spot :
    buildNextPrompt (if trimChars "   ".data = [] then "I wait." else "   ")
        ⟨1, 2, 3⟩ [] [] =
      buildNextPrompt (if trimChars "I wait.".data = [] then "I wait." else "I wait.")
        ⟨1, 2, 3⟩ [] [] ∧
    generateNextEntryS (some ⟨"gemini-2.5-flash"⟩) "   " ⟨1, 2, 3⟩ [] [] (fun _ => none) =
      generateNextEntryS (some ⟨"gemini-2.5-flash"⟩) "I wait." ⟨1, 2, 3⟩ [] [] (fun _ => none) :=
  advanceStory_blank_action_is_wait (some ⟨"gemini-2.5-flash"⟩) "   " ⟨1, 2, 3⟩ [] []
    (fun _ => none) rfl

/-- C7 counterexample: the claim that after a merge "achievement identifiers
remain unique within the set" fails as stated: a delivered batch that itself
contains two achievements with the same identifier (none of them previously
known) is appended wholesale, so the merged set carries a duplicated
identifier. -/
theorem achievementMerge_batch_duplicate_counterexample :
    mergeAchievements [] [⟨"x", "t", "d"⟩, ⟨"x", "t2", "d2"⟩] =
      [⟨"x", "t", "d"⟩, ⟨"x", "t2", "d2"⟩] ∧
    ¬ ((mergeAchievements [] [⟨"x", "t", "d"⟩, ⟨"x", "t2", "d2"⟩]).map
        Achievement.id).Nodup := by
  constructor
  · rfl
  · decide

/-- C7 (amended): an achievement whose identifier already occurs in the
existing set is never appended again — the occurrences of such an identifier
are exactly those already present — and, provided the existing identifiers
are unique and the delivered batch carries pairwise-distinct identifiers,
identifiers remain unique after the merge. -/
theorem achievementMerge_idempotent (existing incoming : List Achievement)
    (hexist : (existing.map Achievement.id).Nodup)
    (hinc : (incoming.map Achievement.id).Nodup) :
    (∀ a : Achievement, (∃ e ∈ existing, e.id = a.id) →
      (mergeAchievements existing incoming).filter (fun x => x.id == a.id) =
        existing.filter (fun x => x.id == a.id)) ∧
    ((mergeAchievements existing incoming).map Achievement.id).Nodup := by
  have hmerge : mergeAchievements existing incoming =
      existing ++ incoming.filter (fun na => !(existing.any (fun a => a.id == na.id))) := by
    simp only [mergeAchievements]
    by_cases h :
        (incoming.filter (fun na => !(existing.any (fun a => a.id == na.id)))).length > 0
    · simp only [if_pos h]
    · simp only [if_neg h]
      have hnil : incoming.filter (fun na => !(existing.any (fun a => a.id == na.id))) = [] :=
        List.length_eq_zero.mp (by omega)
      rw [hnil, List.append_nil]
  constructor
  · rintro a ⟨e, he, hid⟩
    rw [hmerge, List.filter_append]
    have hzero : (incoming.filter
        (fun na => !(existing.any (fun b => b.id == na.id)))).filter
          (fun x => x.id == a.id) = [] := by
      rw [List.filter_eq_nil_iff]
      intro x hx hxa
      have hmem := List.of_mem_filter hx
      have hany : existing.any (fun b => b.id == x.id) = true := by
        refine List.any_eq_true.mpr ⟨e, he, ?_⟩
        rw [beq_iff_eq, hid]
        exact (beq_iff_eq.mp hxa).symm
      rw [hany] at hmem
      exact absurd hmem (by decide)
    rw [hzero, List.append_nil]
  · rw [hmerge, List.map_append, List.nodup_append]
    refine ⟨hexist, ?_, ?_⟩
    · exact List.Nodup.sublist ((List.filter_sublist _).map _) hinc
    · intro x hx hx'
      obtain ⟨u, hu, rfl⟩ := List.mem_map.mp hx'
      have hufil := List.of_mem_filter hu
      obtain ⟨w, hw, hwid⟩ := List.mem_map.mp hx
      have hany : existing.any (fun b => b.id == u.id) = true :=
        List.any_eq_true.mpr ⟨w, hw, by rw [beq_iff_eq, hwid]⟩
      rw [hany] at hufil
      exact absurd hufil (by decide)

/-- C7 witness: merging a fresh batch against a known set drops the known
identifier and keeps identifiers unique. -/
theorem achievementMerge_idempotent_spot :
    (mergeAchievements [⟨"x", "t", "d"⟩] [⟨"x", "t2", "d2"⟩, ⟨"y", "t3", "d3"⟩]).filter
        (fun q => q.id == "x") = [⟨"x", "t", "d"⟩] ∧
    ((mergeAchievements [⟨"x", "t", "d"⟩]
        [⟨"x", "t2", "d2"⟩, ⟨"y", "t3", "d3"⟩]).map Achievement.id).Nodup := by
  have h := achievementMerge_idempotent [⟨"x", "t", "d"⟩]
    [⟨"x", "t2", "d2"⟩, ⟨"y", "t3", "d3"⟩] (by decide) (by decide)
  exact ⟨h.1 ⟨"x", "t", "d"⟩ ⟨⟨"x", "t", "d"⟩, by decide, rfl⟩, h.2⟩


/-- C9 counterexample: the source citation list is *not* deduplicated — two
grounding chunks carrying the same `{title, uri}` web source pass through
`map`/`filter` untouched and appear twice in the delivered source list. -/
theorem newsLookup_duplicate_sources_counterexample :
    handleFetchNewsS (fetchWorldNewsS (some ⟨"key"⟩) "premise"
      (fun _ => some ⟨some "headlines", some [⟨some ⟨"t", "u"⟩⟩, ⟨some ⟨"t", "u"⟩⟩]⟩)) =
      ("headlines", [⟨"t", "u"⟩, ⟨"t", "u"⟩]) ∧
    ¬ ([(⟨"t", "u"⟩ : WebSource), ⟨"t", "u"⟩].Nodup) := by
  refine ⟨rfl, ?_⟩
  decide

/-- C9 (amended): every failure of the news lookup — the client not being
initialized or the transport rejecting — yields the fixed
`"Unable to fetch wire services."` text with an empty source list at the
`handleFetchNews` boundary (the exception never escapes it); on success the
source list is the chunks' `web` fields with absent entries filtered out,
with no deduplication performed. -/
theorem newsLookup_failure_fixed (ai : Option AIInstance) (premise : String)
    (call : String → Option GenContentResponse) :
    ((ai = none ∨ call (buildNewsPrompt premise) = none) →
      handleFetchNewsS (fetchWorldNewsS ai premise call) =
        ("Unable to fetch wire services.", [])) ∧
    (∀ a : AIInstance, ai = some a →
      ∀ resp : GenContentResponse, call (buildNewsPrompt premise) = some resp →
      (handleFetchNewsS (fetchWorldNewsS ai premise call)).2 =
        (match resp.chunks with
         | some cs => (cs.map GroundingChunk.web).filterMap id
         | none => [])) := by
  constructor
  · rintro (rfl | hcall)
    · rfl
    · unfold fetchWorldNewsS
      cases ai with
      | none => rfl
      | some a => rw [hcall]; rfl
  · rintro a rfl resp hcall
    obtain ⟨t, ch⟩ := resp
    unfold fetchWorldNewsS
    rw [hcall]
    cases ch <;> rfl

/-- C9 witness: an uninitialized client and a rejecting transport both hit
the fixed failure output, and a successful call delivers the filtered
source list. -/
theorem newsLookup_failure_fixed_spot :
    handleFetchNewsS (fetchWorldNewsS none "p" (fun _ => none)) =
      ("Unable to fetch wire services.", []) ∧
    handleFetchNewsS (fetchWorldNewsS (some ⟨"key"⟩) "p" (fun _ => none)) =
      ("Unable to fetch wire services.", []) ∧
    (handleFetchNewsS (fetchWorldNewsS (some ⟨"key"⟩) "p"
      (fun _ => some ⟨some "x", some [⟨none⟩, ⟨some ⟨"t", "u"⟩⟩]⟩))).2 = [⟨"t", "u"⟩] := by
  refine ⟨?_, ?_, ?_⟩
  · exact (newsLookup_failure_fixed none "p" (fun _ => none)).1 (Or.inl rfl)
  · exact (newsLookup_failure_fixed (some ⟨"key"⟩) "p" (fun _ => none)).1 (Or.inr rfl)
  · exact (newsLookup_failure_fixed (some ⟨"key"⟩) "p"
      (fun _ => some ⟨some "x", some [⟨none⟩, ⟨some ⟨"t", "u"⟩⟩]⟩)).2 ⟨"key"⟩ rfl
      ⟨some "x", some [⟨none⟩, ⟨some ⟨"t", "u"⟩⟩]⟩ rfl

/-- C10: after any completed `startNewStory` call made with an initialized
client — including one that returned the fallback — the module-level chat
session handle is non-null and stays non-null, so no later
`generateNextEntry` can fail with `"Game session not active."`; conversely,
whenever the handle is still null, no earlier call of the trace was a
`startNewStory` executed with an initialized client. -/
theorem chatSession_once_started_stays_active :
    (∀ (pre : List ApiCall) (p : String) (send : SendOracle) (suf : List ApiCall)
      (ua : String) (s : CharacterStats) (i : List String) (c : List GameCharacter)
      (send2 : SendOracle),
      (runCalls initialModuleState pre).aiInstance.isSome = true →
      generateNextEntryS
        (runCalls (stepCall (runCalls initialModuleState pre) (ApiCall.start p send)).1
          suf).chatSession ua s i c send2 ≠
        Except.error "Game session not active.") ∧
    (∀ (l r : List ApiCall) (p : String) (send : SendOracle),
      (runCalls initialModuleState (l ++ ApiCall.start p send :: r)).chatSession = none →
      (runCalls initialModuleState l).aiInstance = none) := by
  constructor
  · intro pre p send suf ua s i c send2 hai
    have hsome : (runCalls (stepCall (runCalls initialModuleState pre)
        (ApiCall.start p send)).1 suf).chatSession.isSome = true :=
      runCalls_preserves_session suf _
        (start_sets_session (runCalls initialModuleState pre) p send hai)
    obtain ⟨cs, hcs⟩ := Option.isSome_iff_exists.mp hsome
    rw [hcs, generateNextEntryS_ok_of_session]
    intro h
    exact Except.noConfusion h
  · intro l r p send hnone
    cases hai : (runCalls initialModuleState l).aiInstance with
    | none => rfl
    | some a =>
      have hsome : (runCalls initialModuleState
          (l ++ ApiCall.start p send :: r)).chatSession.isSome = true := by
        rw [runCalls_append]
        show (runCalls _ (ApiCall.start p send :: r)).chatSession.isSome = true
        exact runCalls_preserves_session r _
          (start_sets_session (runCalls initialModuleState l) p send (by rw [hai]; rfl))
      rw [hnone] at hsome
      exact Bool.noConfusion hsome

/-- C10 witness: initialize, start (with a failing transport, so the
fallback path runs), then advance — the session error is unreachable. -/
theorem chatSession_once_started_stays_active_spot :
    generateNextEntryS
      (runCalls (stepCall (runCalls initialModuleState [ApiCall.init "key"])
        (ApiCall.start "p" (fun _ => none))).1 []).chatSession
      "look" ⟨1, 2, 3⟩ [] [] (fun _ => none) ≠
      Except.error "Game session not active." :=
  (chatSession_once_started_stays_active).1 [ApiCall.init "key"] "p" (fun _ => none) []
    "look" ⟨1, 2, 3⟩ [] [] (fun _ => none) rfl

/-- C2 counterexample: the Response Validator performs no required-field
validation — a well-formed JSON object lacking all of `narrative`, `stats`,
`inventory` and `characters` is returned as a parse success, not rejected. -/
theorem validator_missing_fields_counterexample :
    safeJsonParse "\x7b\"a\":1\x7d" = some (Json.obj [("a", Json.num 1)]) ∧
    jHasField (Json.obj [("a", Json.num 1)]) "narrative" = false ∧
    jHasField (Json.obj [("a", Json.num 1)]) "stats" = false ∧
    jHasField (Json.obj [("a", Json.num 1)]) "inventory" = false ∧
    jHasField (Json.obj [("a", Json.num 1)]) "characters" = false :=
  ⟨rfl, rfl, rfl, rfl, rfl⟩

/-- C3 counterexample: an input with no `{`/`}` pair need not fail — a bare
JSON literal such as `"42"` skips the narrowing step and parses
successfully, so the validator returns a success, not a failure. -/
theorem validator_braceless_success_counterexample :
    safeJsonParse "42" = some (Json.num 42) ∧
    firstIdx '{' "42".data = none ∧
    lastIdx '}' "42".data = none :=
  ⟨rfl, rfl, rfl⟩

/-! ## Render/parse round-trip (the `JSON.stringify` → `JSON.parse` identity
behind save/load fidelity) -/

theorem skipWs_cons {c : Char} (cs : List Char) (h : isWsChar c = false) :
    skipWs (c :: cs) = c :: cs := by
  simp [skipWs, List.dropWhile, h]

theorem takeWhile_all_append (p : Char → Bool) (a b : List Char)
    (ha : ∀ c ∈ a, p c = true) (hb : ∀ c, b.head? = some c → p c = false) :
    (a ++ b).takeWhile p = a ∧ (a ++ b).dropWhile p = b := by
  induction a with
  | nil =>
    cases b with
    | nil => exact ⟨rfl, rfl⟩
    | cons c cs =>
      have := hb c rfl
      constructor
      · simp [List.takeWhile, this]
      · simp [List.dropWhile, this]
  | cons x a ih =>
    have hx := ha x (by simp)
    have ih' := ih (fun c hc => ha c (by simp [hc]))
    constructor
    · simp [List.takeWhile, hx, ih'.1]
    · simp [List.dropWhile, hx, ih'.2]

theorem hexVal?_digitChar : ∀ d : Nat, d < 16 → hexVal? (Nat.digitChar d) = some d := by
  decide

theorem isDigit_digitChar : ∀ d : Nat, d < 10 → (Nat.digitChar d).isDigit = true := by
  decide

theorem digitChar_toNat : ∀ d : Nat, d < 10 → (Nat.digitChar d).toNat - 48 = d := by
  decide

theorem digitChar_ne_zero : ∀ d : Nat, d < 10 → d ≠ 0 → Nat.digitChar d ≠ '0' := by
  decide

theorem isWsChar_digitChar : ∀ d : Nat, d < 10 → isWsChar (Nat.digitChar d) = false := by
  decide

theorem isValidScalar_of_lt {n : Nat} (h : n < 55296) : isValidScalar n = true := by
  simp [isValidScalar]
  omega

theorem parseStringBody_escape_step (f : Nat) (e c : Char) (r : List Char)
    (he : escapeChar? e = some c) (hne : e ≠ 'u') :
    parseStringBody (f + 1) ('\\' :: e :: r) =
      (match parseStringBody f r with
       | some (s, rest) => some (c :: s, rest)
       | none => none) := by
  simp only [parseStringBody]
  split
  · rename_i h1 h2 h3 h4 h5 heq
    injection heq with heq1 heq2
    subst heq1
    exact absurd rfl hne
  · rename_i e' r2 heq
    injection heq with heq1 heq2
    subst heq1
    subst heq2
    rw [he]
  · rename_i heq
    exact absurd heq (by simp)

theorem parseStringBody_unicode_step (f : Nat) (h1 h2 h3 h4 : Char) (r : List Char)
    (a b c d : Nat) (ha : hexVal? h1 = some a) (hb : hexVal? h2 = some b)
    (hc : hexVal? h3 = some c) (hd : hexVal? h4 = some d)
    (hval : isValidScalar (4096 * a + 256 * b + 16 * c + d) = true) :
    parseStringBody (f + 1) ('\\' :: 'u' :: h1 :: h2 :: h3 :: h4 :: r) =
      (match parseStringBody f r with
       | some (s, rest) => some (Char.ofNat (4096 * a + 256 * b + 16 * c + d) :: s, rest)
       | none => none) := by
  simp only [parseStringBody]
  rw [ha, hb, hc, hd]
  simp only [hval, if_true]

theorem parseStringBody_char_step (f : Nat) (c : Char) (r : List Char)
    (h32 : 32 ≤ c.toNat) (hq : c ≠ '"') (hbs : c ≠ '\\') :
    parseStringBody (f + 1) (c :: r) =
      (match parseStringBody f r with
       | some (s, rest) => some (c :: s, rest)
       | none => none) := by
  simp only [parseStringBody]
  rw [if_pos h32]

theorem parseStringBody_escStr (s rest : List Char) : ∀ fuel : Nat,
    s.length + 1 ≤ fuel →
    parseStringBody fuel (escStr s ++ '"' :: rest) = some (s, rest) := by
  induction s with
  | nil =>
    intro fuel hf
    match fuel, hf with
    | f + 1, _ => rfl
  | cons c s ih =>
    intro fuel hf
    match fuel, hf with
    | f + 1, hf =>
      have hfs : s.length + 1 ≤ f := by
        simp only [List.length_cons] at hf
        omega
      show parseStringBody (f + 1) (escChar c ++ escStr s ++ '"' :: rest) = _
      unfold escChar
      split_ifs with h1 h2 h3 h4 h5 h6 h7 h8
      · subst h1
        rw [show (['\\', '"'] ++ escStr s ++ '"' :: rest) =
            '\\' :: '"' :: (escStr s ++ '"' :: rest) from rfl]
        rw [parseStringBody_escape_step f '"' '"' _ rfl (by decide), ih f hfs]
      · subst h2
        rw [show (['\\', '\\'] ++ escStr s ++ '"' :: rest) =
            '\\' :: '\\' :: (escStr s ++ '"' :: rest) from rfl]
        rw [parseStringBody_escape_step f '\\' '\\' _ rfl (by decide), ih f hfs]
      · subst h3
        rw [show (['\\', 'n'] ++ escStr s ++ '"' :: rest) =
            '\\' :: 'n' :: (escStr s ++ '"' :: rest) from rfl]
        rw [parseStringBody_escape_step f 'n' '\n' _ rfl (by decide), ih f hfs]
      · subst h4
        rw [show (['\\', 'r'] ++ escStr s ++ '"' :: rest) =
            '\\' :: 'r' :: (escStr s ++ '"' :: rest) from rfl]
        rw [parseStringBody_escape_step f 'r' '\r' _ rfl (by decide), ih f hfs]
      · subst h5
        rw [show (['\\', 't'] ++ escStr s ++ '"' :: rest) =
            '\\' :: 't' :: (escStr s ++ '"' :: rest) from rfl]
        rw [parseStringBody_escape_step f 't' '\t' _ rfl (by decide), ih f hfs]
      · have hcv : c = Char.ofNat 8 := by rw [← Char.ofNat_toNat c, h6]
        rw [show (['\\', 'b'] ++ escStr s ++ '"' :: rest) =
            '\\' :: 'b' :: (escStr s ++ '"' :: rest) from rfl]
        rw [parseStringBody_escape_step f 'b' (Char.ofNat 8) _ rfl (by decide), ih f hfs, ← hcv]
      · have hcv : c = Char.ofNat 12 := by rw [← Char.ofNat_toNat c, h7]
        rw [show (['\\', 'f'] ++ escStr s ++ '"' :: rest) =
            '\\' :: 'f' :: (escStr s ++ '"' :: rest) from rfl]
        rw [parseStringBody_escape_step f 'f' (Char.ofNat 12) _ rfl (by decide), ih f hfs, ← hcv]
      · rw [show (['\\', 'u', '0', '0', Nat.digitChar (c.toNat / 16),
              Nat.digitChar (c.toNat % 16)] ++ escStr s ++ '"' :: rest) =
            '\\' :: 'u' :: '0' :: '0' :: Nat.digitChar (c.toNat / 16) ::
              Nat.digitChar (c.toNat % 16) :: (escStr s ++ '"' :: rest) from rfl]
        rw [parseStringBody_unicode_step f '0' '0'
            (Nat.digitChar (c.toNat / 16)) (Nat.digitChar (c.toNat % 16)) _ 0 0
            (c.toNat / 16) (c.toNat % 16) rfl rfl
            (hexVal?_digitChar _ (by omega)) (hexVal?_digitChar _ (by omega))
            (isValidScalar_of_lt (by omega)), ih f hfs]
        have : 4096 * 0 + 256 * 0 + 16 * (c.toNat / 16) + c.toNat % 16 = c.toNat := by omega
        rw [this, Char.ofNat_toNat]
      · have hge : 32 ≤ c.toNat := by omega
        rw [show ([c] ++ escStr s ++ '"' :: rest) = c :: (escStr s ++ '"' :: rest) from rfl]
        rw [parseStringBody_char_step f c _ hge h1 h2, ih f hfs]

theorem digitsToNat_append (a : List Char) (c : Char) :
    digitsToNat (a ++ [c]) = 10 * digitsToNat a + (c.toNat - 48) := by
  simp [digitsToNat, List.foldl_append]

theorem digitsToNat_ofDigits : ∀ l : List Nat, (∀ d ∈ l, d < 10) →
    digitsToNat (l.reverse.map Nat.digitChar) = Nat.ofDigits 10 l := by
  intro l
  induction l with
  | nil => intro _; rfl
  | cons d l ih =>
    intro h
    rw [List.reverse_cons, List.map_append, List.map_singleton, digitsToNat_append,
      ih (fun x hx => h x (by simp [hx])), digitChar_toNat d (h d (by simp)),
      Nat.ofDigits_cons]
    ring

theorem digitsToNat_natToChars (n : Nat) : digitsToNat (natToChars n) = n := by
  unfold natToChars
  split_ifs with h
  · subst h; rfl
  · rw [digitsToNat_ofDigits _ (fun d hd => Nat.digits_lt_base (by norm_num) hd),
      Nat.ofDigits_digits]

theorem natToChars_ne_nil (n : Nat) : natToChars n ≠ [] := by
  unfold natToChars
  split_ifs with h
  · simp
  · simp [Nat.digits_ne_nil_iff_ne_zero.mpr h]

theorem natToChars_all_digits (n : Nat) : ∀ c ∈ natToChars n, c.isDigit = true := by
  unfold natToChars
  split_ifs with h
  · intro c hc
    simp only [List.mem_singleton] at hc
    subst hc
    decide
  · intro c hc
    simp only [List.mem_map, List.mem_reverse] at hc
    obtain ⟨d, hd, rfl⟩ := hc
    exact isDigit_digitChar d (Nat.digits_lt_base (by norm_num) hd)

theorem natToChars_pos (n : Nat) (h : n ≠ 0) :
    ∃ c ds, natToChars n = c :: ds ∧ c ≠ '0' ∧ c.isDigit = true := by
  obtain ⟨c, ds, hds⟩ := List.exists_cons_of_ne_nil (natToChars_ne_nil n)
  refine ⟨c, ds, hds, ?_, natToChars_all_digits n c (by rw [hds]; simp)⟩
  have hh : (natToChars n).head? = some c := by rw [hds]; rfl
  unfold natToChars at hh
  rw [if_neg h] at hh
  rw [List.head?_map, List.head?_reverse] at hh
  cases hlast : (Nat.digits 10 n).getLast? with
  | none => rw [hlast] at hh; exact absurd hh (by simp)
  | some d =>
    rw [hlast] at hh
    simp only [Option.map_some', Option.some.injEq] at hh
    subst hh
    have hne : Nat.digits 10 n ≠ [] := Nat.digits_ne_nil_iff_ne_zero.mpr h
    have hgl := List.getLast?_eq_getLast (Nat.digits 10 n) hne
    rw [hlast] at hgl
    injection hgl with hgl
    have hd0 : d ≠ 0 := by
      rw [hgl]
      exact Nat.getLast_digit_ne_zero 10 h
    have hd10 : d < 10 := by
      refine @Nat.digits_lt_base 10 n d (by norm_num) ?_
      rw [hgl]
      exact List.getLast_mem hne
    exact digitChar_ne_zero d hd10 hd0

theorem parseNatNum_natToChars (n : Nat) (rest : List Char)
    (hrest : ∀ c, rest.head? = some c → c.isDigit = false) :
    parseNatNum (natToChars n ++ rest) = some (n, rest) := by
  by_cases h : n = 0
  · subst h
    cases rest with
    | nil => rfl
    | cons c r => rfl
  · obtain ⟨c, ds, hds, hc0, hcd⟩ := natToChars_pos n h
    have hall : ∀ x ∈ c :: ds, x.isDigit = true := by
      intro x hx
      exact natToChars_all_digits n x (by rw [hds]; exact hx)
    have htw := takeWhile_all_append Char.isDigit (c :: ds) rest hall hrest
    rw [hds]
    show parseNatNum ((c :: ds) ++ rest) = some (n, rest)
    rw [show ((c :: ds) ++ rest) = c :: (ds ++ rest) from rfl]
    simp only [parseNatNum]
    rw [if_neg hc0, if_pos hcd,
      show (c :: (ds ++ rest)) = (c :: ds) ++ rest from rfl, htw.1, htw.2,
      ← hds, digitsToNat_natToChars]

/-! ### One-step unfolding equations for the parser on shaped inputs -/

theorem isDigit_not_ws {c : Char} (h : c.isDigit = true) : isWsChar c = false := by
  refine Bool.eq_false_iff.mpr fun hws => ?_
  simp only [isWsChar, Bool.or_eq_true, decide_eq_true_eq] at hws
  rcases hws with ((rfl | rfl) | rfl) | rfl <;> exact absurd h (by decide)

theorem isDigit_ne {c : Char} (h : c.isDigit = true) (d : Char) (hd : d.isDigit = false) :
    c ≠ d := by
  intro he
  subst he
  rw [h] at hd
  exact Bool.noConfusion hd

theorem parseValue_step_obj_close (f : Nat) (rest : List Char) :
    parseValue (f + 1) ('{' :: '}' :: rest) = some (Json.obj [], rest) := rfl

theorem parseValue_step_obj_quote (f : Nat) (X : List Char) :
    parseValue (f + 1) ('{' :: '"' :: X) =
      (match parseMemberList f ('"' :: X) with
       | some (kvs, rest) => some (Json.obj kvs, rest)
       | none => none) := rfl

theorem parseValue_step_arr_close (f : Nat) (rest : List Char) :
    parseValue (f + 1) ('[' :: ']' :: rest) = some (Json.arr [], rest) := rfl

theorem parseValue_step_str (f : Nat) (X : List Char) :
    parseValue (f + 1) ('"' :: X) =
      (match parseStringBody f X with
       | some (s, rest) => some (Json.str (String.mk s), rest)
       | none => none) := rfl

theorem parseValue_step_null (f : Nat) (X : List Char) :
    parseValue (f + 1) ('n' :: 'u' :: 'l' :: 'l' :: X) = some (Json.null, X) := rfl

theorem parseValue_step_true (f : Nat) (X : List Char) :
    parseValue (f + 1) ('t' :: 'r' :: 'u' :: 'e' :: X) = some (Json.bool true, X) := rfl

theorem parseValue_step_false (f : Nat) (X : List Char) :
    parseValue (f + 1) ('f' :: 'a' :: 'l' :: 's' :: 'e' :: X) =
      some (Json.bool false, X) := rfl

theorem parseValue_step_neg (f : Nat) (X : List Char) :
    parseValue (f + 1) ('-' :: X) =
      (match parseNatNum X with
       | some (n, rest) => some (Json.num (-(n : Int)), rest)
       | none => none) := rfl

theorem parseValue_step_digit (f : Nat) (c : Char) (r : List Char) (hd : c.isDigit = true) :
    parseValue (f + 1) (c :: r) =
      (match parseNatNum (c :: r) with
       | some (n, rest) => some (Json.num (n : Int), rest)
       | none => none) := by
  have h1 : c ≠ '{' := isDigit_ne hd _ (by decide)
  have h2 : c ≠ '[' := isDigit_ne hd _ (by decide)
  have h3 : c ≠ '"' := isDigit_ne hd _ (by decide)
  have h4 : c ≠ 't' := isDigit_ne hd _ (by decide)
  have h5 : c ≠ 'f' := isDigit_ne hd _ (by decide)
  have h6 : c ≠ 'n' := isDigit_ne hd _ (by decide)
  have h7 : c ≠ '-' := isDigit_ne hd _ (by decide)
  have hws : isWsChar c = false := isDigit_not_ws hd
  simp only [parseValue]
  rw [show skipWs (c :: r) = c :: r from skipWs_cons r hws]
  simp only [hd, if_true]

theorem parseValue_step_arr_cons (f : Nat) (c : Char) (r : List Char)
    (hws : isWsChar c = false) (hne : c ≠ ']') :
    parseValue (f + 1) ('[' :: c :: r) =
      (match parseElemList f (c :: r) with
       | some (vs, rest) => some (Json.arr vs, rest)
       | none => none) := by
  have h0 : parseValue (f + 1) ('[' :: c :: r) =
      (match skipWs (c :: r) with
       | ']' :: rest => some (Json.arr [], rest)
       | r2 =>
         match parseElemList f r2 with
         | some (vs, rest) => some (Json.arr vs, rest)
         | none => none) := rfl
  rw [h0, show skipWs (c :: r) = c :: r from skipWs_cons r hws]
  split
  · rename_i r2 heq
    injection heq with heq1 heq2
    exact absurd heq1 hne
  · rfl

theorem jsize_pos (v : Json) : 1 ≤ jsize v := by
  cases v <;> simp [jsize]

theorem natToChars_head_digit (m : Nat) :
    ∃ c ds, natToChars m = c :: ds ∧ c.isDigit = true := by
  obtain ⟨c, ds, hds⟩ := List.exists_cons_of_ne_nil (natToChars_ne_nil m)
  exact ⟨c, ds, hds, natToChars_all_digits m c (by rw [hds]; simp)⟩

theorem renderJson_head_facts (v : Json) :
    ∃ c tl, renderJson v = c :: tl ∧ isWsChar c = false ∧ c ≠ ']' ∧ c ≠ '}' := by
  cases v with
  | null =>
    exact ⟨'n', ['u', 'l', 'l'], by simp [renderJson], by decide, by decide, by decide⟩
  | bool b =>
    cases b with
    | false =>
      exact ⟨'f', ['a', 'l', 's', 'e'], by simp [renderJson], by decide, by decide, by decide⟩
    | true =>
      exact ⟨'t', ['r', 'u', 'e'], by simp [renderJson], by decide, by decide, by decide⟩
  | num n =>
    by_cases hneg : n < 0
    · exact ⟨'-', natToChars n.natAbs,
        by simp [renderJson, intToChars, if_pos hneg], by decide, by decide, by decide⟩
    · obtain ⟨c, ds, hds, hcd⟩ := natToChars_head_digit n.natAbs
      exact ⟨c, ds, by simp [renderJson, intToChars, if_neg hneg, hds],
        isDigit_not_ws hcd, isDigit_ne hcd _ (by decide), isDigit_ne hcd _ (by decide)⟩
  | str s =>
    exact ⟨'"', escStr s.data ++ ['"'], by simp [renderJson], by decide, by decide, by decide⟩
  | arr vs =>
    exact ⟨'[', renderElems vs ++ [']'], by simp [renderJson], by decide, by decide, by decide⟩
  | obj kvs =>
    exact ⟨'{', renderMembers kvs ++ ['}'], by simp [renderJson], by decide, by decide, by decide⟩

theorem elemsT_head_not_digit (vs : List Json) (rest : List Char) :
    ∀ c, (renderElemsT vs ++ ']' :: rest).head? = some c → c.isDigit = false := by
  cases vs with
  | nil =>
    intro c hc
    simp only [renderElemsT, List.nil_append, List.head?_cons, Option.some.injEq] at hc
    subst hc
    decide
  | cons w ws =>
    intro c hc
    simp only [renderElemsT, List.cons_append, List.head?_cons, Option.some.injEq] at hc
    subst hc
    decide

theorem membersT_head_not_digit (kvs : List (String × Json)) (rest : List Char) :
    ∀ c, (renderMembersT kvs ++ '}' :: rest).head? = some c → c.isDigit = false := by
  cases kvs with
  | nil =>
    intro c hc
    simp only [renderMembersT, List.nil_append, List.head?_cons, Option.some.injEq] at hc
    subst hc
    decide
  | cons kv kvs =>
    obtain ⟨k, v⟩ := kv
    intro c hc
    simp only [renderMembersT, List.cons_append, List.head?_cons, Option.some.injEq] at hc
    subst hc
    decide

theorem parse_render_fueled : ∀ fuel : Nat,
    (∀ (v : Json) (rest : List Char), jsize v ≤ fuel →
      (∀ c, rest.head? = some c → c.isDigit = false) →
      parseValue fuel (renderJson v ++ rest) = some (v, rest)) ∧
    (∀ (v : Json) (vs : List Json) (rest : List Char),
      jsize v + jsizeL vs + 1 ≤ fuel →
      parseElemList fuel (renderJson v ++ (renderElemsT vs ++ ']' :: rest)) =
        some (v :: vs, rest)) ∧
    (∀ (k : String) (v : Json) (kvs : List (String × Json)) (rest : List Char),
      k.length + jsize v + jsizeM kvs + 3 ≤ fuel →
      parseMemberList fuel (renderMember k v ++ (renderMembersT kvs ++ '}' :: rest)) =
        some ((k, v) :: kvs, rest)) := by
  intro fuel
  induction fuel using Nat.strong_induction_on with
  | _ fuel ih =>
    refine ⟨?_, ?_, ?_⟩
    · -- parseValue on a rendered value
      intro v rest hsz hrest
      obtain ⟨f, rfl⟩ : ∃ f, fuel = f + 1 := ⟨fuel - 1, by
        have := jsize_pos v
        omega⟩
      cases v with
      | null =>
        simp only [renderJson]
        exact parseValue_step_null f rest
      | bool b =>
        cases b with
        | false =>
          simp only [renderJson]
          exact parseValue_step_false f rest
        | true =>
          simp only [renderJson]
          exact parseValue_step_true f rest
      | num n =>
        simp only [renderJson, intToChars]
        split_ifs with hneg
        · rw [show ('-' :: natToChars n.natAbs) ++ rest =
              '-' :: (natToChars n.natAbs ++ rest) from rfl,
            parseValue_step_neg]
          simp only [parseNatNum_natToChars n.natAbs rest hrest]
          have hn : -((n.natAbs : Int)) = n := by omega
          rw [hn]
        · obtain ⟨c, ds, hds, hcd⟩ := natToChars_head_digit n.natAbs
          rw [hds, show (c :: ds) ++ rest = c :: (ds ++ rest) from rfl,
            parseValue_step_digit f c (ds ++ rest) hcd,
            show c :: (ds ++ rest) = natToChars n.natAbs ++ rest from by rw [hds]; rfl]
          simp only [parseNatNum_natToChars n.natAbs rest hrest]
          have hn : ((n.natAbs : Int)) = n := by omega
          rw [hn]
      | str s =>
        have hassoc : renderJson (Json.str s) ++ rest =
            '"' :: (escStr s.data ++ '"' :: rest) := by
          simp [renderJson, List.append_assoc]
        rw [hassoc, parseValue_step_str]
        simp only [parseStringBody_escStr s.data rest f (by
          have h1 : jsize (Json.str s) = s.length + 2 := by simp [jsize]
          have h2 : s.length = s.data.length := rfl
          omega)]
      | arr vs =>
        cases vs with
        | nil =>
          have hassoc : renderJson (Json.arr []) ++ rest = '[' :: ']' :: rest := by
            simp [renderJson, renderElems]
          rw [hassoc, parseValue_step_arr_close]
        | cons w ws =>
          obtain ⟨c, tl, hhead, hws, hnb, _⟩ := renderJson_head_facts w
          have hassoc : renderJson (Json.arr (w :: ws)) ++ rest =
              '[' :: c :: (tl ++ (renderElemsT ws ++ ']' :: rest)) := by
            simp [renderJson, renderElems, hhead, List.append_assoc]
          rw [hassoc, parseValue_step_arr_cons f c _ hws hnb,
            show c :: (tl ++ (renderElemsT ws ++ ']' :: rest)) =
              renderJson w ++ (renderElemsT ws ++ ']' :: rest) from by rw [hhead]; rfl]
          have hsz' : jsize w + jsizeL ws + 1 ≤ f := by
            have h1 : jsize (Json.arr (w :: ws)) = jsize w + jsizeL ws + 2 := by
              simp [jsize, jsizeL]
            omega
          have hE := (ih f (by omega)).2.1 w ws rest hsz'
          simp only [hE]
      | obj kvs =>
        cases kvs with
        | nil =>
          have hassoc : renderJson (Json.obj []) ++ rest = '{' :: '}' :: rest := by
            simp [renderJson, renderMembers]
          rw [hassoc, parseValue_step_obj_close]
        | cons kv kvs' =>
          obtain ⟨k, w⟩ := kv
          have hassoc : renderJson (Json.obj ((k, w) :: kvs')) ++ rest =
              '{' :: '"' :: ((escStr k.data ++ '"' :: ':' :: renderJson w) ++
                (renderMembersT kvs' ++ '}' :: rest)) := by
            simp [renderJson, renderMembers, renderMember, List.append_assoc]
          rw [hassoc, parseValue_step_obj_quote,
            show '"' :: ((escStr k.data ++ '"' :: ':' :: renderJson w) ++
                (renderMembersT kvs' ++ '}' :: rest)) =
              renderMember k w ++ (renderMembersT kvs' ++ '}' :: rest) from by
                simp [renderMember, List.append_assoc]]
          have hsz' : k.length + jsize w + jsizeM kvs' + 3 ≤ f := by
            have h1 : jsize (Json.obj ((k, w) :: kvs')) =
                k.length + jsize w + jsizeM kvs' + 4 := by
              simp [jsize, jsizeM]
            omega
          have hM := (ih f (by omega)).2.2 k w kvs' rest hsz'
          simp only [hM]
    · -- parseElemList on a rendered element list
      intro v vs rest hsz
      obtain ⟨f, rfl⟩ : ∃ f, fuel = f + 1 := ⟨fuel - 1, by omega⟩
      have hv := (ih f (by omega)).1 v (renderElemsT vs ++ ']' :: rest)
        (by omega) (elemsT_head_not_digit vs rest)
      simp only [parseElemList, hv]
      cases vs with
      | nil =>
        rw [show renderElemsT ([] : List Json) ++ ']' :: rest = ']' :: rest from by
          simp [renderElemsT]]
        rw [show skipWs (']' :: rest) = ']' :: rest from skipWs_cons rest (by decide)]
        rfl
      | cons w ws =>
        have hassoc : renderElemsT (w :: ws) ++ ']' :: rest =
            ',' :: (renderJson w ++ (renderElemsT ws ++ ']' :: rest)) := by
          simp [renderElemsT, List.append_assoc]
        rw [hassoc,
          show skipWs (',' :: (renderJson w ++ (renderElemsT ws ++ ']' :: rest))) =
            ',' :: (renderJson w ++ (renderElemsT ws ++ ']' :: rest)) from
            skipWs_cons _ (by decide)]
        have hsz' : jsize w + jsizeL ws + 1 ≤ f := by
          have h1 : jsizeL (w :: ws) = jsize w + jsizeL ws + 1 := by simp [jsizeL]
          omega
        have hE := (ih f (by omega)).2.1 w ws rest hsz'
        simp only [hE]
    · -- parseMemberList on a rendered member list
      intro k v kvs rest hsz
      obtain ⟨f, rfl⟩ : ∃ f, fuel = f + 1 := ⟨fuel - 1, by omega⟩
      have hassoc : renderMember k v ++ (renderMembersT kvs ++ '}' :: rest) =
          '"' :: (escStr k.data ++ '"' ::
            (':' :: (renderJson v ++ (renderMembersT kvs ++ '}' :: rest)))) := by
        simp [renderMember, List.append_assoc]
      rw [hassoc]
      have hkey : parseStringBody f (escStr k.data ++ '"' ::
          (':' :: (renderJson v ++ (renderMembersT kvs ++ '}' :: rest)))) =
          some (k.data, ':' :: (renderJson v ++ (renderMembersT kvs ++ '}' :: rest))) :=
        parseStringBody_escStr k.data _ f (by
          have h2 : k.length = k.data.length := rfl
          omega)
      have hv := (ih f (by omega)).1 v (renderMembersT kvs ++ '}' :: rest) (by omega)
        (membersT_head_not_digit kvs rest)
      simp only [parseMemberList, hkey,
        show skipWs (':' :: (renderJson v ++ (renderMembersT kvs ++ '}' :: rest))) =
          ':' :: (renderJson v ++ (renderMembersT kvs ++ '}' :: rest)) from
          skipWs_cons _ (by decide),
        hv]
      cases kvs with
      | nil =>
        rw [show renderMembersT ([] : List (String × Json)) ++ '}' :: rest =
            '}' :: rest from by simp [renderMembersT]]
        rw [show skipWs ('}' :: rest) = '}' :: rest from skipWs_cons rest (by decide)]
        rfl
      | cons kv kvs' =>
        obtain ⟨k2, v2⟩ := kv
        have hassoc2 : renderMembersT ((k2, v2) :: kvs') ++ '}' :: rest =
            ',' :: (renderMember k2 v2 ++ (renderMembersT kvs' ++ '}' :: rest)) := by
          simp [renderMembersT, List.append_assoc]
        rw [hassoc2,
          show skipWs (',' :: (renderMember k2 v2 ++ (renderMembersT kvs' ++ '}' :: rest))) =
            ',' :: (renderMember k2 v2 ++ (renderMembersT kvs' ++ '}' :: rest)) from
            skipWs_cons _ (by decide)]
        have hquote : skipWs (renderMember k2 v2 ++ (renderMembersT kvs' ++ '}' :: rest)) =
            renderMember k2 v2 ++ (renderMembersT kvs' ++ '}' :: rest) := by
          rw [show renderMember k2 v2 ++ (renderMembersT kvs' ++ '}' :: rest) =
              '"' :: ((escStr k2.data ++ '"' :: ':' :: renderJson v2) ++
                (renderMembersT kvs' ++ '}' :: rest)) from by
              simp [renderMember, List.append_assoc]]
          exact skipWs_cons _ (by decide)
        have hsz' : k2.length + jsize v2 + jsizeM kvs' + 3 ≤ f := by
          have h1 : jsizeM ((k2, v2) :: kvs') = k2.length + jsize v2 + jsizeM kvs' + 3 := by
            simp [jsizeM]
          omega
        have hM := (ih f (by omega)).2.2 k2 v2 kvs' rest hsz'
        simp only [hquote, hM]

theorem escChar_length_pos (c : Char) : 1 ≤ (escChar c).length := by
  unfold escChar
  split_ifs <;> simp

theorem escStr_length (s : List Char) : s.length ≤ (escStr s).length := by
  induction s with
  | nil => simp [escStr]
  | cons c cs ih =>
    have := escChar_length_pos c
    simp only [escStr, List.length_append, List.length_cons]
    omega

theorem elemsT_len_cons (w : Json) (ws : List Json) :
    (renderElemsT (w :: ws)).length = (renderElems (w :: ws)).length + 1 := by
  simp [renderElemsT, renderElems]

theorem membersT_len_cons (k : String) (v : Json) (kvs : List (String × Json)) :
    (renderMembersT ((k, v) :: kvs)).length =
      (renderMembers ((k, v) :: kvs)).length + 1 := by
  simp [renderMembersT, renderMembers]

mutual

theorem jsize_le_render : ∀ v : Json, jsize v ≤ (renderJson v).length
  | .null => by simp [jsize, renderJson]
  | .bool b => by cases b <;> simp [jsize, renderJson]
  | .num n => by
    have h := List.length_pos.mpr (natToChars_ne_nil n.natAbs)
    simp only [jsize, renderJson, intToChars]
    split_ifs
    · simp only [List.length_cons]
      omega
    · omega
  | .str s => by
    have h1 := escStr_length s.data
    have h2 : s.length = s.data.length := rfl
    simp only [jsize, renderJson, List.length_cons, List.length_append,
      List.length_singleton]
    omega
  | .arr vs => by
    cases vs with
    | nil => simp [jsize, jsizeL, renderJson, renderElems]
    | cons w ws =>
      have h1 := jsizeL_le_render (w :: ws)
      have h2 := elemsT_len_cons w ws
      simp only [jsize, renderJson, List.length_cons, List.length_append,
        List.length_singleton]
      omega
  | .obj kvs => by
    cases kvs with
    | nil => simp [jsize, jsizeM, renderJson, renderMembers]
    | cons kv kvs' =>
      obtain ⟨k, w⟩ := kv
      have h1 := jsizeM_le_render ((k, w) :: kvs')
      have h2 := membersT_len_cons k w kvs'
      simp only [jsize, renderJson, List.length_cons, List.length_append,
        List.length_singleton]
      omega

theorem jsizeL_le_render : ∀ vs : List Json, jsizeL vs ≤ (renderElemsT vs).length
  | [] => by simp [jsizeL, renderElemsT]
  | v :: vs => by
    have h1 := jsize_le_render v
    have h2 := jsizeL_le_render vs
    simp only [jsizeL, renderElemsT, List.length_cons, List.length_append]
    omega

theorem jsizeM_le_render : ∀ kvs : List (String × Json),
    jsizeM kvs ≤ (renderMembersT kvs).length
  | [] => by simp [jsizeM, renderMembersT]
  | (k, v) :: kvs => by
    have h1 := jsize_le_render v
    have h2 := jsizeM_le_render kvs
    have h3 := escStr_length k.data
    have h4 : k.length = k.data.length := rfl
    simp only [jsizeM, renderMembersT, renderMember, List.length_cons,
      List.length_append]
    omega

end

/-- `JSON.parse ∘ JSON.stringify` is the identity on JSON values. -/
theorem jsonParseChars_renderJson (v : Json) :
    jsonParseChars (renderJson v) = some v := by
  unfold jsonParseChars
  have h := (parse_render_fueled ((renderJson v).length + 1)).1 v []
    (by have h1 := jsize_le_render v; omega)
    (by intro c hc; simp at hc)
  rw [List.append_nil] at h
  rw [h]
  rfl

/-! ## Decoding inverts encoding (field-for-field, as the loading code's
property accesses see the parsed save object) -/

theorem decodeStats_encodeStats (s : CharacterStats) :
    decodeStats (encodeStats s) = some s := rfl

theorem decodeCharacter_encodeCharacter (c : GameCharacter) :
    decodeCharacter (encodeCharacter c) = some c := rfl

theorem decodeAchievement_encodeAchievement (a : Achievement) :
    decodeAchievement (encodeAchievement a) = some a := rfl

theorem decodeEntry_encodeEntry (e : DiaryEntry) :
    decodeEntry (encodeEntry e) = some e := by
  obtain ⟨i, t, ts, ua⟩ := e
  cases ua with
  | none => rfl
  | some b => rfl

theorem mapDecode_map {α : Type} (f : Json → Option α) (g : α → Json)
    (h : ∀ a, f (g a) = some a) : ∀ l : List α,
    mapDecode f (l.map g) = some l := by
  intro l
  induction l with
  | nil => rfl
  | cons a l ih =>
    rw [List.map_cons]
    simp only [mapDecode, h a, ih]

theorem decodeList_map {α : Type} (f : Json → Option α) (g : α → Json)
    (h : ∀ a, f (g a) = some a) (l : List α) :
    decodeList f (Json.arr (l.map g)) = some l := by
  show (some (l.map g)).bind (mapDecode f) = some l
  rw [Option.some_bind]
  exact mapDecode_map f g h l

theorem decodeSaveData_encodeSaveData (d : SaveData) :
    decodeSaveData (encodeSaveData d) = some d := by
  obtain ⟨es, st, inv, chs, achs, p, ts⟩ := d
  have h1 : jGet (encodeSaveData ⟨es, st, inv, chs, achs, p, ts⟩) "entries" =
      some (Json.arr (es.map encodeEntry)) := rfl
  have h2 : jGet (encodeSaveData ⟨es, st, inv, chs, achs, p, ts⟩) "stats" =
      some (encodeStats st) := rfl
  have h3 : jGet (encodeSaveData ⟨es, st, inv, chs, achs, p, ts⟩) "inventory" =
      some (encodeStrList inv) := rfl
  have h4 : jGet (encodeSaveData ⟨es, st, inv, chs, achs, p, ts⟩) "characters" =
      some (encodeCharacters chs) := rfl
  have h5 : jGet (encodeSaveData ⟨es, st, inv, chs, achs, p, ts⟩) "achievements" =
      some (Json.arr (achs.map encodeAchievement)) := rfl
  have h6 : jGet (encodeSaveData ⟨es, st, inv, chs, achs, p, ts⟩) "premise" =
      some (Json.str p) := rfl
  have h7 : jGet (encodeSaveData ⟨es, st, inv, chs, achs, p, ts⟩) "timestamp" =
      some (Json.str ts) := rfl
  simp only [decodeSaveData, h1, h2, h3, h4, h5, h6, h7, Option.bind_some,
    decodeList_map decodeEntry encodeEntry decodeEntry_encodeEntry,
    decodeStats_encodeStats,
    encodeStrList, decodeList_map asStr Json.str (fun _ => rfl),
    encodeCharacters,
    decodeList_map decodeCharacter encodeCharacter decodeCharacter_encodeCharacter,
    decodeList_map decodeAchievement encodeAchievement
      decodeAchievement_encodeAchievement,
    asStr, Option.bind_eq_bind, Option.some_bind]
  rfl

/-- C8: saving a session and loading the saved record reproduces the
identical transcript, stats, inventory, characters and achievements (and
premise) — save/load round-trip fidelity. -/
theorem saveLoad_roundtrip (d : SaveData) :
    handleLoadS (some (handleSaveS d)) = some d := by
  show (match jsonParse (String.mk (renderJson (encodeSaveData d))) with
    | some v => decodeSaveData v
    | none => none) = some d
  rw [show jsonParse (String.mk (renderJson (encodeSaveData d))) =
      jsonParseChars (renderJson (encodeSaveData d)) from rfl,
    jsonParseChars_renderJson]
  exact decodeSaveData_encodeSaveData d

/-! ## Properties of literal global replace (`replList`), toward the fence
stripping of the Response Validator -/

theorem replListF_congr (pat : List Char) : ∀ (cs : List Char) (f g : Nat),
    cs.length ≤ f → cs.length ≤ g → replListF pat f cs = replListF pat g cs
  | [], f, g, _, _ => by cases f <;> cases g <;> rfl
  | c :: cs, 0, _, hf, _ => absurd hf (by simp)
  | c :: cs, _ + 1, 0, _, hg => absurd hg (by simp)
  | c :: cs, f + 1, g + 1, hf, hg => by
    simp only [replListF]
    split
    · exact replListF_congr pat (cs.drop (pat.length - 1)) f g
        (by simp only [List.length_cons] at hf; simp [List.length_drop]; omega)
        (by simp only [List.length_cons] at hg; simp [List.length_drop]; omega)
    · rw [replListF_congr pat cs f g
        (by simp only [List.length_cons] at hf; omega)
        (by simp only [List.length_cons] at hg; omega)]
termination_by cs => cs.length

theorem replList_nil (pat : List Char) : replList pat [] = [] := rfl

theorem replList_cons_pos (pat : List Char) (c : Char) (cs : List Char)
    (h : startsWithL pat (c :: cs) = true) :
    replList pat (c :: cs) = replList pat (cs.drop (pat.length - 1)) := by
  show replListF pat (cs.length + 1) (c :: cs) = _
  simp only [replListF, h, if_true]
  exact replListF_congr pat _ _ _ (by simp [List.length_drop]) (by simp [List.length_drop])

theorem replList_cons_neg (pat : List Char) (c : Char) (cs : List Char)
    (h : startsWithL pat (c :: cs) = false) :
    replList pat (c :: cs) = c :: replList pat cs := by
  show replListF pat (cs.length + 1) (c :: cs) = _
  simp only [replListF, h]
  rw [replListF_congr pat cs (cs.length) (cs.length) le_rfl le_rfl]
  rfl

theorem startsWithL_iff : ∀ pat cs : List Char,
    startsWithL pat cs = true ↔ ∃ t, pat ++ t = cs
  | [], cs => by simp [startsWithL]
  | p :: ps, [] => by
    simp only [startsWithL]
    constructor
    · intro h
      exact Bool.noConfusion h
    · rintro ⟨t, ht⟩
      exact absurd ht (by simp)
  | p :: ps, c :: cs => by
    simp only [startsWithL, Bool.and_eq_true, beq_iff_eq]
    rw [startsWithL_iff ps cs]
    constructor
    · rintro ⟨rfl, t, rfl⟩
      exact ⟨t, rfl⟩
    · rintro ⟨t, ht⟩
      injection ht with h1 h2
      exact ⟨h1, t, h2⟩

theorem startsWithL_append_self (pat t : List Char) :
    startsWithL pat (pat ++ t) = true :=
  (startsWithL_iff pat (pat ++ t)).mpr ⟨t, rfl⟩

theorem append_eq_split {α : Type} (a b c d : List α) (h : a ++ b = c ++ d)
    (hlen : c.length ≤ a.length) : ∃ m, a = c ++ m ∧ d = m ++ b := by
  have h2 : a.take c.length ++ (a.drop c.length ++ b) = c ++ d := by
    rw [← List.append_assoc, List.take_append_drop]
    exact h
  have h3 := List.append_inj h2 (by simp [List.length_take]; omega)
  refine ⟨a.drop c.length, ?_, h3.2.symm⟩
  conv_lhs => rw [← List.take_append_drop c.length a]
  rw [h3.1]

theorem replList_mem_aux (pat : List Char) : ∀ (n : Nat) (cs : List Char), cs.length ≤ n →
    ∀ c, c ∈ replList pat cs → c ∈ cs := by
  intro n
  induction n with
  | zero =>
    intro cs hlen c h
    have hnil : cs = [] := List.length_eq_zero.mp (Nat.le_zero.mp hlen)
    subst hnil
    rw [replList_nil] at h
    exact absurd h (by simp)
  | succ n ih =>
    intro cs hlen c h
    match cs with
    | [] => rw [replList_nil] at h; exact absurd h (by simp)
    | x :: cs =>
      by_cases hs : startsWithL pat (x :: cs) = true
      · rw [replList_cons_pos pat x cs hs] at h
        have h2 := ih (cs.drop (pat.length - 1))
          (by simp only [List.length_cons] at hlen; simp only [List.length_drop]; omega) c h
        have h3 : cs.drop (pat.length - 1) <:+ cs := List.drop_suffix _ _
        exact List.mem_cons_of_mem x (h3.subset h2)
      · rw [replList_cons_neg pat x cs (Bool.eq_false_iff.mpr hs)] at h
        rcases List.mem_cons.mp h with rfl | h2
        · exact List.mem_cons_self _ _
        · exact List.mem_cons_of_mem x
            (ih cs (by simp only [List.length_cons] at hlen; omega) c h2)

theorem replList_mem (pat cs : List Char) (c : Char) (h : c ∈ replList pat cs) : c ∈ cs :=
  replList_mem_aux pat cs.length cs le_rfl c h

theorem replList_id (pat : List Char) (p : Char) (hp : pat.head? = some p) :
    ∀ cs : List Char, (∀ c ∈ cs, c ≠ p) → replList pat cs = cs := by
  intro cs
  induction cs with
  | nil => intro _; rfl
  | cons c cs ih =>
    intro h
    have hs : startsWithL pat (c :: cs) = false := by
      cases pat with
      | nil => exact absurd hp (by simp)
      | cons q ps =>
        injection hp with hp
        subst hp
        have hne : (q == c) = false :=
          beq_eq_false_iff_ne.mpr (fun hh => (h c (by simp)) hh.symm)
        simp [startsWithL, hne]
    rw [replList_cons_neg pat c cs hs, ih (fun x hx => h x (by simp [hx]))]

theorem replList_append_aux (pat : List Char) : ∀ (n : Nat) (a b : List Char), a.length ≤ n →
    (∀ t u, u ++ t = a → t ≠ [] → startsWithL pat (t ++ b) = true →
      startsWithL pat t = true) →
    replList pat (a ++ b) = replList pat a ++ replList pat b := by
  intro n
  induction n with
  | zero =>
    intro a b hlen _
    have hnil : a = [] := List.length_eq_zero.mp (Nat.le_zero.mp hlen)
    subst hnil
    simp [replList_nil]
  | succ n ih =>
    intro a b hlen H
    match a with
    | [] => simp [replList_nil]
    | c :: a' =>
      rw [List.cons_append]
      by_cases hm : startsWithL pat (c :: (a' ++ b)) = true
      · have hta : startsWithL pat (c :: a') = true := by
          apply H (c :: a') [] rfl (by simp)
          rw [List.cons_append]
          exact hm
        obtain ⟨t0, ht0⟩ := (startsWithL_iff pat (c :: a')).mp hta
        have hplen : pat.length - 1 ≤ a'.length := by
          have := congrArg List.length ht0
          simp only [List.length_append, List.length_cons] at this
          omega
        rw [replList_cons_pos pat c (a' ++ b) hm, replList_cons_pos pat c a' hta,
          List.drop_append_of_le_length hplen]
        apply ih (a'.drop (pat.length - 1)) b
          (by simp only [List.length_cons] at hlen; simp only [List.length_drop]; omega)
        intro t u hu ht hstart
        apply H t (c :: (a'.take (pat.length - 1) ++ u)) _ ht hstart
        simp only [List.cons_append, List.append_assoc, hu, List.take_append_drop]
      · have hm' : startsWithL pat (c :: (a' ++ b)) = false := Bool.eq_false_iff.mpr hm
        have hfa : startsWithL pat (c :: a') = false := by
          cases hq : startsWithL pat (c :: a')
          · rfl
          · exfalso
            obtain ⟨t0, ht0⟩ := (startsWithL_iff pat (c :: a')).mp hq
            apply hm
            rw [show c :: (a' ++ b) = (c :: a') ++ b from rfl, ← ht0, List.append_assoc]
            exact startsWithL_append_self pat (t0 ++ b)
        rw [replList_cons_neg pat c (a' ++ b) hm', replList_cons_neg pat c a' hfa,
          List.cons_append]
        congr 1
        apply ih a' b (by simp only [List.length_cons] at hlen; omega)
        intro t u hu ht hstart
        apply H t (c :: u) _ ht hstart
        rw [List.cons_append, hu]

theorem replList_append (pat : List Char) (a b : List Char)
    (H : ∀ t u, u ++ t = a → t ≠ [] → startsWithL pat (t ++ b) = true →
      startsWithL pat t = true) :
    replList pat (a ++ b) = replList pat a ++ replList pat b :=
  replList_append_aux pat a.length a b le_rfl H

theorem replList_append_of_no_head (pat : List Char) (p : Char) (hpat : pat.head? = some p)
    (a b : List Char) (ha : ∀ c ∈ a, c ≠ p) :
    replList pat (a ++ b) = replList pat a ++ replList pat b := by
  apply replList_append pat a b
  intro t u hu ht hstart
  exfalso
  cases t with
  | nil => exact ht rfl
  | cons x t' =>
    have hx : x ∈ a := by rw [← hu]; simp
    cases pat with
    | nil => simp at hpat
    | cons q ps =>
      injection hpat with hq
      subst hq
      rw [List.cons_append] at hstart
      simp only [startsWithL, Bool.and_eq_true, beq_iff_eq] at hstart
      exact (ha x hx) hstart.1.symm

theorem replList_append_of_b_head (pat : List Char) (a b : List Char)
    (hb : ∀ x, b.head? = some x → x ∉ pat) :
    replList pat (a ++ b) = replList pat a ++ replList pat b := by
  apply replList_append pat a b
  intro t u hu ht hstart
  obtain ⟨w, hw⟩ := (startsWithL_iff pat (t ++ b)).mp hstart
  by_cases hlen : pat.length ≤ t.length
  · obtain ⟨m, hm1, _⟩ := append_eq_split t b pat w hw.symm hlen
    rw [hm1]
    exact startsWithL_append_self pat m
  · exfalso
    obtain ⟨m, hm1, hm2⟩ := append_eq_split pat w t b hw (by omega)
    cases m with
    | nil =>
      apply hlen
      rw [hm1, List.append_nil]
    | cons y m' =>
      apply hb y (by rw [hm2]; rfl)
      rw [hm1]
      exact List.mem_append_right t (by simp)

theorem replList_append_of_a_last (pat : List Char) (a b : List Char)
    (ha : ∀ y, a.getLast? = some y → y ∉ pat) :
    replList pat (a ++ b) = replList pat a ++ replList pat b := by
  apply replList_append pat a b
  intro t u hu ht hstart
  obtain ⟨w, hw⟩ := (startsWithL_iff pat (t ++ b)).mp hstart
  by_cases hlen : pat.length ≤ t.length
  · obtain ⟨m, hm1, _⟩ := append_eq_split t b pat w hw.symm hlen
    rw [hm1]
    exact startsWithL_append_self pat m
  · exfalso
    obtain ⟨m, hm1, _⟩ := append_eq_split pat w t b hw (by omega)
    have hlast : a.getLast? = some (t.getLast ht) := by
      rw [← hu, List.getLast?_append_of_ne_nil u ht]
      exact List.getLast?_eq_getLast_of_ne_nil ht
    apply ha (t.getLast ht) hlast
    rw [hm1]
    exact List.mem_append_left m (List.getLast_mem ht)

/-! ## Parser anatomy: the unconsumed rest is a strict suffix of the input -/

theorem skipWs_split (cs : List Char) : cs.takeWhile isWsChar ++ skipWs cs = cs :=
  List.takeWhile_append_dropWhile isWsChar cs

theorem skipWs_suffix (cs : List Char) : skipWs cs <:+ cs :=
  ⟨_, skipWs_split cs⟩

theorem takeWhile_ws_all (cs : List Char) :
    ∀ c ∈ cs.takeWhile isWsChar, isWsChar c = true :=
  fun _ hc => List.mem_takeWhile_imp hc

theorem dropWhile_append_of_all (p : Char → Bool) (a b : List Char)
    (ha : ∀ c ∈ a, p c = true) : (a ++ b).dropWhile p = b.dropWhile p := by
  induction a with
  | nil => rfl
  | cons x a ih =>
    rw [List.cons_append, List.dropWhile_cons, if_pos (ha x (by simp))]
    exact ih (fun c hc => ha c (by simp [hc]))

theorem skipWs_ws_append (ws X : List Char) (hws : ∀ c ∈ ws, isWsChar c = true) :
    skipWs (ws ++ X) = skipWs X :=
  dropWhile_append_of_all isWsChar ws X hws

theorem parseStringBody_split : ∀ (fuel : Nat) (cs s rest : List Char),
    parseStringBody fuel cs = some (s, rest) →
    rest <:+ cs ∧ rest.length < cs.length := by
  intro fuel
  induction fuel with
  | zero => intro cs s rest h; exact absurd h (by simp [parseStringBody])
  | succ fuel ih =>
    intro cs s rest h
    match cs with
    | [] => exact absurd h (by simp [parseStringBody])
    | c :: r =>
      by_cases hq : c = '"'
      · subst hq
        simp only [parseStringBody] at h
        injection h with h1
        injection h1 with h1 h2
        subst h2
        exact ⟨⟨['"'], rfl⟩, by simp⟩
      · by_cases hbs : c = '\\'
        · subst hbs
          simp only [parseStringBody] at h
          split at h
          · rename_i u1 u2 u3 u4 r2
            split at h
            · rename_i a b cc d ha hb hc hd
              split at h
              · split at h
                · rename_i s2 rest2 hrec
                  injection h with h1
                  injection h1 with h1 h2
                  subst h2
                  obtain ⟨hsuf, hlen⟩ := ih _ _ _ hrec
                  refine ⟨hsuf.trans ⟨['\\', 'u', u1, u2, u3, u4], rfl⟩, ?_⟩
                  simp only [List.length_cons]
                  omega
                · exact absurd h (by simp)
              · exact absurd h (by simp)
            · exact absurd h (by simp)
          · rename_i e r2 hne
            split at h
            · rename_i c2 hesc
              split at h
              · rename_i s2 rest2 hrec
                injection h with h1
                injection h1 with h1 h2
                subst h2
                obtain ⟨hsuf, hlen⟩ := ih _ _ _ hrec
                refine ⟨hsuf.trans ⟨['\\', e], rfl⟩, ?_⟩
                simp only [List.length_cons]
                omega
              · exact absurd h (by simp)
            · exact absurd h (by simp)
          · exact absurd h (by simp)
        · simp only [parseStringBody] at h
          split at h
          · split at h
            · rename_i s2 rest2 hrec
              injection h with h1
              injection h1 with h1 h2
              subst h2
              obtain ⟨hsuf, hlen⟩ := ih _ _ _ hrec
              refine ⟨hsuf.trans ⟨[c], rfl⟩, ?_⟩
              simp only [List.length_cons]
              omega
            · exact absurd h (by simp)
          · exact absurd h (by simp)

theorem parseNatNum_split (cs : List Char) (n : Nat) (rest : List Char)
    (h : parseNatNum cs = some (n, rest)) :
    rest <:+ cs ∧ rest.length < cs.length := by
  match cs with
  | [] => exact absurd h (by simp [parseNatNum])
  | c :: r =>
    simp only [parseNatNum] at h
    split at h
    · injection h with h1
      injection h1 with h1 h2
      subst h2
      exact ⟨⟨[c], rfl⟩, by simp⟩
    · split at h
      · rename_i hz hd
        injection h with h1
        injection h1 with h1 h2
        subst h2
        constructor
        · exact ⟨(c :: r).takeWhile Char.isDigit,
            List.takeWhile_append_dropWhile Char.isDigit (c :: r)⟩
        · rw [List.dropWhile_cons, if_pos hd]
          have := (List.dropWhile_suffix Char.isDigit (l := r)).length_le
          simp only [List.length_cons]
          omega
      · exact absurd h (by simp)

theorem parse_split : ∀ fuel : Nat,
    (∀ cs v rest, parseValue fuel cs = some (v, rest) →
      rest <:+ cs ∧ rest.length < cs.length) ∧
    (∀ cs kvs rest, parseMemberList fuel cs = some (kvs, rest) →
      rest <:+ cs ∧ rest.length < cs.length) ∧
    (∀ cs vs rest, parseElemList fuel cs = some (vs, rest) →
      rest <:+ cs ∧ rest.length < cs.length) := by
  intro fuel
  induction fuel with
  | zero =>
    refine ⟨?_, ?_, ?_⟩ <;> intro cs x rest h <;>
      exact absurd h (by simp [parseValue, parseMemberList, parseElemList])
  | succ fuel ih =>
    obtain ⟨ihV, ihM, ihE⟩ := ih
    refine ⟨?_, ?_, ?_⟩
    · intro cs v rest h
      simp only [parseValue] at h
      split at h
      · exact absurd h (by simp)
      · rename_i r heq
        have hr : r <:+ cs := (List.suffix_cons '{' r).trans (heq ▸ skipWs_suffix cs)
        have hrl : r.length + 1 ≤ cs.length := by
          have := (heq ▸ skipWs_suffix cs).length_le
          simp only [List.length_cons] at this
          omega
        split at h
        · rename_i rest0 heq2
          injection h with h1
          injection h1 with h1 h2
          subst h2
          have h3 : rest0 <:+ r :=
            (List.suffix_cons '}' rest0).trans (heq2 ▸ skipWs_suffix r)
          refine ⟨h3.trans hr, ?_⟩
          have h4 := (heq2 ▸ skipWs_suffix r).length_le
          simp only [List.length_cons] at h4
          omega
        · split at h
          · rename_i kvs0 rest0 hrec
            injection h with h1
            injection h1 with h1 h2
            subst h2
            obtain ⟨hsuf, hlen⟩ := ihM _ _ _ hrec
            have h3 : skipWs r <:+ r := skipWs_suffix r
            refine ⟨(hsuf.trans h3).trans hr, ?_⟩
            have := h3.length_le
            omega
          · exact absurd h (by simp)
      · rename_i r heq
        have hr : r <:+ cs := (List.suffix_cons '[' r).trans (heq ▸ skipWs_suffix cs)
        have hrl : r.length + 1 ≤ cs.length := by
          have := (heq ▸ skipWs_suffix cs).length_le
          simp only [List.length_cons] at this
          omega
        split at h
        · rename_i rest0 heq2
          injection h with h1
          injection h1 with h1 h2
          subst h2
          have h3 : rest0 <:+ r :=
            (List.suffix_cons ']' rest0).trans (heq2 ▸ skipWs_suffix r)
          refine ⟨h3.trans hr, ?_⟩
          have h4 := (heq2 ▸ skipWs_suffix r).length_le
          simp only [List.length_cons] at h4
          omega
        · split at h
          · rename_i vs0 rest0 hrec
            injection h with h1
            injection h1 with h1 h2
            subst h2
            obtain ⟨hsuf, hlen⟩ := ihE _ _ _ hrec
            have h3 : skipWs r <:+ r := skipWs_suffix r
            refine ⟨(hsuf.trans h3).trans hr, ?_⟩
            have := h3.length_le
            omega
          · exact absurd h (by simp)
      · rename_i r heq
        have hr : r <:+ cs := (List.suffix_cons '"' r).trans (heq ▸ skipWs_suffix cs)
        have hrl : r.length + 1 ≤ cs.length := by
          have := (heq ▸ skipWs_suffix cs).length_le
          simp only [List.length_cons] at this
          omega
        split at h
        · rename_i s0 rest0 hrec
          injection h with h1
          injection h1 with h1 h2
          subst h2
          obtain ⟨hsuf, hlen⟩ := parseStringBody_split _ _ _ _ hrec
          exact ⟨hsuf.trans hr, by omega⟩
        · exact absurd h (by simp)
      · rename_i r heq
        have hr : r <:+ cs := (List.suffix_cons 't' r).trans (heq ▸ skipWs_suffix cs)
        have hrl : r.length + 1 ≤ cs.length := by
          have := (heq ▸ skipWs_suffix cs).length_le
          simp only [List.length_cons] at this
          omega
        split at h
        · injection h with h1
          injection h1 with h1 h2
          subst h2
          refine ⟨(List.drop_suffix 3 r).trans hr, ?_⟩
          have := (List.drop_suffix 3 r).length_le
          omega
        · exact absurd h (by simp)
      · rename_i r heq
        have hr : r <:+ cs := (List.suffix_cons 'f' r).trans (heq ▸ skipWs_suffix cs)
        have hrl : r.length + 1 ≤ cs.length := by
          have := (heq ▸ skipWs_suffix cs).length_le
          simp only [List.length_cons] at this
          omega
        split at h
        · injection h with h1
          injection h1 with h1 h2
          subst h2
          refine ⟨(List.drop_suffix 4 r).trans hr, ?_⟩
          have := (List.drop_suffix 4 r).length_le
          omega
        · exact absurd h (by simp)
      · rename_i r heq
        have hr : r <:+ cs := (List.suffix_cons 'n' r).trans (heq ▸ skipWs_suffix cs)
        have hrl : r.length + 1 ≤ cs.length := by
          have := (heq ▸ skipWs_suffix cs).length_le
          simp only [List.length_cons] at this
          omega
        split at h
        · injection h with h1
          injection h1 with h1 h2
          subst h2
          refine ⟨(List.drop_suffix 3 r).trans hr, ?_⟩
          have := (List.drop_suffix 3 r).length_le
          omega
        · exact absurd h (by simp)
      · rename_i r heq
        have hr : r <:+ cs := (List.suffix_cons '-' r).trans (heq ▸ skipWs_suffix cs)
        have hrl : r.length + 1 ≤ cs.length := by
          have := (heq ▸ skipWs_suffix cs).length_le
          simp only [List.length_cons] at this
          omega
        split at h
        · rename_i n0 rest0 hrec
          injection h with h1
          injection h1 with h1 h2
          subst h2
          obtain ⟨hsuf, hlen⟩ := parseNatNum_split _ _ _ hrec
          exact ⟨hsuf.trans hr, by omega⟩
        · exact absurd h (by simp)
      · rename_i c r d1 d2 d3 d4 d5 d6 d7 heq
        have hr : c :: r <:+ cs := heq ▸ skipWs_suffix cs
        have hrl : r.length + 1 ≤ cs.length := by
          have := hr.length_le
          simp only [List.length_cons] at this
          omega
        split at h
        · split at h
          · rename_i n0 rest0 hrec
            injection h with h1
            injection h1 with h1 h2
            subst h2
            obtain ⟨hsuf, hlen⟩ := parseNatNum_split _ _ _ hrec
            refine ⟨hsuf.trans hr, ?_⟩
            simp only [List.length_cons] at hlen
            omega
          · exact absurd h (by simp)
        · exact absurd h (by simp)
    · intro cs kvs rest h
      simp only [parseMemberList] at h
      split at h
      · rename_i r
        split at h
        · rename_i k r1 hrecK
          obtain ⟨hsufK, hlenK⟩ := parseStringBody_split _ _ _ _ hrecK
          split at h
          · rename_i r2 heq2
            have h2 : r2 <:+ r1 :=
              (List.suffix_cons ':' r2).trans (heq2 ▸ skipWs_suffix r1)
            have h2l : r2.length + 1 ≤ r1.length := by
              have := (heq2 ▸ skipWs_suffix r1).length_le
              simp only [List.length_cons] at this
              omega
            split at h
            · rename_i v0 r3 hrecV
              obtain ⟨hsufV, hlenV⟩ := ihV _ _ _ hrecV
              split at h
              · rename_i r4 heq4
                split at h
                · rename_i kvs0 r5 hrecM
                  injection h with h1
                  injection h1 with h1 h2
                  subst h2
                  obtain ⟨hsufM, hlenM⟩ := ihM _ _ _ hrecM
                  have h4 : r4 <:+ r3 :=
                    (List.suffix_cons ',' r4).trans (heq4 ▸ skipWs_suffix r3)
                  have h4l : r4.length + 1 ≤ r3.length := by
                    have := (heq4 ▸ skipWs_suffix r3).length_le
                    simp only [List.length_cons] at this
                    omega
                  have h5 : skipWs r4 <:+ r4 := skipWs_suffix r4
                  have h5l := h5.length_le
                  refine ⟨((((hsufM.trans h5).trans h4).trans hsufV).trans h2).trans
                    ((hsufK).trans (List.suffix_cons '"' r)), ?_⟩
                  simp only [List.length_cons]
                  omega
                · exact absurd h (by simp)
              · rename_i r4 heq4
                injection h with h1
                injection h1 with h1 h2
                subst h2
                have h4 : r4 <:+ r3 :=
                  (List.suffix_cons '}' r4).trans (heq4 ▸ skipWs_suffix r3)
                have h4l : r4.length + 1 ≤ r3.length := by
                  have := (heq4 ▸ skipWs_suffix r3).length_le
                  simp only [List.length_cons] at this
                  omega
                refine ⟨(((h4.trans hsufV).trans h2).trans hsufK).trans
                  (List.suffix_cons '"' r), ?_⟩
                simp only [List.length_cons]
                omega
              · exact absurd h (by simp)
            · exact absurd h (by simp)
          · exact absurd h (by simp)
        · exact absurd h (by simp)
      · exact absurd h (by simp)
    · intro cs vs rest h
      simp only [parseElemList] at h
      split at h
      · rename_i v0 r1 hrecV
        obtain ⟨hsufV, hlenV⟩ := ihV _ _ _ hrecV
        split at h
        · rename_i r2 heq2
          have h2 : r2 <:+ r1 :=
            (List.suffix_cons ',' r2).trans (heq2 ▸ skipWs_suffix r1)
          have h2l : r2.length + 1 ≤ r1.length := by
            have := (heq2 ▸ skipWs_suffix r1).length_le
            simp only [List.length_cons] at this
            omega
          split at h
          · rename_i vs0 r3 hrecE
            injection h with h1
            injection h1 with h1 h2
            subst h2
            obtain ⟨hsufE, hlenE⟩ := ihE _ _ _ hrecE
            exact ⟨((hsufE.trans h2).trans hsufV), by omega⟩
          · exact absurd h (by simp)
        · rename_i r2 heq2
          injection h with h1
          injection h1 with h1 h2
          subst h2
          have h2 : r2 <:+ r1 :=
            (List.suffix_cons ']' r2).trans (heq2 ▸ skipWs_suffix r1)
          have h2l : r2.length + 1 ≤ r1.length := by
            have := (heq2 ▸ skipWs_suffix r1).length_le
            simp only [List.length_cons] at this
            omega
          exact ⟨h2.trans hsufV, by omega⟩
        · exact absurd h (by simp)
      · exact absurd h (by simp)

/-! ## Fuel irrelevance: a successful parse succeeds at any fuel exceeding the
number of consumed characters -/

theorem skipWs_skipWs (cs : List Char) : skipWs (skipWs cs) = skipWs cs := by
  induction cs with
  | nil => rfl
  | cons c r ih =>
    show skipWs ((c :: r).dropWhile isWsChar) = (c :: r).dropWhile isWsChar
    rw [List.dropWhile_cons]
    split
    · exact ih
    · rename_i hws
      show skipWs (c :: r) = c :: r
      rw [show skipWs (c :: r) = (c :: r).dropWhile isWsChar from rfl,
        List.dropWhile_cons, if_neg hws]

theorem parseValue_skipWs (f : Nat) (cs : List Char) :
    parseValue (f + 1) cs = parseValue (f + 1) (skipWs cs) := by
  simp only [parseValue, skipWs_skipWs]

theorem parseValue_unfold_obj (f : Nat) (r : List Char) :
    parseValue (f + 1) ('{' :: r) =
      (match skipWs r with
       | '}' :: rest => some (Json.obj [], rest)
       | r2 =>
         match parseMemberList f r2 with
         | some (kvs, rest) => some (Json.obj kvs, rest)
         | none => none) := rfl

theorem parseValue_unfold_arr (f : Nat) (r : List Char) :
    parseValue (f + 1) ('[' :: r) =
      (match skipWs r with
       | ']' :: rest => some (Json.arr [], rest)
       | r2 =>
         match parseElemList f r2 with
         | some (vs, rest) => some (Json.arr vs, rest)
         | none => none) := rfl

theorem parseValue_unfold_true (f : Nat) (r : List Char) :
    parseValue (f + 1) ('t' :: r) =
      (if startsWithL ['r', 'u', 'e'] r then some (Json.bool true, r.drop 3)
       else none) := rfl

theorem parseValue_unfold_false (f : Nat) (r : List Char) :
    parseValue (f + 1) ('f' :: r) =
      (if startsWithL ['a', 'l', 's', 'e'] r then some (Json.bool false, r.drop 4)
       else none) := rfl

theorem parseValue_unfold_null (f : Nat) (r : List Char) :
    parseValue (f + 1) ('n' :: r) =
      (if startsWithL ['u', 'l', 'l'] r then some (Json.null, r.drop 3)
       else none) := rfl

theorem parseStringBody_fuel_mono : ∀ (fuel : Nat) (cs s rest : List Char),
    parseStringBody fuel cs = some (s, rest) →
    ∀ g, cs.length - rest.length < g → parseStringBody g cs = some (s, rest) := by
  intro fuel
  induction fuel with
  | zero => intro cs s rest h; exact absurd h (by simp [parseStringBody])
  | succ fuel ih =>
    intro cs s rest h g hg
    match cs with
    | [] => exact absurd h (by simp [parseStringBody])
    | c :: r =>
      by_cases hq : c = '"'
      · subst hq
        simp only [parseStringBody] at h
        injection h with h1
        injection h1 with h1 h2
        subst h1
        subst h2
        obtain ⟨g', rfl⟩ : ∃ g', g = g' + 1 := ⟨g - 1, by omega⟩
        rfl
      · by_cases hbs : c = '\\'
        · subst hbs
          simp only [parseStringBody] at h
          split at h
          · rename_i u1 u2 u3 u4 r2
            split at h
            · rename_i a b cc d ha hb hc hd
              split at h
              · rename_i hval
                split at h
                · rename_i s2 rest2 hrec
                  injection h with h1
                  injection h1 with h1 h2
                  subst h1
                  subst h2
                  obtain ⟨hsuf, hlen⟩ := parseStringBody_split _ _ _ _ hrec
                  simp only [List.length_cons] at hg
                  obtain ⟨g', rfl⟩ : ∃ g', g = g' + 1 := ⟨g - 1, by omega⟩
                  rw [parseStringBody_unicode_step g' u1 u2 u3 u4 _ a b cc d
                    ha hb hc hd hval, ih _ _ _ hrec g' (by omega)]
                · exact absurd h (by simp)
              · exact absurd h (by simp)
            · exact absurd h (by simp)
          · rename_i e r2 hne
            split at h
            · rename_i c2 hesc
              split at h
              · rename_i s2 rest2 hrec
                injection h with h1
                injection h1 with h1 h2
                subst h1
                subst h2
                have hene : e ≠ 'u' := by
                  intro he
                  subst he
                  exact absurd hesc (by simp [escapeChar?])
                obtain ⟨hsuf, hlen⟩ := parseStringBody_split _ _ _ _ hrec
                simp only [List.length_cons] at hg
                obtain ⟨g', rfl⟩ : ∃ g', g = g' + 1 := ⟨g - 1, by omega⟩
                rw [parseStringBody_escape_step g' e c2 _ hesc hene,
                  ih _ _ _ hrec g' (by omega)]
              · exact absurd h (by simp)
            · exact absurd h (by simp)
          · exact absurd h (by simp)
        · simp only [parseStringBody] at h
          split at h
          · rename_i h32
            split at h
            · rename_i s2 rest2 hrec
              injection h with h1
              injection h1 with h1 h2
              subst h1
              subst h2
              obtain ⟨hsuf, hlen⟩ := parseStringBody_split _ _ _ _ hrec
              simp only [List.length_cons] at hg
              obtain ⟨g', rfl⟩ : ∃ g', g = g' + 1 := ⟨g - 1, by omega⟩
              rw [parseStringBody_char_step g' c _ h32 hq hbs,
                ih _ _ _ hrec g' (by omega)]
            · exact absurd h (by simp)
          · exact absurd h (by simp)

theorem parse_fuel_mono : ∀ fuel : Nat,
    (∀ cs v rest, parseValue fuel cs = some (v, rest) →
      ∀ g, cs.length - rest.length < g → parseValue g cs = some (v, rest)) ∧
    (∀ cs kvs rest, parseMemberList fuel cs = some (kvs, rest) →
      ∀ g, cs.length - rest.length < g → parseMemberList g cs = some (kvs, rest)) ∧
    (∀ cs vs rest, parseElemList fuel cs = some (vs, rest) →
      ∀ g, cs.length - rest.length < g → parseElemList g cs = some (vs, rest)) := by
  intro fuel
  induction fuel with
  | zero =>
    refine ⟨?_, ?_, ?_⟩ <;> intro cs x rest h <;>
      exact absurd h (by simp [parseValue, parseMemberList, parseElemList])
  | succ fuel ih =>
    obtain ⟨ihV, ihM, ihE⟩ := ih
    refine ⟨?_, ?_, ?_⟩
    · intro cs v rest h g hg
      simp only [parseValue] at h
      split at h
      · exact absurd h (by simp)
      · rename_i r heq
        have hrl : r.length + 1 ≤ cs.length := by
          have := (heq ▸ skipWs_suffix cs).length_le
          simp only [List.length_cons] at this
          omega
        split at h
        · rename_i rest0 heq2
          injection h with h1
          injection h1 with h1 h2
          subst h1
          subst h2
          have h4 : rest0.length + 1 ≤ r.length := by
            have := (heq2 ▸ skipWs_suffix r).length_le
            simp only [List.length_cons] at this
            omega
          obtain ⟨g', rfl⟩ : ∃ g', g = g' + 1 := ⟨g - 1, by omega⟩
          rw [parseValue_skipWs, heq, parseValue_unfold_obj, heq2]
          rfl
        · rename_i hne
          split at h
          · rename_i kvs0 rest0 hrec
            injection h with h1
            injection h1 with h1 h2
            subst h1
            subst h2
            obtain ⟨hsuf, hlen⟩ := (parse_split fuel).2.1 _ _ _ hrec
            have hsl : (skipWs r).length ≤ r.length := (skipWs_suffix r).length_le
            obtain ⟨g', rfl⟩ : ∃ g', g = g' + 1 := ⟨g - 1, by omega⟩
            have hM' := ihM _ _ _ hrec g' (by omega)
            rw [parseValue_skipWs, heq, parseValue_unfold_obj]
            split
            · rename_i rest1 heq3
              exact absurd heq3 (by intro hx; exact hne rest1 hx)
            · rw [hM']
          · exact absurd h (by simp)
      · rename_i r heq
        have hrl : r.length + 1 ≤ cs.length := by
          have := (heq ▸ skipWs_suffix cs).length_le
          simp only [List.length_cons] at this
          omega
        split at h
        · rename_i rest0 heq2
          injection h with h1
          injection h1 with h1 h2
          subst h1
          subst h2
          have h4 : rest0.length + 1 ≤ r.length := by
            have := (heq2 ▸ skipWs_suffix r).length_le
            simp only [List.length_cons] at this
            omega
          obtain ⟨g', rfl⟩ : ∃ g', g = g' + 1 := ⟨g - 1, by omega⟩
          rw [parseValue_skipWs, heq, parseValue_unfold_arr, heq2]
          rfl
        · rename_i hne
          split at h
          · rename_i vs0 rest0 hrec
            injection h with h1
            injection h1 with h1 h2
            subst h1
            subst h2
            obtain ⟨hsuf, hlen⟩ := (parse_split fuel).2.2 _ _ _ hrec
            have hsl : (skipWs r).length ≤ r.length := (skipWs_suffix r).length_le
            obtain ⟨g', rfl⟩ : ∃ g', g = g' + 1 := ⟨g - 1, by omega⟩
            have hE' := ihE _ _ _ hrec g' (by omega)
            rw [parseValue_skipWs, heq, parseValue_unfold_arr]
            split
            · rename_i rest1 heq3
              exact absurd heq3 (by intro hx; exact hne rest1 hx)
            · rw [hE']
          · exact absurd h (by simp)
      · rename_i r heq
        have hrl : r.length + 1 ≤ cs.length := by
          have := (heq ▸ skipWs_suffix cs).length_le
          simp only [List.length_cons] at this
          omega
        split at h
        · rename_i s0 rest0 hrec
          injection h with h1
          injection h1 with h1 h2
          subst h1
          subst h2
          obtain ⟨hsuf, hlen⟩ := parseStringBody_split _ _ _ _ hrec
          obtain ⟨g', rfl⟩ : ∃ g', g = g' + 1 := ⟨g - 1, by omega⟩
          have hS' := parseStringBody_fuel_mono _ _ _ _ hrec g' (by omega)
          rw [parseValue_skipWs, heq, parseValue_step_str, hS']
        · exact absurd h (by simp)
      · rename_i r heq
        have hrl : r.length + 1 ≤ cs.length := by
          have := (heq ▸ skipWs_suffix cs).length_le
          simp only [List.length_cons] at this
          omega
        split at h
        · rename_i htr
          injection h with h1
          injection h1 with h1 h2
          subst h1
          subst h2
          have hdl : (r.drop 3).length ≤ r.length := (List.drop_suffix 3 r).length_le
          obtain ⟨g', rfl⟩ : ∃ g', g = g' + 1 := ⟨g - 1, by omega⟩
          rw [parseValue_skipWs, heq, parseValue_unfold_true, if_pos htr]
        · exact absurd h (by simp)
      · rename_i r heq
        have hrl : r.length + 1 ≤ cs.length := by
          have := (heq ▸ skipWs_suffix cs).length_le
          simp only [List.length_cons] at this
          omega
        split at h
        · rename_i htr
          injection h with h1
          injection h1 with h1 h2
          subst h1
          subst h2
          have hdl : (r.drop 4).length ≤ r.length := (List.drop_suffix 4 r).length_le
          obtain ⟨g', rfl⟩ : ∃ g', g = g' + 1 := ⟨g - 1, by omega⟩
          rw [parseValue_skipWs, heq, parseValue_unfold_false, if_pos htr]
        · exact absurd h (by simp)
      · rename_i r heq
        have hrl : r.length + 1 ≤ cs.length := by
          have := (heq ▸ skipWs_suffix cs).length_le
          simp only [List.length_cons] at this
          omega
        split at h
        · rename_i htr
          injection h with h1
          injection h1 with h1 h2
          subst h1
          subst h2
          have hdl : (r.drop 3).length ≤ r.length := (List.drop_suffix 3 r).length_le
          obtain ⟨g', rfl⟩ : ∃ g', g = g' + 1 := ⟨g - 1, by omega⟩
          rw [parseValue_skipWs, heq, parseValue_unfold_null, if_pos htr]
        · exact absurd h (by simp)
      · rename_i r heq
        have hrl : r.length + 1 ≤ cs.length := by
          have := (heq ▸ skipWs_suffix cs).length_le
          simp only [List.length_cons] at this
          omega
        split at h
        · rename_i n0 rest0 hrec
          injection h with h1
          injection h1 with h1 h2
          subst h1
          subst h2
          obtain ⟨hsuf, hlen⟩ := parseNatNum_split _ _ _ hrec
          obtain ⟨g', rfl⟩ : ∃ g', g = g' + 1 := ⟨g - 1, by omega⟩
          rw [parseValue_skipWs, heq, parseValue_step_neg, hrec]
        · exact absurd h (by simp)
      · rename_i c r d1 d2 d3 d4 d5 d6 d7 heq
        have hrl : r.length + 1 ≤ cs.length := by
          have := (heq ▸ skipWs_suffix cs).length_le
          simp only [List.length_cons] at this
          omega
        split at h
        · rename_i hd
          split at h
          · rename_i n0 rest0 hrec
            injection h with h1
            injection h1 with h1 h2
            subst h1
            subst h2
            obtain ⟨hsuf, hlen⟩ := parseNatNum_split _ _ _ hrec
            simp only [List.length_cons] at hlen
            obtain ⟨g', rfl⟩ : ∃ g', g = g' + 1 := ⟨g - 1, by omega⟩
            rw [parseValue_skipWs, heq, parseValue_step_digit g' c r hd, hrec]
          · exact absurd h (by simp)
        · exact absurd h (by simp)
    · intro cs kvs rest h g hg
      simp only [parseMemberList] at h
      split at h
      · rename_i r
        split at h
        · rename_i k r1 hrecK
          obtain ⟨hsufK, hlenK⟩ := parseStringBody_split _ _ _ _ hrecK
          split at h
          · rename_i r2 heq2
            have h2l : r2.length + 1 ≤ r1.length := by
              have := (heq2 ▸ skipWs_suffix r1).length_le
              simp only [List.length_cons] at this
              omega
            split at h
            · rename_i v0 r3 hrecV
              obtain ⟨hsufV, hlenV⟩ := (parse_split fuel).1 _ _ _ hrecV
              split at h
              · rename_i r4 heq4
                split at h
                · rename_i kvs0 r5 hrecM
                  injection h with h1
                  injection h1 with h1 h2
                  subst h1
                  subst h2
                  obtain ⟨hsufM, hlenM⟩ := (parse_split fuel).2.1 _ _ _ hrecM
                  have h4l : r4.length + 1 ≤ r3.length := by
                    have := (heq4 ▸ skipWs_suffix r3).length_le
                    simp only [List.length_cons] at this
                    omega
                  have h5l : (skipWs r4).length ≤ r4.length :=
                    (skipWs_suffix r4).length_le
                  simp only [List.length_cons] at hg
                  obtain ⟨g', rfl⟩ : ∃ g', g = g' + 1 := ⟨g - 1, by omega⟩
                  have hK' := parseStringBody_fuel_mono _ _ _ _ hrecK g' (by omega)
                  have hV' := ihV _ _ _ hrecV g' (by omega)
                  have hM' := ihM _ _ _ hrecM g' (by omega)
                  simp only [parseMemberList, hK', heq2, hV', heq4, hM']
                · exact absurd h (by simp)
              · rename_i r4 heq4
                injection h with h1
                injection h1 with h1 h2
                subst h1
                subst h2
                have h4l : r4.length + 1 ≤ r3.length := by
                  have := (heq4 ▸ skipWs_suffix r3).length_le
                  simp only [List.length_cons] at this
                  omega
                simp only [List.length_cons] at hg
                obtain ⟨g', rfl⟩ : ∃ g', g = g' + 1 := ⟨g - 1, by omega⟩
                have hK' := parseStringBody_fuel_mono _ _ _ _ hrecK g' (by omega)
                have hV' := ihV _ _ _ hrecV g' (by omega)
                simp only [parseMemberList, hK', heq2, hV', heq4]
              · exact absurd h (by simp)
            · exact absurd h (by simp)
          · exact absurd h (by simp)
        · exact absurd h (by simp)
      · exact absurd h (by simp)
    · intro cs vs rest h g hg
      simp only [parseElemList] at h
      split at h
      · rename_i v0 r1 hrecV
        obtain ⟨hsufV, hlenV⟩ := (parse_split fuel).1 _ _ _ hrecV
        split at h
        · rename_i r2 heq2
          have h2l : r2.length + 1 ≤ r1.length := by
            have := (heq2 ▸ skipWs_suffix r1).length_le
            simp only [List.length_cons] at this
            omega
          split at h
          · rename_i vs0 r3 hrecE
            injection h with h1
            injection h1 with h1 h2
            subst h1
            subst h2
            obtain ⟨hsufE, hlenE⟩ := (parse_split fuel).2.2 _ _ _ hrecE
            obtain ⟨g', rfl⟩ : ∃ g', g = g' + 1 := ⟨g - 1, by omega⟩
            have hV' := ihV _ _ _ hrecV g' (by omega)
            have hE' := ihE _ _ _ hrecE g' (by omega)
            simp only [parseElemList, hV', heq2, hE']
          · exact absurd h (by simp)
        · rename_i r2 heq2
          injection h with h1
          injection h1 with h1 h2
          subst h1
          subst h2
          have h2l : r2.length + 1 ≤ r1.length := by
            have := (heq2 ▸ skipWs_suffix r1).length_le
            simp only [List.length_cons] at this
            omega
          obtain ⟨g', rfl⟩ : ∃ g', g = g' + 1 := ⟨g - 1, by omega⟩
          have hV' := ihV _ _ _ hrecV g' (by omega)
          simp only [parseElemList, hV', heq2]
        · exact absurd h (by simp)
      · exact absurd h (by simp)

/-! ## Fence stripping inside string literals preserves parseability -/

theorem replList_cons_of_ne (pat : List Char) (p : Char) (hp : pat.head? = some p)
    (c : Char) (cs : List Char) (hne : c ≠ p) :
    replList pat (c :: cs) = c :: replList pat cs := by
  apply replList_cons_neg
  cases pat with
  | nil => exact absurd hp (by simp)
  | cons q ps =>
    injection hp with hp
    subst hp
    have hb : (q == c) = false := beq_eq_false_iff_ne.mpr (fun hh => hne hh.symm)
    simp [startsWithL, hb]

theorem goodpat_plain (pat : List Char)
    (hpc : ∀ c ∈ pat, c ∈ [backquote, 'j', 's', 'o', 'n']) :
    ∀ c ∈ pat, 32 ≤ c.toNat ∧ c ≠ '"' ∧ c ≠ '\\' := by
  intro c hc
  have hm := hpc c hc
  simp only [List.mem_cons, List.not_mem_nil, or_false] at hm
  rcases hm with rfl | rfl | rfl | rfl | rfl
  · exact ⟨by decide, by decide, by decide⟩
  · exact ⟨by decide, by decide, by decide⟩
  · exact ⟨by decide, by decide, by decide⟩
  · exact ⟨by decide, by decide, by decide⟩
  · exact ⟨by decide, by decide, by decide⟩

theorem hexVal?_ne_backquote (c : Char) (a : Nat) (h : hexVal? c = some a) :
    c ≠ backquote := by
  intro hc
  subst hc
  rw [show hexVal? backquote = none from by decide] at h
  exact Option.noConfusion h

theorem escapeChar?_ne_backquote (e c : Char) (h : escapeChar? e = some c) :
    e ≠ backquote := by
  intro he
  subst he
  rw [show escapeChar? backquote = none from by decide] at h
  exact Option.noConfusion h

theorem parseStringBody_plain_inv (f : Nat) (c : Char) (Y s rest : List Char)
    (h32 : 32 ≤ c.toNat) (hq : c ≠ '"') (hbs : c ≠ '\\')
    (h : parseStringBody f (c :: Y) = some (s, rest)) :
    ∃ f₀ s₂, f = f₀ + 1 ∧ s = c :: s₂ ∧ parseStringBody f₀ Y = some (s₂, rest) := by
  match f with
  | 0 => exact absurd h (by simp [parseStringBody])
  | f₀ + 1 =>
    rw [parseStringBody_char_step f₀ c Y h32 hq hbs] at h
    split at h
    · rename_i s2 rest2 hrec
      injection h with h1
      injection h1 with h1 h2
      subst h2
      exact ⟨f₀, s2, rfl, h1.symm, hrec⟩
    · exact absurd h (by simp)

theorem parseStringBody_drop_plain : ∀ (q : List Char) (f : Nat) (Y s rest : List Char),
    (∀ c ∈ q, 32 ≤ c.toNat ∧ c ≠ '"' ∧ c ≠ '\\') →
    parseStringBody f (q ++ Y) = some (s, rest) →
    ∃ s₂, parseStringBody (f - q.length) Y = some (s₂, rest) := by
  intro q
  induction q with
  | nil => intro f Y s rest _ h; exact ⟨s, h⟩
  | cons c q ih =>
    intro f Y s rest hplain h
    obtain ⟨hc32, hcq, hcbs⟩ := hplain c (by simp)
    rw [List.cons_append] at h
    obtain ⟨f₀, s₂, rfl, _, hrec⟩ :=
      parseStringBody_plain_inv f c (q ++ Y) s rest hc32 hcq hcbs h
    obtain ⟨s₃, h₃⟩ := ih f₀ Y s₂ rest (fun x hx => hplain x (by simp [hx])) hrec
    refine ⟨s₃, ?_⟩
    have harith : f₀ + 1 - (c :: q).length = f₀ - q.length := by
      simp only [List.length_cons]
      omega
    rw [harith]
    exact h₃

theorem stringBody_strip_aux (pat : List Char) (hph : pat.head? = some backquote)
    (hpc : ∀ c ∈ pat, c ∈ [backquote, 'j', 's', 'o', 'n']) :
    ∀ (n : Nat) (preS : List Char) (f : Nat) (rest s : List Char),
    preS.length ≤ n →
    parseStringBody f (preS ++ rest) = some (s, rest) →
    ∀ rest', ∃ s', ∀ g, f ≤ g →
      parseStringBody g (replList pat preS ++ rest') = some (s', rest') := by
  intro n
  induction n with
  | zero =>
    intro preS f rest s hlen h rest'
    have hnil : preS = [] := List.length_eq_zero.mp (Nat.le_zero.mp hlen)
    subst hnil
    obtain ⟨_, hstrict⟩ := parseStringBody_split f _ _ _ h
    simp at hstrict
  | succ n ih =>
    intro preS f rest s hlen h rest'
    by_cases hm : startsWithL pat preS = true
    · obtain ⟨tail2, htail⟩ := (startsWithL_iff pat preS).mp hm
      obtain ⟨p0, ps, hpat⟩ : ∃ p0 ps, pat = p0 :: ps := by
        cases pat with
        | nil => exact absurd hph (by simp)
        | cons p0 ps => exact ⟨p0, ps, rfl⟩
      have hstrip : replList pat preS = replList pat tail2 := by
        rw [← htail, hpat, List.cons_append]
        rw [replList_cons_pos _ _ _
          (by rw [← List.cons_append, ← hpat, htail]; exact hm)]
        congr 1
        simp only [List.length_cons, Nat.add_sub_cancel]
        exact List.drop_left ps tail2
      have hq : parseStringBody f (pat ++ (tail2 ++ rest)) = some (s, rest) := by
        rw [← List.append_assoc, htail]
        exact h
      obtain ⟨s₂, h₂⟩ := parseStringBody_drop_plain pat f (tail2 ++ rest) s rest
        (goodpat_plain pat hpc) hq
      have hlen2 : tail2.length ≤ n := by
        have := congrArg List.length htail
        simp only [List.length_append] at this
        have hp1 : 1 ≤ pat.length := by rw [hpat]; simp
        omega
      obtain ⟨s', hs'⟩ := ih tail2 (f - pat.length) rest s₂ hlen2 h₂ rest'
      refine ⟨s', ?_⟩
      intro g hg
      rw [hstrip]
      exact hs' g (by omega)
    · obtain ⟨c, preS₂, rfl⟩ : ∃ c preS₂, preS = c :: preS₂ := by
        cases preS with
        | nil =>
          obtain ⟨_, hstrict⟩ := parseStringBody_split f _ _ _ h
          simp at hstrict
        | cons c preS₂ => exact ⟨c, preS₂, rfl⟩
      rw [List.cons_append] at h
      match f with
      | 0 => exact absurd h (by simp [parseStringBody])
      | f₀ + 1 =>
        by_cases hcq : c = '"'
        · subst hcq
          simp only [parseStringBody] at h
          injection h with h1
          injection h1 with h1 h2
          subst h1
          have h3 : preS₂ = [] := by
            have : preS₂ ++ rest = [] ++ rest := by rw [h2]; rfl
            exact List.append_cancel_right this
          subst h3
          rw [replList_cons_of_ne pat backquote hph '"' [] (by decide), replList_nil]
          refine ⟨[], ?_⟩
          intro g hg
          obtain ⟨g₀, rfl⟩ : ∃ g₀, g = g₀ + 1 := ⟨g - 1, by omega⟩
          rfl
        · by_cases hcbs : c = '\\'
          · subst hcbs
            simp only [parseStringBody] at h
            split at h
            · rename_i u1 u2 u3 u4 r2 heq
              split at h
              · rename_i a b cc d ha hb hc hd
                split at h
                · rename_i hval
                  split at h
                  · rename_i s2 rest2 hrec
                    injection h with h1
                    injection h1 with h1 h2
                    subst h1
                    obtain ⟨hsuf, _⟩ := parseStringBody_split _ _ _ _ hrec
                    obtain ⟨preS₃, hp3⟩ := hsuf
                    rw [h2] at hp3 hrec
                    have hpre : preS₂ = 'u' :: u1 :: u2 :: u3 :: u4 :: preS₃ := by
                      have hx : preS₂ ++ rest =
                          ('u' :: u1 :: u2 :: u3 :: u4 :: preS₃) ++ rest := by
                        rw [heq, ← hp3]
                        rfl
                      exact List.append_cancel_right hx
                    subst hpre
                    rw [← hp3] at hrec
                    obtain ⟨s₃, hs₃⟩ := ih preS₃ f₀ rest s2
                      (by simp only [List.length_cons] at hlen ⊢; omega) hrec rest'
                    refine ⟨Char.ofNat (4096 * a + 256 * b + 16 * cc + d) :: s₃, ?_⟩
                    intro g hg
                    obtain ⟨g₀, rfl⟩ : ∃ g₀, g = g₀ + 1 := ⟨g - 1, by omega⟩
                    rw [replList_cons_of_ne pat backquote hph '\\' _ (by decide),
                      replList_cons_of_ne pat backquote hph 'u' _ (by decide),
                      replList_cons_of_ne pat backquote hph u1 _
                        (hexVal?_ne_backquote u1 a ha),
                      replList_cons_of_ne pat backquote hph u2 _
                        (hexVal?_ne_backquote u2 b hb),
                      replList_cons_of_ne pat backquote hph u3 _
                        (hexVal?_ne_backquote u3 cc hc),
                      replList_cons_of_ne pat backquote hph u4 _
                        (hexVal?_ne_backquote u4 d hd)]
                    rw [List.cons_append, List.cons_append, List.cons_append,
                      List.cons_append, List.cons_append, List.cons_append]
                    rw [parseStringBody_unicode_step g₀ u1 u2 u3 u4 _ a b cc d
                      ha hb hc hd hval]
                    rw [hs₃ g₀ (by omega)]
                  · exact absurd h (by simp)
                · exact absurd h (by simp)
              · exact absurd h (by simp)
            · rename_i e r2 hne2 heq
              split at h
              · rename_i c2 hesc
                split at h
                · rename_i s2 rest2 hrec
                  injection h with h1
                  injection h1 with h1 h2
                  subst h1
                  obtain ⟨hsuf, _⟩ := parseStringBody_split _ _ _ _ hrec
                  obtain ⟨preS₃, hp3⟩ := hsuf
                  rw [h2] at hp3 hrec
                  have hpre : preS₂ = e :: preS₃ := by
                    have hx : preS₂ ++ rest = (e :: preS₃) ++ rest := by
                      rw [heq, ← hp3]
                      rfl
                    exact List.append_cancel_right hx
                  subst hpre
                  rw [← hp3] at hrec
                  have heu : e ≠ 'u' := by
                    intro he
                    subst he
                    exact absurd hesc (by simp [escapeChar?])
                  obtain ⟨s₃, hs₃⟩ := ih preS₃ f₀ rest s2
                    (by simp only [List.length_cons] at hlen ⊢; omega) hrec rest'
                  refine ⟨c2 :: s₃, ?_⟩
                  intro g hg
                  obtain ⟨g₀, rfl⟩ : ∃ g₀, g = g₀ + 1 := ⟨g - 1, by omega⟩
                  rw [replList_cons_of_ne pat backquote hph '\\' _ (by decide),
                    replList_cons_of_ne pat backquote hph e _
                      (escapeChar?_ne_backquote e c2 hesc)]
                  rw [List.cons_append, List.cons_append]
                  rw [parseStringBody_escape_step g₀ e c2 _ hesc heu]
                  rw [hs₃ g₀ (by omega)]
                · exact absurd h (by simp)
              · exact absurd h (by simp)
            · exact absurd h (by simp)
          · simp only [parseStringBody] at h
            split at h
            · rename_i h32
              split at h
              · rename_i s2 rest2 hrec
                injection h with h1
                injection h1 with h1 h2
                subst h1
                rw [h2] at hrec
                obtain ⟨s₃, hs₃⟩ := ih preS₂ f₀ rest s2
                  (by simp only [List.length_cons] at hlen; omega) hrec rest'
                refine ⟨c :: s₃, ?_⟩
                intro g hg
                obtain ⟨g₀, rfl⟩ : ∃ g₀, g = g₀ + 1 := ⟨g - 1, by omega⟩
                rw [replList_cons_neg pat c preS₂ (Bool.eq_false_iff.mpr hm),
                  List.cons_append,
                  parseStringBody_char_step g₀ c _ h32 hcq hcbs, hs₃ g₀ (by omega)]
              · exact absurd h (by simp)
            · exact absurd h (by simp)

theorem stringBody_strip (pat : List Char) (hph : pat.head? = some backquote)
    (hpc : ∀ c ∈ pat, c ∈ [backquote, 'j', 's', 'o', 'n'])
    (preS : List Char) (f : Nat) (rest s : List Char)
    (h : parseStringBody f (preS ++ rest) = some (s, rest)) (rest' : List Char) :
    ∃ s', parseStringBody f (replList pat preS ++ rest') = some (s', rest') := by
  obtain ⟨s', hs'⟩ := stringBody_strip_aux pat hph hpc preS.length preS f rest s
    le_rfl h rest'
  exact ⟨s', hs' f le_rfl⟩

/-! ## Decomposition helpers for the strip-preservation walk -/

theorem ws_ne_backquote {c : Char} (h : isWsChar c = true) : c ≠ backquote := by
  intro hc
  subst hc
  exact absurd h (by decide)

theorem ws_not_digit {c : Char} (h : isWsChar c = true) : c.isDigit = false := by
  have h2 : ((c = ' ' ∨ c = '\t') ∨ c = '\n') ∨ c = '\r' := by
    simpa [isWsChar] using h
  rcases h2 with ((rfl | rfl) | rfl) | rfl <;> decide

theorem not_mem_pat (pat : List Char)
    (hpc : ∀ c ∈ pat, c ∈ [backquote, 'j', 's', 'o', 'n']) (b : Char)
    (hb : b ∉ [backquote, 'j', 's', 'o', 'n']) : b ∉ pat :=
  fun h => hb (hpc b h)

theorem ws_not_mem_pat (pat : List Char)
    (hpc : ∀ c ∈ pat, c ∈ [backquote, 'j', 's', 'o', 'n']) (c : Char)
    (hws : isWsChar c = true) : c ∉ pat := by
  intro hc
  have hm := hpc c hc
  simp only [List.mem_cons, List.not_mem_nil, or_false] at hm
  rcases hm with rfl | rfl | rfl | rfl | rfl <;> exact absurd hws (by decide)

theorem strip_ws_append (pat : List Char) (hph : pat.head? = some backquote)
    (ws X : List Char) (hws : ∀ c ∈ ws, isWsChar c = true) :
    replList pat (ws ++ X) = ws ++ replList pat X := by
  rw [replList_append_of_no_head pat backquote hph ws X
    (fun c hc => ws_ne_backquote (hws c hc)),
    replList_id pat backquote hph ws (fun c hc => ws_ne_backquote (hws c hc))]

theorem strip_boundary (pat : List Char) (hph : pat.head? = some backquote)
    (hpc : ∀ c ∈ pat, c ∈ [backquote, 'j', 's', 'o', 'n'])
    (A W : List Char) (sep : Char) (Z : List Char)
    (hw : ∀ c ∈ W, isWsChar c = true)
    (hsep : sep ∉ [backquote, 'j', 's', 'o', 'n']) :
    replList pat (A ++ (W ++ sep :: Z)) =
      replList pat A ++ (W ++ sep :: replList pat Z) := by
  have hsep_ne : sep ≠ backquote := fun h => hsep (by rw [h]; simp)
  rw [replList_append_of_b_head pat A (W ++ sep :: Z) ?hhead]
  · rw [strip_ws_append pat hph W (sep :: Z) hw,
      replList_cons_of_ne pat backquote hph sep _ hsep_ne]
  case hhead =>
    intro x hx
    cases W with
    | nil =>
      injection hx with hx
      subst hx
      exact not_mem_pat pat hpc sep hsep
    | cons w W' =>
      injection hx with hx
      subst hx
      exact ws_not_mem_pat pat hpc w (hw w (by simp))

theorem skipWs_ws_sep (W : List Char) (sep : Char) (Z : List Char)
    (hw : ∀ c ∈ W, isWsChar c = true) (hsep : isWsChar sep = false) :
    skipWs (W ++ sep :: Z) = sep :: Z := by
  rw [skipWs_ws_append W (sep :: Z) hw, skipWs_cons Z hsep]

theorem sep_numSafe (W : List Char) (sep : Char) (Z : List Char)
    (hw : ∀ c ∈ W, isWsChar c = true) (hsep : sep.isDigit = false) :
    ∀ c, (W ++ sep :: Z).head? = some c → c.isDigit = false := by
  intro c hc
  cases W with
  | nil =>
    injection hc with hc
    subst hc
    exact hsep
  | cons w W' =>
    injection hc with hc
    subst hc
    exact ws_not_digit (hw w (by simp))

theorem skipWs_decomp (cs X : List Char) (h : skipWs cs = X) :
    ∃ W, (∀ c ∈ W, isWsChar c = true) ∧ W ++ X = cs :=
  ⟨cs.takeWhile isWsChar, takeWhile_ws_all cs, by rw [← h]; exact skipWs_split cs⟩

theorem parseValue_head_facts (f : Nat) (cs : List Char) (v : Json) (rest : List Char)
    (h : parseValue f cs = some (v, rest)) :
    ∀ c, (skipWs cs).head? = some c →
      c ≠ backquote ∧ isWsChar c = false ∧ c ≠ ']' ∧ c ≠ '}' := by
  match f with
  | 0 => exact absurd h (by simp [parseValue])
  | f + 1 =>
    intro c hc
    simp only [parseValue] at h
    split at h
    · exact absurd h (by simp)
    · rename_i r heq
      rw [heq] at hc
      injection hc with hc
      subst hc
      exact ⟨by decide, by decide, by decide, by decide⟩
    · rename_i r heq
      rw [heq] at hc
      injection hc with hc
      subst hc
      exact ⟨by decide, by decide, by decide, by decide⟩
    · rename_i r heq
      rw [heq] at hc
      injection hc with hc
      subst hc
      exact ⟨by decide, by decide, by decide, by decide⟩
    · rename_i r heq
      rw [heq] at hc
      injection hc with hc
      subst hc
      exact ⟨by decide, by decide, by decide, by decide⟩
    · rename_i r heq
      rw [heq] at hc
      injection hc with hc
      subst hc
      exact ⟨by decide, by decide, by decide, by decide⟩
    · rename_i r heq
      rw [heq] at hc
      injection hc with hc
      subst hc
      exact ⟨by decide, by decide, by decide, by decide⟩
    · rename_i r heq
      rw [heq] at hc
      injection hc with hc
      subst hc
      exact ⟨by decide, by decide, by decide, by decide⟩
    · rename_i c0 r d1 d2 d3 d4 d5 d6 d7 heq
      rw [heq] at hc
      injection hc with hc
      subst hc
      split at h
      · rename_i hd
        exact ⟨isDigit_ne hd _ (by decide), isDigit_not_ws hd,
          isDigit_ne hd _ (by decide), isDigit_ne hd _ (by decide)⟩
      · exact absurd h (by simp)

theorem parseMemberList_head (f : Nat) (cs : List Char) (kvs : List (String × Json))
    (rest : List Char) (h : parseMemberList f cs = some (kvs, rest)) :
    ∃ r1, cs = '"' :: r1 := by
  match f with
  | 0 => exact absurd h (by simp [parseMemberList])
  | f + 1 =>
    simp only [parseMemberList] at h
    split at h
    · rename_i r1
      exact ⟨r1, rfl⟩
    · exact absurd h (by simp)

theorem parseElemList_head_facts (f : Nat) (cs : List Char) (vs : List Json)
    (rest : List Char) (h : parseElemList f cs = some (vs, rest)) :
    ∀ c, (skipWs cs).head? = some c →
      c ≠ backquote ∧ isWsChar c = false ∧ c ≠ ']' ∧ c ≠ '}' := by
  match f with
  | 0 => exact absurd h (by simp [parseElemList])
  | f + 1 =>
    simp only [parseElemList] at h
    split at h
    · rename_i v0 r1 hrecV
      exact parseValue_head_facts f cs v0 r1 hrecV
    · exact absurd h (by simp)

theorem parseNatNum_zero (Z : List Char) : parseNatNum ('0' :: Z) = some (0, Z) := by
  simp [parseNatNum]

theorem parseNatNum_run (c0 : Char) (D' rest' : List Char)
    (hd : c0.isDigit = true) (h0 : c0 ≠ '0')
    (hall : ∀ c ∈ c0 :: D', c.isDigit = true)
    (hnum : ∀ c, rest'.head? = some c → c.isDigit = false) :
    parseNatNum ((c0 :: D') ++ rest') = some (digitsToNat (c0 :: D'), rest') := by
  obtain ⟨htw, hdw⟩ := takeWhile_all_append Char.isDigit (c0 :: D') rest' hall hnum
  rw [List.cons_append]
  simp only [parseNatNum]
  rw [if_neg h0, if_pos hd, ← List.cons_append, htw, hdw]


theorem parse_strip (pat : List Char) (hph : pat.head? = some backquote)
    (hpc : ∀ c ∈ pat, c ∈ [backquote, 'j', 's', 'o', 'n']) : ∀ fuel : Nat,
    (∀ pre rest v, parseValue fuel (pre ++ rest) = some (v, rest) →
      ∀ rest', (∀ c, rest'.head? = some c → c.isDigit = false) →
      ∃ v', parseValue fuel (replList pat pre ++ rest') = some (v', rest')) ∧
    (∀ pre rest kvs, parseMemberList fuel (pre ++ rest) = some (kvs, rest) →
      ∀ rest', ∃ kvs',
        parseMemberList fuel (replList pat pre ++ rest') = some (kvs', rest')) ∧
    (∀ pre rest vs, parseElemList fuel (pre ++ rest) = some (vs, rest) →
      ∀ rest', ∃ vs',
        parseElemList fuel (replList pat pre ++ rest') = some (vs', rest')) := by
  intro fuel
  induction fuel with
  | zero =>
    refine ⟨?_, ?_, ?_⟩ <;> intro pre rest x h <;>
      exact absurd h (by simp [parseValue, parseMemberList, parseElemList])
  | succ fuel ih =>
    obtain ⟨ihV, ihM, ihE⟩ := ih
    refine ⟨?_, ?_, ?_⟩
    · intro pre rest v h rest' hnum
      simp only [parseValue] at h
      split at h
      · exact absurd h (by simp)
      · rename_i r heq
        obtain ⟨W₁, hw1, hE1⟩ := skipWs_decomp _ _ heq
        split at h
        · rename_i rest0 heq2
          injection h with h1
          injection h1 with h1 h2
          subst h1
          rw [h2] at heq2
          obtain ⟨W₂, hw2, hE2⟩ := skipWs_decomp _ _ heq2
          have hpre : pre = W₁ ++ '{' :: (W₂ ++ ['}']) := by
            have hx : (W₁ ++ '{' :: (W₂ ++ ['}'])) ++ rest = pre ++ rest := by
              simp only [List.cons_append, List.append_assoc, List.nil_append]
              rw [hE2]
              exact hE1
            exact (List.append_cancel_right hx).symm
          subst hpre
          refine ⟨Json.obj [], ?_⟩
          rw [strip_ws_append pat hph W₁ _ hw1,
            replList_cons_of_ne pat backquote hph '{' _ (by decide),
            strip_ws_append pat hph W₂ _ hw2,
            replList_cons_of_ne pat backquote hph '}' _ (by decide),
            replList_nil]
          simp only [List.append_assoc, List.cons_append, List.nil_append]
          rw [parseValue_skipWs, skipWs_ws_sep W₁ '{' _ hw1 (by decide),
            parseValue_unfold_obj, skipWs_ws_sep W₂ '}' _ hw2 (by decide)]
          rfl
        · rename_i hne
          split at h
          · rename_i kvs0 rest0 hrec
            injection h with h1
            injection h1 with h1 h2
            subst h1
            rw [h2] at hrec
            obtain ⟨hsufM, hstrictM⟩ := (parse_split fuel).2.1 _ _ _ hrec
            obtain ⟨preM, hpM⟩ := hsufM
            have hrec' : parseMemberList fuel (preM ++ rest) = some (kvs0, rest) := by
              rw [hpM]
              exact hrec
            obtain ⟨r1, hr1⟩ := parseMemberList_head fuel _ _ _ hrec
            obtain ⟨preM', hpM'⟩ : ∃ preM', preM = '"' :: preM' := by
              cases preM with
              | nil =>
                exfalso
                rw [← hpM] at hstrictM
                simp at hstrictM
              | cons m0 preM2 =>
                rw [hr1, List.cons_append] at hpM
                injection hpM with hm0 _
                exact ⟨preM2, by rw [hm0]⟩
            obtain ⟨W₂, hw2, hE2⟩ := skipWs_decomp r (skipWs r) rfl
            have hpre : pre = W₁ ++ '{' :: (W₂ ++ preM) := by
              have hx : (W₁ ++ '{' :: (W₂ ++ preM)) ++ rest = pre ++ rest := by
                simp only [List.cons_append, List.append_assoc]
                rw [hpM, hE2]
                exact hE1
              exact (List.append_cancel_right hx).symm
            subst hpre
            obtain ⟨kvs', hM'⟩ := ihM preM rest kvs0 hrec' rest'
            refine ⟨Json.obj kvs', ?_⟩
            rw [strip_ws_append pat hph W₁ _ hw1,
              replList_cons_of_ne pat backquote hph '{' _ (by decide),
              strip_ws_append pat hph W₂ _ hw2]
            have hsM : replList pat preM = '"' :: replList pat preM' := by
              rw [hpM']
              exact replList_cons_of_ne pat backquote hph '"' _ (by decide)
            simp only [List.append_assoc, List.cons_append]
            rw [parseValue_skipWs, skipWs_ws_sep W₁ '{' _ hw1 (by decide),
              parseValue_unfold_obj]
            rw [show skipWs (W₂ ++ (replList pat preM ++ rest')) =
                replList pat preM ++ rest' from by
              rw [hsM, List.cons_append]
              exact skipWs_ws_sep W₂ '"' _ hw2 (by decide)]
            split
            · rename_i rest1 heq9
              rw [hsM, List.cons_append] at heq9
              injection heq9 with h9 _
              exact absurd h9 (by decide)
            · rw [hM']
          · exact absurd h (by simp)
      · rename_i r heq
        obtain ⟨W₁, hw1, hE1⟩ := skipWs_decomp _ _ heq
        split at h
        · rename_i rest0 heq2
          injection h with h1
          injection h1 with h1 h2
          subst h1
          rw [h2] at heq2
          obtain ⟨W₂, hw2, hE2⟩ := skipWs_decomp _ _ heq2
          have hpre : pre = W₁ ++ '[' :: (W₂ ++ [']']) := by
            have hx : (W₁ ++ '[' :: (W₂ ++ [']'])) ++ rest = pre ++ rest := by
              simp only [List.cons_append, List.append_assoc, List.nil_append]
              rw [hE2]
              exact hE1
            exact (List.append_cancel_right hx).symm
          subst hpre
          refine ⟨Json.arr [], ?_⟩
          rw [strip_ws_append pat hph W₁ _ hw1,
            replList_cons_of_ne pat backquote hph '[' _ (by decide),
            strip_ws_append pat hph W₂ _ hw2,
            replList_cons_of_ne pat backquote hph ']' _ (by decide),
            replList_nil]
          simp only [List.append_assoc, List.cons_append, List.nil_append]
          rw [parseValue_skipWs, skipWs_ws_sep W₁ '[' _ hw1 (by decide),
            parseValue_unfold_arr, skipWs_ws_sep W₂ ']' _ hw2 (by decide)]
          rfl
        · rename_i hne
          split at h
          · rename_i vs0 rest0 hrec
            injection h with h1
            injection h1 with h1 h2
            subst h1
            rw [h2] at hrec
            obtain ⟨hsufE, hstrictE⟩ := (parse_split fuel).2.2 _ _ _ hrec
            obtain ⟨preE, hpE⟩ := hsufE
            have hrec' : parseElemList fuel (preE ++ rest) = some (vs0, rest) := by
              rw [hpE]
              exact hrec
            obtain ⟨e0, preE', hpE'⟩ : ∃ e0 preE', preE = e0 :: preE' := by
              cases preE with
              | nil =>
                exfalso
                rw [← hpE] at hstrictE
                simp at hstrictE
              | cons a b => exact ⟨a, b, rfl⟩
            have hhead : (skipWs r).head? = some e0 := by
              rw [← hpE, hpE']
              rfl
            obtain ⟨he_bq, he_ws, he_rb, _⟩ :=
              parseElemList_head_facts fuel _ _ _ hrec e0
                (by rw [skipWs_skipWs]; exact hhead)
            obtain ⟨W₂, hw2, hE2⟩ := skipWs_decomp r (skipWs r) rfl
            have hpre : pre = W₁ ++ '[' :: (W₂ ++ preE) := by
              have hx : (W₁ ++ '[' :: (W₂ ++ preE)) ++ rest = pre ++ rest := by
                simp only [List.cons_append, List.append_assoc]
                rw [hpE, hE2]
                exact hE1
              exact (List.append_cancel_right hx).symm
            subst hpre
            obtain ⟨vs', hL'⟩ := ihE preE rest vs0 hrec' rest'
            refine ⟨Json.arr vs', ?_⟩
            rw [strip_ws_append pat hph W₁ _ hw1,
              replList_cons_of_ne pat backquote hph '[' _ (by decide),
              strip_ws_append pat hph W₂ _ hw2]
            have hsE : replList pat preE = e0 :: replList pat preE' := by
              rw [hpE']
              exact replList_cons_of_ne pat backquote hph e0 _ he_bq
            simp only [List.append_assoc, List.cons_append]
            rw [parseValue_skipWs, skipWs_ws_sep W₁ '[' _ hw1 (by decide),
              parseValue_unfold_arr]
            rw [show skipWs (W₂ ++ (replList pat preE ++ rest')) =
                replList pat preE ++ rest' from by
              rw [hsE, List.cons_append]
              exact skipWs_ws_sep W₂ e0 _ hw2 he_ws]
            split
            · rename_i rest1 heq9
              rw [hsE, List.cons_append] at heq9
              injection heq9 with h9 _
              exact absurd h9 he_rb
            · rw [hL']
          · exact absurd h (by simp)
      · rename_i r heq
        obtain ⟨W₁, hw1, hE1⟩ := skipWs_decomp _ _ heq
        split at h
        · rename_i s0 rest0 hrecS
          injection h with h1
          injection h1 with h1 h2
          subst h1
          rw [h2] at hrecS
          obtain ⟨hsufS, _⟩ := parseStringBody_split _ _ _ _ hrecS
          obtain ⟨preS, hpS⟩ := hsufS
          have hrecS' : parseStringBody fuel (preS ++ rest) = some (s0, rest) := by
            rw [hpS]
            exact hrecS
          have hpre : pre = W₁ ++ '"' :: preS := by
            have hx : (W₁ ++ '"' :: preS) ++ rest = pre ++ rest := by
              simp only [List.cons_append, List.append_assoc]
              rw [hpS]
              exact hE1
            exact (List.append_cancel_right hx).symm
          subst hpre
          obtain ⟨s', hS'⟩ := stringBody_strip pat hph hpc preS fuel rest s0 hrecS' rest'
          refine ⟨Json.str (String.mk s'), ?_⟩
          rw [strip_ws_append pat hph W₁ _ hw1,
            replList_cons_of_ne pat backquote hph '"' _ (by decide)]
          simp only [List.append_assoc, List.cons_append]
          rw [parseValue_skipWs, skipWs_ws_sep W₁ '"' _ hw1 (by decide),
            parseValue_step_str, hS']
        · exact absurd h (by simp)
      · rename_i r heq
        obtain ⟨W₁, hw1, hE1⟩ := skipWs_decomp _ _ heq
        split at h
        · rename_i htr
          injection h with h1
          injection h1 with h1 h2
          subst h1
          obtain ⟨t0, ht0⟩ := (startsWithL_iff _ _).mp htr
          have hrest : rest = t0 := by
            rw [← h2, ← ht0]
            rfl
          have hpre : pre = W₁ ++ ['t', 'r', 'u', 'e'] := by
            have hx : (W₁ ++ ['t', 'r', 'u', 'e']) ++ rest = pre ++ rest := by
              simp only [List.cons_append, List.append_assoc, List.nil_append]
              rw [hrest, show 'r' :: 'u' :: 'e' :: t0 = ['r', 'u', 'e'] ++ t0 from rfl,
                ht0]
              exact hrest ▸ hE1
            exact (List.append_cancel_right hx).symm
          subst hpre
          refine ⟨Json.bool true, ?_⟩
          rw [strip_ws_append pat hph W₁ _ hw1,
            replList_cons_of_ne pat backquote hph 't' _ (by decide),
            replList_cons_of_ne pat backquote hph 'r' _ (by decide),
            replList_cons_of_ne pat backquote hph 'u' _ (by decide),
            replList_cons_of_ne pat backquote hph 'e' _ (by decide),
            replList_nil]
          simp only [List.append_assoc, List.cons_append, List.nil_append]
          rw [parseValue_skipWs, skipWs_ws_sep W₁ 't' _ hw1 (by decide),
            parseValue_unfold_true,
            if_pos (show startsWithL ['r', 'u', 'e'] ('r' :: 'u' :: 'e' :: rest') = true
              from startsWithL_append_self ['r', 'u', 'e'] rest')]
          rfl
        · exact absurd h (by simp)
      · rename_i r heq
        obtain ⟨W₁, hw1, hE1⟩ := skipWs_decomp _ _ heq
        split at h
        · rename_i htr
          injection h with h1
          injection h1 with h1 h2
          subst h1
          obtain ⟨t0, ht0⟩ := (startsWithL_iff _ _).mp htr
          have hrest : rest = t0 := by
            rw [← h2, ← ht0]
            rfl
          have hpre : pre = W₁ ++ ['f', 'a', 'l', 's', 'e'] := by
            have hx : (W₁ ++ ['f', 'a', 'l', 's', 'e']) ++ rest = pre ++ rest := by
              simp only [List.cons_append, List.append_assoc, List.nil_append]
              rw [hrest,
                show 'a' :: 'l' :: 's' :: 'e' :: t0 = ['a', 'l', 's', 'e'] ++ t0 from rfl,
                ht0]
              exact hrest ▸ hE1
            exact (List.append_cancel_right hx).symm
          subst hpre
          refine ⟨Json.bool false, ?_⟩
          rw [strip_ws_append pat hph W₁ _ hw1,
            replList_cons_of_ne pat backquote hph 'f' _ (by decide),
            replList_cons_of_ne pat backquote hph 'a' _ (by decide),
            replList_cons_of_ne pat backquote hph 'l' _ (by decide),
            replList_cons_of_ne pat backquote hph 's' _ (by decide),
            replList_cons_of_ne pat backquote hph 'e' _ (by decide),
            replList_nil]
          simp only [List.append_assoc, List.cons_append, List.nil_append]
          rw [parseValue_skipWs, skipWs_ws_sep W₁ 'f' _ hw1 (by decide),
            parseValue_unfold_false,
            if_pos (show startsWithL ['a', 'l', 's', 'e']
                ('a' :: 'l' :: 's' :: 'e' :: rest') = true
              from startsWithL_append_self ['a', 'l', 's', 'e'] rest')]
          rfl
        · exact absurd h (by simp)
      · rename_i r heq
        obtain ⟨W₁, hw1, hE1⟩ := skipWs_decomp _ _ heq
        split at h
        · rename_i htr
          injection h with h1
          injection h1 with h1 h2
          subst h1
          obtain ⟨t0, ht0⟩ := (startsWithL_iff _ _).mp htr
          have hrest : rest = t0 := by
            rw [← h2, ← ht0]
            rfl
          have hpre : pre = W₁ ++ ['n', 'u', 'l', 'l'] := by
            have hx : (W₁ ++ ['n', 'u', 'l', 'l']) ++ rest = pre ++ rest := by
              simp only [List.cons_append, List.append_assoc, List.nil_append]
              rw [hrest, show 'u' :: 'l' :: 'l' :: t0 = ['u', 'l', 'l'] ++ t0 from rfl,
                ht0]
              exact hrest ▸ hE1
            exact (List.append_cancel_right hx).symm
          subst hpre
          refine ⟨Json.null, ?_⟩
          rw [strip_ws_append pat hph W₁ _ hw1,
            replList_cons_of_ne pat backquote hph 'n' _ (by decide),
            replList_cons_of_ne pat backquote hph 'u' _ (by decide),
            replList_cons_of_ne pat backquote hph 'l' _ (by decide),
            replList_cons_of_ne pat backquote hph 'l' _ (by decide),
            replList_nil]
          simp only [List.append_assoc, List.cons_append, List.nil_append]
          rw [parseValue_skipWs, skipWs_ws_sep W₁ 'n' _ hw1 (by decide),
            parseValue_unfold_null,
            if_pos (show startsWithL ['u', 'l', 'l'] ('u' :: 'l' :: 'l' :: rest') = true
              from startsWithL_append_self ['u', 'l', 'l'] rest')]
          rfl
        · exact absurd h (by simp)
      · rename_i r heq
        obtain ⟨W₁, hw1, hE1⟩ := skipWs_decomp _ _ heq
        split at h
        · rename_i n0 rest0 hrecN
          injection h with h1
          injection h1 with h1 h2
          subst h1
          rw [h2] at hrecN
          cases r with
          | nil => exact absurd hrecN (by simp [parseNatNum])
          | cons c0 r0 =>
            simp only [parseNatNum] at hrecN
            split at hrecN
            · rename_i h0
              subst h0
              injection hrecN with h3
              injection h3 with h3 h4
              subst h3
              rw [h4] at hE1
              have hpre : pre = W₁ ++ ['-', '0'] := by
                have hx : (W₁ ++ ['-', '0']) ++ rest = pre ++ rest := by
                  simp only [List.cons_append, List.append_assoc, List.nil_append]
                  exact hE1
                exact (List.append_cancel_right hx).symm
              subst hpre
              refine ⟨Json.num (-((0 : Nat) : Int)), ?_⟩
              rw [strip_ws_append pat hph W₁ _ hw1,
                replList_cons_of_ne pat backquote hph '-' _ (by decide),
                replList_cons_of_ne pat backquote hph '0' _ (by decide),
                replList_nil]
              simp only [List.append_assoc, List.cons_append, List.nil_append]
              rw [parseValue_skipWs, skipWs_ws_sep W₁ '-' _ hw1 (by decide),
                parseValue_step_neg, parseNatNum_zero]
            · rename_i h0
              split at hrecN
              · rename_i hd
                injection hrecN with h3
                injection h3 with h3 h4
                subst h3
                have hDeq : (c0 :: r0).takeWhile Char.isDigit ++ rest = c0 :: r0 := by
                  rw [← h4]
                  exact List.takeWhile_append_dropWhile _ _
                have hDcons : (c0 :: r0).takeWhile Char.isDigit =
                    c0 :: r0.takeWhile Char.isDigit := by
                  rw [List.takeWhile_cons, if_pos hd]
                have hDdig : ∀ c ∈ (c0 :: r0).takeWhile Char.isDigit,
                    c.isDigit = true :=
                  fun c hc => List.mem_takeWhile_imp hc
                have hpre : pre = W₁ ++ '-' :: ((c0 :: r0).takeWhile Char.isDigit) := by
                  have hx : (W₁ ++ '-' :: ((c0 :: r0).takeWhile Char.isDigit)) ++ rest =
                      pre ++ rest := by
                    simp only [List.cons_append, List.append_assoc]
                    rw [hDeq]
                    exact hE1
                  exact (List.append_cancel_right hx).symm
                subst hpre
                refine ⟨Json.num (-((digitsToNat (c0 :: r0.takeWhile Char.isDigit) : Nat) : Int)), ?_⟩
                rw [strip_ws_append pat hph W₁ _ hw1,
                  replList_cons_of_ne pat backquote hph '-' _ (by decide),
                  replList_id pat backquote hph _
                    (fun c hc => isDigit_ne (hDdig c hc) _ (by decide))]
                simp only [List.append_assoc, List.cons_append]
                rw [parseValue_skipWs, skipWs_ws_sep W₁ '-' _ hw1 (by decide),
                  parseValue_step_neg, hDcons, List.cons_append]
                rw [show c0 :: (r0.takeWhile Char.isDigit ++ rest') =
                    (c0 :: r0.takeWhile Char.isDigit) ++ rest' from rfl]
                rw [parseNatNum_run c0 _ rest' hd h0
                  (by rw [← hDcons]; exact hDdig) hnum]
              · exact absurd hrecN (by simp)
        · exact absurd h (by simp)
      · rename_i c0 r d1 d2 d3 d4 d5 d6 d7 heq
        obtain ⟨W₁, hw1, hE1⟩ := skipWs_decomp _ _ heq
        split at h
        · rename_i hd
          split at h
          · rename_i n0 rest0 hrecN
            injection h with h1
            injection h1 with h1 h2
            subst h1
            rw [h2] at hrecN
            simp only [parseNatNum] at hrecN
            split at hrecN
            · rename_i h0
              subst h0
              injection hrecN with h3
              injection h3 with h3 h4
              subst h3
              rw [h4] at hE1
              have hpre : pre = W₁ ++ ['0'] := by
                have hx : (W₁ ++ ['0']) ++ rest = pre ++ rest := by
                  simp only [List.cons_append, List.append_assoc, List.nil_append]
                  exact hE1
                exact (List.append_cancel_right hx).symm
              subst hpre
              refine ⟨Json.num ((0 : Nat) : Int), ?_⟩
              rw [strip_ws_append pat hph W₁ _ hw1,
                replList_cons_of_ne pat backquote hph '0' _ (by decide),
                replList_nil]
              simp only [List.append_assoc, List.cons_append, List.nil_append]
              rw [parseValue_skipWs, skipWs_ws_sep W₁ '0' _ hw1 (by decide),
                parseValue_step_digit fuel '0' rest' (by decide), parseNatNum_zero]
            · rename_i h0
              injection hrecN with h3
              injection h3 with h3 h4
              subst h3
              have hDeq : (c0 :: r).takeWhile Char.isDigit ++ rest = c0 :: r := by
                rw [← h4]
                exact List.takeWhile_append_dropWhile _ _
              have hDcons : (c0 :: r).takeWhile Char.isDigit =
                  c0 :: r.takeWhile Char.isDigit := by
                rw [List.takeWhile_cons, if_pos hd]
              have hDdig : ∀ c ∈ (c0 :: r).takeWhile Char.isDigit,
                  c.isDigit = true :=
                fun c hc => List.mem_takeWhile_imp hc
              have hpre : pre = W₁ ++ (c0 :: r).takeWhile Char.isDigit := by
                have hx : (W₁ ++ (c0 :: r).takeWhile Char.isDigit) ++ rest =
                    pre ++ rest := by
                  simp only [List.append_assoc]
                  rw [hDeq]
                  exact hE1
                exact (List.append_cancel_right hx).symm
              subst hpre
              refine ⟨Json.num ((digitsToNat (c0 :: r.takeWhile Char.isDigit) : Nat) : Int), ?_⟩
              rw [strip_ws_append pat hph W₁ _ hw1,
                replList_id pat backquote hph _
                  (fun c hc => isDigit_ne (hDdig c hc) _ (by decide))]
              simp only [List.append_assoc]
              rw [parseValue_skipWs]
              rw [show skipWs (W₁ ++ ((c0 :: r).takeWhile Char.isDigit ++ rest')) =
                  c0 :: (r.takeWhile Char.isDigit ++ rest') from by
                rw [hDcons, List.cons_append]
                exact skipWs_ws_sep W₁ c0 _ hw1 (isDigit_not_ws hd)]
              rw [parseValue_step_digit fuel c0 _ hd]
              rw [show c0 :: (r.takeWhile Char.isDigit ++ rest') =
                  (c0 :: r.takeWhile Char.isDigit) ++ rest' from rfl]
              rw [parseNatNum_run c0 _ rest' hd h0
                (by rw [← hDcons]; exact hDdig) hnum]
          · exact absurd h (by simp)
        · exact absurd h (by simp)
    · intro pre rest kvs h rest'
      have hstrict0 := ((parse_split (fuel + 1)).2.1 _ _ _ h).2
      simp only [parseMemberList] at h
      split at h
      · rename_i r heqc
        split at h
        · rename_i k r1 hrecK
          split at h
          · rename_i r2 heq2
            split at h
            · rename_i v0 r3 hrecV
              split at h
              · rename_i r4 heq4
                split at h
                · rename_i kvs0 r5 hrecM
                  injection h with h1
                  injection h1 with h1 h2
                  subst h1
                  rw [h2] at hrecM
                  obtain ⟨pre₂, hpre₂⟩ : ∃ pre₂, pre = '"' :: pre₂ := by
                    cases pre with
                    | nil =>
                      exfalso
                      simp at hstrict0
                    | cons p0 pre₂ =>
                      rw [List.cons_append] at heqc
                      injection heqc with hp0 _
                      exact ⟨pre₂, by rw [hp0]⟩
                  have hr : pre₂ ++ rest = r := by
                    have h9 := heqc
                    rw [hpre₂, List.cons_append] at h9
                    simp only [List.cons.injEq] at h9
                    exact h9.2
                  obtain ⟨hsufK, _⟩ := parseStringBody_split _ _ _ _ hrecK
                  obtain ⟨preK, hpK⟩ := hsufK
                  have hrecK' : parseStringBody fuel (preK ++ r1) = some (k, r1) := by
                    rw [hpK]
                    exact hrecK
                  obtain ⟨W₂, hw2, hE2⟩ := skipWs_decomp _ _ heq2
                  obtain ⟨hsufV, _⟩ := (parse_split fuel).1 _ _ _ hrecV
                  obtain ⟨preV, hpV⟩ := hsufV
                  have hrecV' : parseValue fuel (preV ++ r3) = some (v0, r3) := by
                    rw [hpV]
                    exact hrecV
                  obtain ⟨W₃, hw3, hE3⟩ := skipWs_decomp _ _ heq4
                  obtain ⟨W₄, hw4, hE4⟩ := skipWs_decomp r4 (skipWs r4) rfl
                  obtain ⟨hsufM2, hstrictM2⟩ := (parse_split fuel).2.1 _ _ _ hrecM
                  obtain ⟨preM2, hpM2⟩ := hsufM2
                  have hrecM' : parseMemberList fuel (preM2 ++ rest) =
                      some (kvs0, rest) := by
                    rw [hpM2]
                    exact hrecM
                  obtain ⟨rm, hrm⟩ := parseMemberList_head fuel _ _ _ hrecM
                  obtain ⟨preM2', hpM2'⟩ : ∃ x, preM2 = '"' :: x := by
                    cases preM2 with
                    | nil =>
                      exfalso
                      rw [← hpM2] at hstrictM2
                      simp at hstrictM2
                    | cons m0 preM2x =>
                      rw [hrm, List.cons_append] at hpM2
                      injection hpM2 with hm0 _
                      exact ⟨preM2x, by rw [hm0]⟩
                  have hpre : pre₂ = preK ++ (W₂ ++ ':' :: (preV ++ (W₃ ++ ',' ::
                      (W₄ ++ preM2)))) := by
                    have hx : (preK ++ (W₂ ++ ':' :: (preV ++ (W₃ ++ ',' ::
                        (W₄ ++ preM2))))) ++ rest = pre₂ ++ rest := by
                      simp only [List.cons_append, List.append_assoc]
                      rw [hpM2, hE4, hE3, hpV, hE2, hpK]
                      exact hr.symm
                    exact (List.append_cancel_right hx).symm
                  subst hpre₂
                  subst hpre
                  obtain ⟨k', hK'⟩ := stringBody_strip pat hph hpc preK fuel r1 k hrecK'
                    (W₂ ++ ':' :: (replList pat preV ++ (W₃ ++ ',' ::
                      (W₄ ++ (replList pat preM2 ++ rest')))))
                  obtain ⟨v', hV'⟩ := ihV preV r3 v0 hrecV'
                    (W₃ ++ ',' :: (W₄ ++ (replList pat preM2 ++ rest')))
                    (sep_numSafe W₃ ',' _ hw3 (by decide))
                  obtain ⟨kvs', hM2'⟩ := ihM preM2 rest kvs0 hrecM' rest'
                  refine ⟨(String.mk k', v') :: kvs', ?_⟩
                  rw [replList_cons_of_ne pat backquote hph '"' _ (by decide),
                    strip_boundary pat hph hpc preK W₂ ':' _ hw2 (by decide),
                    strip_boundary pat hph hpc preV W₃ ',' _ hw3 (by decide),
                    strip_ws_append pat hph W₄ _ hw4]
                  simp only [List.cons_append, List.append_assoc]
                  have hsM2 : replList pat preM2 = '"' :: replList pat preM2' := by
                    rw [hpM2']
                    exact replList_cons_of_ne pat backquote hph '"' _ (by decide)
                  have hsw2 : skipWs (W₂ ++ ':' :: (replList pat preV ++ (W₃ ++ ',' ::
                      (W₄ ++ (replList pat preM2 ++ rest'))))) =
                      ':' :: (replList pat preV ++ (W₃ ++ ',' ::
                      (W₄ ++ (replList pat preM2 ++ rest')))) :=
                    skipWs_ws_sep W₂ ':' _ hw2 (by decide)
                  have hsw3 : skipWs (W₃ ++ ',' ::
                      (W₄ ++ (replList pat preM2 ++ rest'))) =
                      ',' :: (W₄ ++ (replList pat preM2 ++ rest')) :=
                    skipWs_ws_sep W₃ ',' _ hw3 (by decide)
                  have hsw4 : skipWs (W₄ ++ (replList pat preM2 ++ rest')) =
                      replList pat preM2 ++ rest' := by
                    rw [hsM2, List.cons_append]
                    exact skipWs_ws_sep W₄ '"' _ hw4 (by decide)
                  simp only [parseMemberList, hK', hsw2, hV', hsw3, hsw4, hM2']
                · exact absurd h (by simp)
              · rename_i r4 heq4
                injection h with h1
                injection h1 with h1 h2
                subst h1
                rw [h2] at heq4
                obtain ⟨pre₂, hpre₂⟩ : ∃ pre₂, pre = '"' :: pre₂ := by
                  cases pre with
                  | nil =>
                    exfalso
                    simp at hstrict0
                  | cons p0 pre₂ =>
                    rw [List.cons_append] at heqc
                    injection heqc with hp0 _
                    exact ⟨pre₂, by rw [hp0]⟩
                have hr : pre₂ ++ rest = r := by
                  have h9 := heqc
                  rw [hpre₂, List.cons_append] at h9
                  simp only [List.cons.injEq] at h9
                  exact h9.2
                obtain ⟨hsufK, _⟩ := parseStringBody_split _ _ _ _ hrecK
                obtain ⟨preK, hpK⟩ := hsufK
                have hrecK' : parseStringBody fuel (preK ++ r1) = some (k, r1) := by
                  rw [hpK]
                  exact hrecK
                obtain ⟨W₂, hw2, hE2⟩ := skipWs_decomp _ _ heq2
                obtain ⟨hsufV, _⟩ := (parse_split fuel).1 _ _ _ hrecV
                obtain ⟨preV, hpV⟩ := hsufV
                have hrecV' : parseValue fuel (preV ++ r3) = some (v0, r3) := by
                  rw [hpV]
                  exact hrecV
                obtain ⟨W₃, hw3, hE3⟩ := skipWs_decomp _ _ heq4
                have hpre : pre₂ = preK ++ (W₂ ++ ':' :: (preV ++ (W₃ ++ ['}']))) := by
                  have hx : (preK ++ (W₂ ++ ':' :: (preV ++ (W₃ ++ ['}'])))) ++ rest =
                      pre₂ ++ rest := by
                    simp only [List.cons_append, List.append_assoc, List.nil_append]
                    rw [hE3, hpV, hE2, hpK]
                    exact hr.symm
                  exact (List.append_cancel_right hx).symm
                subst hpre₂
                subst hpre
                obtain ⟨k', hK'⟩ := stringBody_strip pat hph hpc preK fuel r1 k hrecK'
                  (W₂ ++ ':' :: (replList pat preV ++ (W₃ ++ '}' :: rest')))
                obtain ⟨v', hV'⟩ := ihV preV r3 v0 hrecV' (W₃ ++ '}' :: rest')
                  (sep_numSafe W₃ '}' _ hw3 (by decide))
                refine ⟨[(String.mk k', v')], ?_⟩
                rw [replList_cons_of_ne pat backquote hph '"' _ (by decide),
                  strip_boundary pat hph hpc preK W₂ ':' _ hw2 (by decide),
                  strip_boundary pat hph hpc preV W₃ '}' _ hw3 (by decide),
                  replList_nil]
                simp only [List.cons_append, List.append_assoc, List.nil_append]
                have hsw2 : skipWs (W₂ ++ ':' :: (replList pat preV ++
                    (W₃ ++ '}' :: rest'))) = ':' :: (replList pat preV ++
                    (W₃ ++ '}' :: rest')) :=
                  skipWs_ws_sep W₂ ':' _ hw2 (by decide)
                have hsw3 : skipWs (W₃ ++ '}' :: rest') = '}' :: rest' :=
                  skipWs_ws_sep W₃ '}' _ hw3 (by decide)
                simp only [parseMemberList, hK', hsw2, hV', hsw3]
              · exact absurd h (by simp)
            · exact absurd h (by simp)
          · exact absurd h (by simp)
        · exact absurd h (by simp)
      · exact absurd h (by simp)
    · intro pre rest vs h rest'
      simp only [parseElemList] at h
      split at h
      · rename_i v0 r1 hrecV
        split at h
        · rename_i r2 heq2
          split at h
          · rename_i vs0 r3 hrecE
            injection h with h1
            injection h1 with h1 h2
            subst h1
            rw [h2] at hrecE
            obtain ⟨hsufV, _⟩ := (parse_split fuel).1 _ _ _ hrecV
            obtain ⟨preV, hpV⟩ := hsufV
            have hrecV' : parseValue fuel (preV ++ r1) = some (v0, r1) := by
              rw [hpV]
              exact hrecV
            obtain ⟨W₂, hw2, hE2⟩ := skipWs_decomp _ _ heq2
            obtain ⟨hsufE2, _⟩ := (parse_split fuel).2.2 _ _ _ hrecE
            obtain ⟨preE2, hpE2⟩ := hsufE2
            have hrecE' : parseElemList fuel (preE2 ++ rest) = some (vs0, rest) := by
              rw [hpE2]
              exact hrecE
            have hpre : pre = preV ++ (W₂ ++ ',' :: preE2) := by
              have hx : (preV ++ (W₂ ++ ',' :: preE2)) ++ rest = pre ++ rest := by
                simp only [List.cons_append, List.append_assoc]
                rw [hpE2, hE2]
                exact hpV
              exact (List.append_cancel_right hx).symm
            subst hpre
            obtain ⟨v', hV'⟩ := ihV preV r1 v0 hrecV'
              (W₂ ++ ',' :: (replList pat preE2 ++ rest'))
              (sep_numSafe W₂ ',' _ hw2 (by decide))
            obtain ⟨vs', hL'⟩ := ihE preE2 rest vs0 hrecE' rest'
            refine ⟨v' :: vs', ?_⟩
            rw [strip_boundary pat hph hpc preV W₂ ',' _ hw2 (by decide)]
            simp only [List.cons_append, List.append_assoc]
            have hsw2 : skipWs (W₂ ++ ',' :: (replList pat preE2 ++ rest')) =
                ',' :: (replList pat preE2 ++ rest') :=
              skipWs_ws_sep W₂ ',' _ hw2 (by decide)
            simp only [parseElemList, hV', hsw2, hL']
          · exact absurd h (by simp)
        · rename_i r2 heq2
          injection h with h1
          injection h1 with h1 h2
          subst h1
          rw [h2] at heq2
          obtain ⟨hsufV, _⟩ := (parse_split fuel).1 _ _ _ hrecV
          obtain ⟨preV, hpV⟩ := hsufV
          have hrecV' : parseValue fuel (preV ++ r1) = some (v0, r1) := by
            rw [hpV]
            exact hrecV
          obtain ⟨W₂, hw2, hE2⟩ := skipWs_decomp _ _ heq2
          have hpre : pre = preV ++ (W₂ ++ [']']) := by
            have hx : (preV ++ (W₂ ++ [']'])) ++ rest = pre ++ rest := by
              simp only [List.cons_append, List.append_assoc, List.nil_append]
              rw [hE2]
              exact hpV
            exact (List.append_cancel_right hx).symm
          subst hpre
          obtain ⟨v', hV'⟩ := ihV preV r1 v0 hrecV' (W₂ ++ ']' :: rest')
            (sep_numSafe W₂ ']' _ hw2 (by decide))
          refine ⟨[v'], ?_⟩
          rw [strip_boundary pat hph hpc preV W₂ ']' _ hw2 (by decide), replList_nil]
          simp only [List.cons_append, List.append_assoc, List.nil_append]
          have hsw2 : skipWs (W₂ ++ ']' :: rest') = ']' :: rest' :=
            skipWs_ws_sep W₂ ']' _ hw2 (by decide)
          simp only [parseElemList, hV', hsw2]
        · exact absurd h (by simp)
      · exact absurd h (by simp)

/-! ## Stripping fences preserves `JSON.parse` success -/

theorem jsonParseChars_strip (pat : List Char) (hph : pat.head? = some backquote)
    (hpc : ∀ c ∈ pat, c ∈ [backquote, 'j', 's', 'o', 'n'])
    (J : List Char) (v : Json) (h : jsonParseChars J = some v) :
    ∃ v', jsonParseChars (replList pat J) = some v' := by
  simp only [jsonParseChars] at h
  split at h
  · rename_i v0 restJ hparse
    split at h
    · rename_i htr
      have hws : ∀ c ∈ restJ, isWsChar c = true := by
        exact fun c hc => List.dropWhile_eq_nil_iff.mp htr c hc
      obtain ⟨hsuf, _⟩ := (parse_split (J.length + 1)).1 _ _ _ hparse
      obtain ⟨preJ, hpJ⟩ := hsuf
      have hparse' : parseValue (J.length + 1) (preJ ++ restJ) = some (v0, restJ) := by
        rw [hpJ]
        exact hparse
      obtain ⟨v', hV'⟩ := (parse_strip pat hph hpc (J.length + 1)).1 preJ restJ v0
        hparse' restJ
        (fun c hc => ws_not_digit (hws c (List.mem_of_mem_head? hc)))
      have hsplitJ : replList pat J = replList pat preJ ++ restJ := by
        rw [← hpJ,
          replList_append_of_b_head pat preJ restJ
            (fun x hx => ws_not_mem_pat pat hpc x (hws x (List.mem_of_mem_head? hx))),
          replList_id pat backquote hph restJ
            (fun c hc => ws_ne_backquote (hws c hc))]
      refine ⟨v', ?_⟩
      have hlift := (parse_fuel_mono (J.length + 1)).1 _ _ _ hV'
        ((replList pat preJ ++ restJ).length + 1)
        (by simp only [List.length_append]; omega)
      simp only [jsonParseChars, hsplitJ, hlift, htr]
      simp
    · exact absurd h (by simp)
  · exact absurd h (by simp)

/-! ## Locating and slicing the object span -/

theorem dropWhile_append_stop (p : Char → Bool) (a b : List Char)
    (hb : ∀ c, b.head? = some c → p c = false) :
    (a ++ b).dropWhile p = a.dropWhile p ++ b := by
  induction a with
  | nil =>
    cases b with
    | nil => rfl
    | cons c b' =>
      simp only [List.nil_append, List.dropWhile_cons, hb c rfl]
      rfl
  | cons x a' ih =>
    rw [List.cons_append, List.dropWhile_cons, List.dropWhile_cons]
    split
    · exact ih
    · rfl

theorem trimChars_decomp (pre J post : List Char)
    (hh : ∀ c, J.head? = some c → isWsChar c = false)
    (hl : ∀ c, J.getLast? = some c → isWsChar c = false) (hJne : J ≠ []) :
    ∃ P Q, trimChars (pre ++ J ++ post) = P ++ J ++ Q ∧
      (∀ c ∈ P, c ∈ pre) ∧ (∀ c ∈ Q, c ∈ post) := by
  refine ⟨pre.dropWhile isWsChar, (post.reverse.dropWhile isWsChar).reverse, ?_, ?_, ?_⟩
  · show ((((pre ++ J ++ post).dropWhile
        isWsChar).reverse.dropWhile isWsChar).reverse) = _
    have h1 : (pre ++ J ++ post).dropWhile isWsChar =
        pre.dropWhile isWsChar ++ (J ++ post) := by
      rw [List.append_assoc]
      apply dropWhile_append_stop
      intro c hc
      apply hh
      cases J with
      | nil => exact absurd rfl hJne
      | cons a J' =>
        rw [List.cons_append] at hc
        injection hc with hc
        rw [hc]
        rfl
    rw [h1]
    have h2 : (pre.dropWhile isWsChar ++ (J ++ post)).reverse =
        post.reverse ++ (J.reverse ++ (pre.dropWhile isWsChar).reverse) := by
      rw [List.reverse_append, List.reverse_append]
      rw [List.append_assoc]
    rw [h2]
    have h3 : (post.reverse ++ (J.reverse ++ (pre.dropWhile isWsChar).reverse)).dropWhile
        isWsChar = post.reverse.dropWhile isWsChar ++
        (J.reverse ++ (pre.dropWhile isWsChar).reverse) := by
      apply dropWhile_append_stop
      intro c hc
      apply hl
      rw [← List.head?_reverse]
      cases hrev : J.reverse with
      | nil =>
        exact absurd (by rw [← List.reverse_reverse J, hrev]; rfl) hJne
      | cons a J' =>
        rw [hrev, List.cons_append] at hc
        injection hc with hc
        rw [hc]
        rfl
    rw [h3, List.reverse_append, List.reverse_append, List.reverse_reverse,
      List.reverse_reverse, List.append_assoc]
  · intro c hc
    exact List.IsSuffix.subset
      ⟨pre.takeWhile isWsChar, List.takeWhile_append_dropWhile _ _⟩ hc
  · intro c hc
    rw [List.mem_reverse] at hc
    have h5 : c ∈ post.reverse := List.IsSuffix.subset
      ⟨post.reverse.takeWhile isWsChar, List.takeWhile_append_dropWhile _ _⟩ hc
    rwa [List.mem_reverse] at h5

theorem firstIdx_of_split (c : Char) (P J : List Char) (hP : c ∉ P)
    (hJ : J.head? = some c) : firstIdx c (P ++ J) = some P.length := by
  induction P with
  | nil =>
    cases J with
    | nil => exact absurd hJ (by simp)
    | cons a J' =>
      injection hJ with hJ
      subst hJ
      simp [firstIdx]
  | cons p P' ih =>
    have hpc : ¬(p = c) := fun hp => hP (by rw [hp]; exact List.mem_cons_self _ _)
    rw [List.cons_append]
    show (if p = c then some 0 else (firstIdx c (P' ++ J)).map (· + 1)) = _
    rw [if_neg hpc, ih (fun hx => hP (List.mem_cons_of_mem _ hx)), Option.map_some']
    simp

theorem lastIdx_of_split (X Q : List Char) (hQ : '}' ∉ Q)
    (hX : X.getLast? = some '}') : lastIdx '}' (X ++ Q) = some (X.length - 1) := by
  obtain ⟨X', hX'⟩ : ∃ X', X = X' ++ ['}'] :=
    ⟨X.dropLast, (List.dropLast_append_getLast? '}' hX).symm⟩
  have hrev : (X ++ Q).reverse = Q.reverse ++ ('}' :: X'.reverse) := by
    rw [hX', List.reverse_append, List.reverse_append]
    rfl
  have hfi : firstIdx '}' ((X ++ Q).reverse) = some Q.reverse.length := by
    rw [hrev]
    exact firstIdx_of_split '}' Q.reverse ('}' :: X'.reverse)
      (fun hx => hQ (List.mem_reverse.mp hx)) rfl
  show (firstIdx '}' ((X ++ Q).reverse)).map _ = _
  rw [hfi, Option.map_some']
  have hlen : 1 ≤ X.length := by
    rw [hX']
    simp
  simp only [List.length_reverse, List.length_append]
  congr 1
  omega

theorem jsSubstring_slice (P J Q : List Char) (hJ : 1 ≤ J.length) :
    jsSubstring (P ++ J ++ Q) P.length (P.length + J.length - 1 + 1) = J := by
  show ((P ++ J ++ Q).drop _).take _ = J
  have h1 : P.length + J.length - 1 + 1 = P.length + J.length := by omega
  rw [h1, min_eq_left (by omega), List.append_assoc, List.drop_left]
  have h2 : max P.length (P.length + J.length) - P.length = J.length := by
    rw [max_eq_right (by omega)]
    omega
  rw [h2, List.take_left]

theorem head_some_decomp {l : List Char} {c : Char} (h : l.head? = some c) :
    ∃ t, l = c :: t := by
  cases l with
  | nil => exact absurd h (by simp)
  | cons a t =>
    injection h with h
    exact ⟨t, by rw [h]⟩

theorem safeJsonParseChars_extract (pre j post : List Char) (v : Json)
    (hpre : '{' ∉ pre) (hpost : '}' ∉ post)
    (hjh : j.head? = some '{') (hjl : j.getLast? = some '}')
    (hjp : jsonParseChars j = some v) :
    (safeJsonParseChars (pre ++ j ++ post)).isSome = true := by
  have hjne : j ≠ [] := fun h => by rw [h] at hjh; exact absurd hjh (by simp)
  have hJlen : 1 ≤ j.length := by
    cases j with
    | nil => exact absurd rfl hjne
    | cons a t => simp
  have hhead_ws : ∀ c, j.head? = some c → isWsChar c = false := by
    intro c hc
    rw [hjh] at hc
    injection hc with hc
    rw [← hc]
    decide
  have hlast_ws : ∀ c, j.getLast? = some c → isWsChar c = false := by
    intro c hc
    rw [hjl] at hc
    injection hc with hc
    rw [← hc]
    decide
  obtain ⟨P, Q, htrim, hPsub, hQsub⟩ := trimChars_decomp pre j post hhead_ws hlast_ws hjne
  simp only [safeJsonParseChars]
  rw [htrim]
  by_cases hf : hasSub fenceMark (P ++ j ++ Q) = true
  · rw [if_pos hf]
    have hph1 : fenceJsonMark.head? = some backquote := rfl
    have hpc1 : ∀ c ∈ fenceJsonMark, c ∈ [backquote, 'j', 's', 'o', 'n'] := by decide
    have hph2 : fenceMark.head? = some backquote := rfl
    have hpc2 : ∀ c ∈ fenceMark, c ∈ [backquote, 'j', 's', 'o', 'n'] := by decide
    obtain ⟨j0, hj0⟩ : ∃ j0, j = j0 ++ ['}'] :=
      ⟨j.dropLast, (List.dropLast_append_getLast? '}' hjl).symm⟩
    obtain ⟨jt, hjt⟩ := head_some_decomp hjh
    have hb1 : ∀ x, (j ++ Q).head? = some x → x ∉ fenceJsonMark := by
      intro x hx
      rw [hjt, List.cons_append] at hx
      injection hx with hx
      rw [← hx]
      decide
    have ha1 : ∀ y, j.getLast? = some y → y ∉ fenceJsonMark := by
      intro y hy
      rw [hjl] at hy
      injection hy with hy
      rw [← hy]
      decide
    have hd1 : replList fenceJsonMark (P ++ j ++ Q) =
        replList fenceJsonMark P ++
          (replList fenceJsonMark j ++ replList fenceJsonMark Q) := by
      rw [List.append_assoc,
        replList_append_of_b_head fenceJsonMark P (j ++ Q) hb1,
        replList_append_of_a_last fenceJsonMark j Q ha1]
    have hjh1 : (replList fenceJsonMark j).head? = some '{' := by
      rw [hjt, replList_cons_of_ne fenceJsonMark backquote hph1 '{' _ (by decide)]
      rfl
    have hjl1 : (replList fenceJsonMark j).getLast? = some '}' := by
      rw [hj0,
        replList_append_of_b_head fenceJsonMark j0 ['}']
          (by intro x hx; injection hx with hx; rw [← hx]; decide),
        replList_cons_of_ne fenceJsonMark backquote hph1 '}' _ (by decide),
        replList_nil, List.getLast?_append_of_ne_nil _ (by simp)]
      rfl
    obtain ⟨v1, hv1⟩ := jsonParseChars_strip fenceJsonMark hph1 hpc1 j v hjp
    obtain ⟨v2, hv2⟩ := jsonParseChars_strip fenceMark hph2 hpc2 _ v1 hv1
    have hb2 : ∀ x, (replList fenceJsonMark j ++ replList fenceJsonMark Q).head? =
        some x → x ∉ fenceMark := by
      intro x hx
      obtain ⟨t1, ht1⟩ := head_some_decomp hjh1
      rw [ht1, List.cons_append] at hx
      injection hx with hx
      rw [← hx]
      decide
    have ha2 : ∀ y, (replList fenceJsonMark j).getLast? = some y →
        y ∉ fenceMark := by
      intro y hy
      rw [hjl1] at hy
      injection hy with hy
      rw [← hy]
      decide
    have hd2 : replList fenceMark (replList fenceJsonMark P ++
        (replList fenceJsonMark j ++ replList fenceJsonMark Q)) =
        replList fenceMark (replList fenceJsonMark P) ++
          (replList fenceMark (replList fenceJsonMark j) ++
           replList fenceMark (replList fenceJsonMark Q)) := by
      rw [replList_append_of_b_head fenceMark _ _ hb2,
        replList_append_of_a_last fenceMark _ _ ha2]
    have hjh2 : (replList fenceMark (replList fenceJsonMark j)).head? = some '{' := by
      obtain ⟨t1, ht1⟩ := head_some_decomp hjh1
      rw [ht1, replList_cons_of_ne fenceMark backquote hph2 '{' _ (by decide)]
      rfl
    have hjl2 : (replList fenceMark (replList fenceJsonMark j)).getLast? =
        some '}' := by
      obtain ⟨t0, ht0⟩ : ∃ t0, replList fenceJsonMark j = t0 ++ ['}'] :=
        ⟨_, (List.dropLast_append_getLast? '}' hjl1).symm⟩
      rw [ht0,
        replList_append_of_b_head fenceMark t0 ['}']
          (by intro x hx; injection hx with hx; rw [← hx]; decide),
        replList_cons_of_ne fenceMark backquote hph2 '}' _ (by decide),
        replList_nil, List.getLast?_append_of_ne_nil _ (by simp)]
      rfl
    have hP2 : '{' ∉ replList fenceMark (replList fenceJsonMark P) := fun hx =>
      hpre (hPsub _ (replList_mem _ _ _ (replList_mem _ _ _ hx)))
    have hQ2 : '}' ∉ replList fenceMark (replList fenceJsonMark Q) := fun hx =>
      hpost (hQsub _ (replList_mem _ _ _ (replList_mem _ _ _ hx)))
    have hshape : stripFences (P ++ j ++ Q) =
        (replList fenceMark (replList fenceJsonMark P) ++
         replList fenceMark (replList fenceJsonMark j)) ++
         replList fenceMark (replList fenceJsonMark Q) := by
      show replList fenceMark (replList fenceJsonMark (P ++ j ++ Q)) = _
      rw [hd1, hd2, List.append_assoc]
    rw [hshape]
    have hlen2 : 1 ≤ (replList fenceMark (replList fenceJsonMark j)).length := by
      obtain ⟨t1, ht1⟩ := head_some_decomp hjh2
      rw [ht1]
      simp
    have hJ2ne : replList fenceMark (replList fenceJsonMark j) ≠ [] := by
      intro hx
      rw [hx] at hlen2
      simp at hlen2
    have hfi : firstIdx '{' ((replList fenceMark (replList fenceJsonMark P) ++
        replList fenceMark (replList fenceJsonMark j)) ++
        replList fenceMark (replList fenceJsonMark Q)) =
        some (replList fenceMark (replList fenceJsonMark P)).length := by
      rw [List.append_assoc]
      apply firstIdx_of_split '{' _ _ hP2
      obtain ⟨t1, ht1⟩ := head_some_decomp hjh2
      rw [ht1, List.cons_append]
      rfl
    have hli : lastIdx '}' ((replList fenceMark (replList fenceJsonMark P) ++
        replList fenceMark (replList fenceJsonMark j)) ++
        replList fenceMark (replList fenceJsonMark Q)) =
        some ((replList fenceMark (replList fenceJsonMark P)).length +
          (replList fenceMark (replList fenceJsonMark j)).length - 1) := by
      rw [lastIdx_of_split _ _ hQ2
        (by rw [List.getLast?_append_of_ne_nil _ hJ2ne]; exact hjl2)]
      rw [List.length_append]
    simp only [hfi, hli]
    rw [jsSubstring_slice _ _ _ hlen2, hv2]
    rfl
  · rw [if_neg hf]
    have hP1 : '{' ∉ P := fun hx => hpre (hPsub _ hx)
    have hQ1 : '}' ∉ Q := fun hx => hpost (hQsub _ hx)
    have hjne2 : j ≠ [] := hjne
    have hfi : firstIdx '{' ((P ++ j) ++ Q) = some P.length := by
      rw [List.append_assoc]
      apply firstIdx_of_split '{' _ _ hP1
      obtain ⟨jt, hjt⟩ := head_some_decomp hjh
      rw [hjt, List.cons_append]
      rfl
    have hli : lastIdx '}' ((P ++ j) ++ Q) = some (P.length + j.length - 1) := by
      rw [lastIdx_of_split _ _ hQ1
        (by rw [List.getLast?_append_of_ne_nil _ hjne2]; exact hjl)]
      rw [List.length_append]
    simp only [hfi, hli]
    rw [jsSubstring_slice _ _ _ hJlen, hjp]
    rfl

/-- **C1.** For every raw input consisting of a single well-formed JSON object
(`jsonParse j` yields an object), possibly wrapped in markdown code fences
and/or surrounded by prose — formally, an arbitrary prefix containing no `{`
(so the object's opening brace is the first `{`) and an arbitrary suffix
containing no `}` (so the object's closing brace is the last `}`), fences and
backticks being permitted both in the surrounding text and inside the
object's own string literals — the Response Validator (`safeJsonParse`)
returns a successfully parsed result rather than a failure. -/
theorem validator_extracts_wellformed_object (pre j post : String)
    (kvs : List (String × Json))
    (hpre : '{' ∉ pre.data) (hpost : '}' ∉ post.data)
    (hjh : j.data.head? = some '{') (hjl : j.data.getLast? = some '}')
    (hjp : jsonParse j = some (Json.obj kvs)) :
    (safeJsonParse (pre ++ j ++ post)).isSome = true := by
  show (safeJsonParseChars (pre ++ j ++ post).data).isSome = true
  rw [show (pre ++ j ++ post).data = pre.data ++ j.data ++ post.data from by
    rw [String.data_append, String.data_append]]
  exact safeJsonParseChars_extract pre.data j.data post.data (Json.obj kvs)
    hpre hpost hjh hjl hjp

/-- Spot check of C1: a fenced, prose-surrounded object is extracted and
parsed. -/
theorem validator_extracts_wellformed_object_witness :
    ('{' ∉ "Sure! Here is the JSON: \x60\x60\x60json\n".data) ∧
    ('}' ∉ "\n\x60\x60\x60 Good luck, detective.".data) ∧
    ("\x7b\"narrative\":\"ok\"\x7d".data.head? = some '{') ∧
    ("\x7b\"narrative\":\"ok\"\x7d".data.getLast? = some '}') ∧
    (jsonParse "\x7b\"narrative\":\"ok\"\x7d" =
      some (Json.obj [("narrative", Json.str "ok")])) ∧
    (safeJsonParse ("Sure! Here is the JSON: \x60\x60\x60json\n" ++
      "\x7b\"narrative\":\"ok\"\x7d" ++
      "\n\x60\x60\x60 Good luck, detective.")).isSome = true :=
  ⟨by decide, by decide, rfl, rfl, rfl,
    validator_extracts_wellformed_object
      "Sure! Here is the JSON: \x60\x60\x60json\n"
      "\x7b\"narrative\":\"ok\"\x7d"
      "\n\x60\x60\x60 Good luck, detective."
      [("narrative", Json.str "ok")]
      (by decide) (by decide) rfl rfl rfl⟩

/-- **C2 (amended).** The Response Validator performs no required-field
validation: a brace-delimited object whose parse succeeds is returned as a
success even when any of the required fields narrative, stats, inventory, or
characters is absent.  (Stated for fence-free input so that the located span
is the object itself.) -/
theorem validator_returns_incomplete_object (j : String) (kvs : List (String × Json))
    (hjh : j.data.head? = some '{') (hjl : j.data.getLast? = some '}')
    (hnf : hasSub fenceMark (trimChars j.data) = false)
    (hjp : jsonParse j = some (Json.obj kvs))
    (hmissing : jHasField (Json.obj kvs) "narrative" = false ∨
      jHasField (Json.obj kvs) "stats" = false ∨
      jHasField (Json.obj kvs) "inventory" = false ∨
      jHasField (Json.obj kvs) "characters" = false) :
    safeJsonParse j = some (Json.obj kvs) := by
  have hjne : j.data ≠ [] := fun h => by rw [h] at hjh; exact absurd hjh (by simp)
  have hhead_ws : ∀ c, j.data.head? = some c → isWsChar c = false := by
    intro c hc
    rw [hjh] at hc
    injection hc with hc
    rw [← hc]
    decide
  have hlast_ws : ∀ c, j.data.getLast? = some c → isWsChar c = false := by
    intro c hc
    rw [hjl] at hc
    injection hc with hc
    rw [← hc]
    decide
  obtain ⟨P, Q, htrim, hPsub, hQsub⟩ :=
    trimChars_decomp [] j.data [] hhead_ws hlast_ws hjne
  have hP : P = [] := by
    cases P with
    | nil => rfl
    | cons a t => exact absurd (hPsub a (by simp)) (by simp)
  have hQ : Q = [] := by
    cases Q with
    | nil => rfl
    | cons a t => exact absurd (hQsub a (by simp)) (by simp)
  rw [hP, hQ] at htrim
  simp only [List.nil_append, List.append_nil] at htrim
  show safeJsonParseChars j.data = some (Json.obj kvs)
  simp only [safeJsonParseChars]
  rw [htrim]
  have hnf2 : hasSub fenceMark j.data = false := htrim ▸ hnf
  rw [if_neg (by simp [hnf2])]
  obtain ⟨jt, hjt⟩ := head_some_decomp hjh
  have hfi : firstIdx '{' j.data = some 0 := by
    rw [hjt]
    simp [firstIdx]
  have hli : lastIdx '}' j.data = some (j.data.length - 1) := by
    have h9 := lastIdx_of_split j.data [] (by simp) hjl
    rwa [List.append_nil] at h9
  simp only [hfi, hli]
  have hslice := jsSubstring_slice [] j.data [] (by rw [hjt]; simp)
  simp only [List.nil_append, List.append_nil, List.length_nil, Nat.zero_add] at hslice
  rw [hslice]
  exact hjp

/-- Spot check of the amended C2: an object with none of the required fields
is returned as a success. -/
theorem validator_returns_incomplete_object_witness :
    (jHasField (Json.obj [("mood", Json.str "noir")]) "narrative" = false) ∧
    safeJsonParse "\x7b\"mood\":\"noir\"\x7d" =
      some (Json.obj [("mood", Json.str "noir")]) :=
  ⟨rfl, validator_returns_incomplete_object "\x7b\"mood\":\"noir\"\x7d"
    [("mood", Json.str "noir")] rfl rfl (by decide) rfl (Or.inl rfl)⟩

/-- **C3 (amended).** When a `{`/`}` span is located in the cleaned text and
the located span is not valid JSON, the Response Validator returns the
failure value `none` (the model of `JSON.parse` throwing and the `catch`
returning `null`); the validator itself is a total function by construction.
(The original claim's other half is false: an input with no `{`/`}` pair is
parsed whole and can succeed, see the counterexample.) -/
theorem validator_malformed_span_fails (s : String) (i k : Nat)
    (hcl : hasSub fenceMark (trimChars s.data) = false)
    (hfi : firstIdx '{' (trimChars s.data) = some i)
    (hli : lastIdx '}' (trimChars s.data) = some k)
    (hbad : jsonParseChars (jsSubstring (trimChars s.data) i (k + 1)) = none) :
    safeJsonParse s = none := by
  show safeJsonParseChars s.data = none
  simp only [safeJsonParseChars]
  rw [if_neg (by simp [hcl])]
  simp only [hfi, hli]
  exact hbad

/-- Spot check of the amended C3: a brace-delimited span that is not valid
JSON yields `none`. -/
theorem validator_malformed_span_fails_witness :
    (firstIdx '{' (trimChars "\x7bnot json\x7d".data) = some 0) ∧
    (lastIdx '}' (trimChars "\x7bnot json\x7d".data) = some 9) ∧
    safeJsonParse "\x7bnot json\x7d" = none :=
  ⟨rfl, rfl, validator_malformed_span_fails "\x7bnot json\x7d" 0 9
    (by decide) rfl rfl rfl⟩
